import Mathlib

/-!
# Verification of the maze library (`mazes.py`)

A shallow embedding of the cell/grid data model, the markup family and the
six maze-generation algorithms of `mazes.py`, together with proofs about the
properties claimed in the specification.

Modelling conventions:

* A cell is identified by its `(row, column)` coordinates (`Cell.__eq__` and
  `Cell.__hash__` are purely positional), so a cell is a `Pos := Nat × Nat`.
* The per-cell `links` dictionaries are modelled as one global, insertion
  ordered list of *directed* pairs: `(a, b) ∈ s` means `b in a.links`.
  Dictionary insertion (`self.links[cell] = True`) keeps the original
  position when the key is already present, which `linkOne` mirrors.
* Python exceptions are modelled with `Except`/`Option`; a raised exception
  carries the link state at the moment it surfaces where that matters.
* `while` loops are modelled by fuel-indexed recursion returning `none` when
  the fuel runs out; the loop condition is tested before the fuel, so a
  returned `some` is exactly a terminating run of the Python loop.
* The process-wide random source is modelled by streams `rnd : Nat → Nat`
  (integer draws: `random.randint`, `random.choice` index) and
  `rndQ : Nat → ℚ` (float draws: `random.random()`), threaded through the
  code with explicit draw counters.  `random.choice(l)` on a nonempty list
  becomes `l.getD (rnd i % l.length) (0, 0)`; the modulus keeps the index
  in range so the default is never consulted.
-/

namespace Mazes

/-- A cell, identified positionally as in `Cell.__eq__`/`Cell.__hash__`. -/
abbrev Pos := Nat × Nat

/-- Row-major strict order on cells, mirroring `Cell.__lt__`. -/
def posLt (a b : Pos) : Bool := a.1 < b.1 || (a.1 == b.1 && a.2 < b.2)

/-- Row-major reflexive order on cells. -/
def posLe (a b : Pos) : Bool := posLt a b || a == b

/-- The grid shape: `Grid(num_rows, num_columns)`.  The constructor asserts
both dimensions positive; that precondition is carried as a hypothesis of
the theorems that need it. -/
structure Grid where
  num_rows : Nat
  num_columns : Nat
deriving DecidableEq, Repr

namespace Grid

/-- `Grid.size()`: `self.num_columns * self.num_rows`. -/
def size (g : Grid) : Nat := g.num_columns * g.num_rows

/-- The `north` attribute wired by `connect_cells`: set iff `row > 0`. -/
def north (_g : Grid) (p : Pos) : Option Pos :=
  if 0 < p.1 then some (p.1 - 1, p.2) else none

/-- The `south` attribute wired by `connect_cells`: set iff `row < num_rows - 1`. -/
def south (g : Grid) (p : Pos) : Option Pos :=
  if p.1 < g.num_rows - 1 then some (p.1 + 1, p.2) else none

/-- The `east` attribute wired by `connect_cells`: set iff `col < num_columns - 1`. -/
def east (g : Grid) (p : Pos) : Option Pos :=
  if p.2 < g.num_columns - 1 then some (p.1, p.2 + 1) else none

/-- The `west` attribute wired by `connect_cells`: set iff `col > 0`. -/
def west (_g : Grid) (p : Pos) : Option Pos :=
  if 0 < p.2 then some (p.1, p.2 - 1) else none

/-- `Cell.neighbors()`: the non-`None` entries of
`[self.north, self.south, self.east, self.west]`, in that order. -/
def neighbors (g : Grid) (p : Pos) : List Pos :=
  ([g.north p, g.south p, g.east p, g.west p]).filterMap id

/-- `Grid.cell_at(row, column)`: the cell if the (possibly negative) indices
are in bounds, `None` otherwise. -/
def cell_at (g : Grid) (row column : Int) : Option Pos :=
  if 0 ≤ row ∧ row < g.num_rows ∧ 0 ≤ column ∧ column < g.num_columns then
    some (row.toNat, column.toNat)
  else none

/-- `Grid.each_cell()`: all cells in row-major order. -/
def cellList (g : Grid) : List Pos :=
  (List.range g.num_rows).flatMap fun r => (List.range g.num_columns).map fun c => (r, c)

/-- One row of `Grid.each_row()`. -/
def rowList (g : Grid) (r : Nat) : List Pos :=
  (List.range g.num_columns).map fun c => (r, c)

/-- Membership in the grid, as a Boolean bound check. -/
def inBounds (g : Grid) (p : Pos) : Bool := p.1 < g.num_rows && p.2 < g.num_columns

/-- `Grid.random_cell()`: two independent `randint` draws (row then column),
returning the chosen cell together with the advanced draw counter. -/
def randomCell (g : Grid) (rnd : Nat → Nat) (i : Nat) : Pos × Nat :=
  ((rnd i % g.num_rows, rnd (i + 1) % g.num_columns), i + 2)

end Grid

/-! ## Link state: the union of all `Cell.links` dictionaries -/

/-- The global link state: the list of directed pairs `(a, b)` such that
`b in a.links`, in insertion order. -/
abbrev LinkState := List (Pos × Pos)

/-- One dictionary insertion `self.links[cell] = True` (for `self = a`,
`cell = b`): a no-op when the key is present, an append otherwise. -/
def linkOne (s : LinkState) (a b : Pos) : LinkState :=
  if (a, b) ∈ s then s else s ++ [(a, b)]

/-- `Cell.link(cell, bidirectional)`: insert `b` into `a`s links and, when
bidirectional, also `a` into `b`s links. -/
def link (s : LinkState) (a b : Pos) (bidirectional : Bool) : LinkState :=
  let s1 := linkOne s a b
  if bidirectional then linkOne s1 b a else s1

/-- One dictionary deletion `del self.links[cell]`: raises `KeyError` (the
error carries the untouched state) when the key is absent. -/
def unlinkOne (s : LinkState) (a b : Pos) : Except LinkState LinkState :=
  if (a, b) ∈ s then .ok (s.erase (a, b)) else .error s

/-- `Cell.unlink(cell, bidirectional)`.  The `KeyError` raised by a missing
key propagates with the link state as already mutated at that point. -/
def unlink (s : LinkState) (a b : Pos) : Bool → Except LinkState LinkState
  | false => unlinkOne s a b
  | true =>
    match unlinkOne s a b with
    | .error s1 => .error s1
    | .ok s1 =>
      match unlinkOne s1 b a with
      | .error s2 => .error s2
      | .ok s2 => .ok s2

/-- `Cell.is_linked(cell)`: membership in the link dictionary. -/
def isLinked (s : LinkState) (a b : Pos) : Bool := s.contains (a, b)

/-- `Cell.all_links()`: the linked cells in dictionary (insertion) order. -/
def allLinks (s : LinkState) (a : Pos) : List Pos :=
  s.filterMap fun e => if e.1 = a then some e.2 else none

/-- `Cell.link_count()`: the size of the link dictionary. -/
def linkCount (s : LinkState) (a : Pos) : Nat := (allLinks s a).length

/-- A bidirectional link or unlink request, for stating the symmetry
invariant over arbitrary operation sequences. -/
inductive LinkOp where
  | doLink (a b : Pos)
  | doUnlink (a b : Pos)
deriving DecidableEq, Repr

/-- Apply one bidirectional operation.  A failing `unlink` leaves the state
as it was at the moment the `KeyError` surfaced. -/
def applyOp (s : LinkState) : LinkOp → LinkState
  | .doLink a b => link s a b true
  | .doUnlink a b =>
    match unlink s a b true with
    | .ok s1 => s1
    | .error s1 => s1

/-- Run a sequence of bidirectional operations from a given state. -/
def runOps (s : LinkState) (ops : List LinkOp) : LinkState := ops.foldl applyOp s

/-- The symmetry invariant of the link relation. -/
def SymmState (s : LinkState) : Prop := ∀ a b : Pos, (a, b) ∈ s → (b, a) ∈ s

/-! ## The Markup family -/

/-- `Markup(grid, default)`: a per-cell value table with a default.  The
`marks` dictionary is an insertion-ordered association list. -/
structure Markup (V : Type) where
  grid : Grid
  marks : List (Pos × V)
  default : V
deriving Repr

namespace Markup

/-- Dictionary lookup `self.marks.get(cell)` (no default). -/
def lookup {V : Type} (m : Markup V) (p : Pos) : Option V :=
  (m.marks.find? fun e => e.1 == p).map (·.2)

/-- `Markup.__getitem__`: `self.marks.get(cell, self.default)`. -/
def getItem {V : Type} (m : Markup V) (p : Pos) : V :=
  (m.lookup p).getD m.default

/-- `Markup.__setitem__`: dictionary assignment (keeps the key position if
present, appends otherwise). -/
def setItem {V : Type} (m : Markup V) (p : Pos) (v : V) : Markup V :=
  if m.marks.any (fun e => e.1 == p) then
    { m with marks := m.marks.map fun e => if e.1 == p then (p, v) else e }
  else
    { m with marks := m.marks ++ [(p, v)] }

/-- `Markup.set_item_at(row, column, value)`: bound asserts, then cell
lookup; `IndexError` cannot actually trigger after the asserts. -/
def set_item_at {V : Type} (m : Markup V) (row column : Int) (v : V) :
    Except String (Markup V) :=
  if ¬ (0 ≤ row ∧ row < m.grid.num_rows) then .error "AssertionError"
  else if ¬ (0 ≤ column ∧ column < m.grid.num_columns) then .error "AssertionError"
  else
    match m.grid.cell_at row column with
    | some p => .ok (m.setItem p v)
    | none => .error "IndexError"

/-- `Markup.get_item_at(row, column)`: bound asserts, then
`self.marks.get(cell)` — which yields `None` (not the default) for an
unmarked cell. -/
def get_item_at {V : Type} (m : Markup V) (row column : Int) :
    Except String (Option V) :=
  if ¬ (0 ≤ row ∧ row < m.grid.num_rows) then .error "AssertionError"
  else if ¬ (0 ≤ column ∧ column < m.grid.num_columns) then .error "AssertionError"
  else
    match m.grid.cell_at row column with
    | some p => .ok (m.lookup p)
    | none => .error "IndexError"

/-- One step of Python `max` over the key iterator: keep the earliest
maximum (replace only on a strictly larger key value). -/
def maxStep {V : Type} [LinearOrder V] (m : Markup V)
    (acc : Option Pos) (k : Pos) : Option Pos :=
  match acc with
  | none => some k
  | some cur => if m.getItem cur < m.getItem k then some k else some cur

/-- One step of Python `min` over the key iterator: keep the earliest
minimum (replace only on a strictly smaller key value). -/
def minStep {V : Type} [LinearOrder V] (m : Markup V)
    (acc : Option Pos) (k : Pos) : Option Pos :=
  match acc with
  | none => some k
  | some cur => if m.getItem k < m.getItem cur then some k else some cur

/-- `Markup.max()`: `max(self.marks.keys(), key=self.__getitem__)`.  Python
`max` scans the keys in insertion order and keeps the earliest maximum;
on an empty table it raises `ValueError`, modelled as `none`. -/
def maxCell {V : Type} [LinearOrder V] (m : Markup V) : Option Pos :=
  (m.marks.map Prod.fst).foldl (maxStep m) none

/-- `Markup.min()`: `min(self.marks.keys(), key=self.__getitem__)`, with the
earliest minimum kept; `ValueError` on an empty table is `none`. -/
def minCell {V : Type} [LinearOrder V] (m : Markup V) : Option Pos :=
  (m.marks.map Prod.fst).foldl (minStep m) none

end Markup

/-! ## ColorizedMarkup -/

/-- Python's `round`: round half to even (banker's rounding). -/
def pyRound (q : ℚ) : Int :=
  let f : Int := ⌊q⌋
  let r : ℚ := q - f
  if r < 1/2 then f
  else if 1/2 < r then f + 1
  else if f % 2 = 0 then f else f + 1

/-- One RGB triplet produced by `intensity_colorize`. -/
def rgbOf (channel : Char) (maxValue cellValue : ℚ) : List Int :=
  let intensity : ℚ := (maxValue - cellValue) / maxValue
  let dark : Int := pyRound (255 * intensity)
  let bright : Int := pyRound (127 * intensity) + 128
  if channel = 'R' then [bright, dark, dark]
  else if channel = 'G' then [dark, bright, dark]
  else [dark, dark, bright]

/-- `ColorizedMarkup.intensity_colorize(markup)`: find the source markup's
maximum cell (`ValueError` on an empty table), then recolour every grid
cell; the division raises `ZeroDivisionError` at the first cell whenever
the maximum value is `0`. -/
def intensityColorize (g : Grid) (channel : Char) (src : Markup ℚ) :
    Except String (List (Pos × List Int)) :=
  match src.maxCell with
  | none => .error "ValueError"
  | some mx =>
    let maxValue := src.getItem mx
    g.cellList.foldlM
      (fun acc c =>
        if maxValue = 0 then .error "ZeroDivisionError"
        else .ok (acc ++ [(c, rgbOf channel maxValue (src.getItem c))]))
      []

/-- The root cell used by `ColorizedMarkup.colorize_dijkstra`: a falsy
(`None` or `0`) `start_row`/`start_column` is replaced by the grid's center
index. -/
def colorizeDijkstraRoot (g : Grid) (start_row start_column : Option Nat) :
    Option Pos :=
  let sr : Nat :=
    match start_row with
    | none => g.num_rows / 2
    | some v => if v = 0 then g.num_rows / 2 else v
  let sc : Nat :=
    match start_column with
    | none => g.num_columns / 2
    | some v => if v = 0 then g.num_columns / 2 else v
  g.cell_at sr sc

/-! ## DijkstraMarkup -/

/-- The distance table of a `DijkstraMarkup`: an insertion-ordered
association list from cells to distances. -/
abbrev Marks := List (Pos × Nat)

/-- `self.marks.get(cell)`. -/
def lookupM (m : Marks) (p : Pos) : Option Nat :=
  (m.find? fun e => e.1 == p).map (·.2)

/-- `DijkstraMarkup.__getitem__`: lookup with the default `0`. -/
def getItemM (m : Marks) (p : Pos) : Nat := (lookupM m p).getD 0

/-- Dictionary assignment on the distance table. -/
def setM (m : Marks) (p : Pos) (v : Nat) : Marks :=
  if m.any (fun e => e.1 == p) then
    m.map fun e => if e.1 == p then (p, v) else e
  else m ++ [(p, v)]

/-- A heap entry `(dist, cell)`. -/
abbrev Entry := Nat × Pos

/-- The total order Python uses on heap entries: lexicographic on the
distance, then `Cell.__lt__` (row-major). -/
def entLe (a b : Entry) : Bool :=
  a.1 < b.1 || (a.1 == b.1 && posLe a.2 b.2)

/-- Remove a minimal entry from the heap.  `heapq.heappop` returns a
minimal element of the list; since `entLe` is a total order, all minimal
elements are equal, so popping the first minimal one is observably the
same operation (the remaining entries form the same multiset). -/
def popMin (l : List Entry) : Option (Entry × List Entry) :=
  match l.foldl
      (fun acc e =>
        match acc with
        | none => some e
        | some m => if entLe m e then some m else some e)
      none with
  | none => none
  | some m => some (m, l.erase m)

/-- The body of the Dijkstra neighbor loop: relax every `cell.all_links()`
entry of the popped cell, pushing improved entries. -/
def relaxAll (s : LinkState) (cell : Pos) (dist : Nat)
    (marks : Marks) (frontier : List Entry) : Marks × List Entry :=
  (allLinks s cell).foldl
    (fun acc nb =>
      if (lookupM acc.1 nb).isNone || dist + 1 < getItemM acc.1 nb then
        (setM acc.1 nb (dist + 1), acc.2 ++ [(dist + 1, nb)])
      else acc)
    (marks, frontier)

/-- The `while len(frontier) > 0` loop of `DijkstraMarkup.__init__`. -/
def dijkstraLoop (s : LinkState) : Nat → Marks → List Entry → Option Marks
  | fuel, marks, frontier =>
    match popMin frontier with
    | none => some marks
    | some ((dist, cell), rest) =>
      match fuel with
      | 0 => none
      | fuel + 1 =>
        if getItemM marks cell < dist then dijkstraLoop s fuel marks rest
        else
          let mf := relaxAll s cell dist marks rest
          dijkstraLoop s fuel mf.1 mf.2

/-- `DijkstraMarkup(grid, root_cell)`: seed the table with
`self[root_cell] = 0` and the frontier with `[(0, root_cell)]`, then run
the loop. -/
def dijkstraMarkup (s : LinkState) (root : Pos) (fuel : Nat) : Option Marks :=
  dijkstraLoop s fuel (setM [] root 0) [(0, root)]

/-! ## ShortestPathMarkup -/

/-- Python `min(list, key=f)` where the key can raise (`self.marks[cell]`
raises `KeyError` on a missing cell): the earliest element with minimal
key, `none` on an empty list or a missing key. -/
def argminByKey (f : Pos → Option Nat) : List Pos → Option (Pos × Nat)
  | [] => none
  | [x] => (f x).map fun v => (x, v)
  | x :: y :: rest => do
    let v ← f x
    let mv ← argminByKey f (y :: rest)
    pure (if v ≤ mv.2 then (x, v) else mv)

/-- The backward walk `while current is not start_cell` of
`ShortestPathMarkup.__init__`, writing `path_marker` on the way. -/
def spWalk {V : Type} (s : LinkState) (marks : Marks) (start : Pos)
    (path_marker : V) :
    Nat → Pos → Markup V → Option (Markup V)
  | fuel, current, pm =>
    if current = start then some pm
    else
      match fuel with
      | 0 => none
      | fuel + 1 =>
        let pm1 := pm.setItem current path_marker
        match argminByKey (lookupM marks) (allLinks s current) with
        | none => none
        | some (next, _) => spWalk s marks start path_marker fuel next pm1

/-- `ShortestPathMarkup(grid, start_cell, goal_cell, ...)`: run Dijkstra
from `start_cell`, initialise every cell to `non_path_marker`, walk back
from `goal_cell`, then overwrite both endpoints with `end_marker`. -/
def shortestPathMarkup {V : Type} (g : Grid) (s : LinkState)
    (start goal : Pos) (path_marker non_path_marker end_marker : V)
    (dfuel wfuel : Nat) : Option (Markup V) :=
  match dijkstraMarkup s start dfuel with
  | none => none
  | some marks =>
    let pm0 : Markup V :=
      g.cellList.foldl (fun acc c => acc.setItem c non_path_marker)
        { grid := g, marks := [], default := non_path_marker }
    match spWalk s marks start path_marker wfuel goal pm0 with
    | none => none
    | some pmf => some ((pmf.setItem start end_marker).setItem goal end_marker)

/-! ## The generation algorithms -/

/-- The candidate list built by `binary_tree`: the north neighbor (if any)
then the east neighbor (if any). -/
def btNeighbors (g : Grid) (p : Pos) : List Pos :=
  (match g.north p with | some n => [n] | none => []) ++
  (match g.east p with | some e => [e] | none => [])

/-- One `binary_tree` loop iteration on cell `p`, threading the link state
and the draw counter. -/
def binaryTreeStep (g : Grid) (rnd : Nat → Nat)
    (st : LinkState × Nat) (p : Pos) : LinkState × Nat :=
  if (btNeighbors g p).isEmpty then st
  else
    (link st.1 p
      ((btNeighbors g p).getD (rnd st.2 % (btNeighbors g p).length) (0, 0)) true,
     st.2 + 1)

/-- `binary_tree(grid)`: visit every cell in row-major order and link it to
a random choice among its north/east neighbors. -/
def binary_tree (g : Grid) (rnd : Nat → Nat) (s0 : LinkState) : LinkState :=
  (g.cellList.foldl (binaryTreeStep g rnd) (s0, 0)).1

/-- The per-cell state of `sidewinder`: link state, current run, integer
draw counter, float draw counter. -/
abbrev SwState := LinkState × List Pos × Nat × Nat

/-- One `sidewinder` loop iteration on cell `p`.  The condition
`(cell.row == 0 or random.random() > odds) and cell.east` draws a float
only when `row ≠ 0` (short-circuit), and checks `east` afterwards. -/
def sidewinderCell (g : Grid) (odds : ℚ) (rndQ : Nat → ℚ) (rnd : Nat → Nat)
    (st : SwState) (p : Pos) : SwState :=
  let s := st.1
  let run := st.2.1 ++ [p]
  let i := st.2.2.1
  let j := st.2.2.2
  let cj : Bool × Nat := if p.1 = 0 then (true, j) else (decide (rndQ j > odds), j + 1)
  match g.east p with
  | some e =>
    if cj.1 then (link s p e true, run, i, cj.2)
    else
      -- row > 0 here: `cond` is always true on row 0
      let chosen := run.getD (rnd i % run.length) (0, 0)
      match g.north chosen with
      | some n => (link s chosen n true, [], i + 1, cj.2)
      | none => (s, [], i + 1, cj.2)  -- unreachable: run cells are on row p.1 > 0
  | none =>
    if 0 < p.1 then
      let chosen := run.getD (rnd i % run.length) (0, 0)
      match g.north chosen with
      | some n => (link s chosen n true, [], i + 1, cj.2)
      | none => (s, [], i + 1, cj.2)  -- unreachable: run cells are on row p.1 > 0
    else (s, run, i, cj.2)

/-- One row of `sidewinder`: fold the cells with a fresh empty run. -/
def sidewinderRow (g : Grid) (odds : ℚ) (rndQ : Nat → ℚ) (rnd : Nat → Nat)
    (acc : LinkState × Nat × Nat) (r : Nat) : LinkState × Nat × Nat :=
  let res := (g.rowList r).foldl (sidewinderCell g odds rndQ rnd)
    (acc.1, [], acc.2.1, acc.2.2)
  (res.1, res.2.2.1, res.2.2.2)

/-- The loop body of `sidewinder(grid, odds)` after the asserts. -/
def sidewinderRun (g : Grid) (odds : ℚ) (rndQ : Nat → ℚ) (rnd : Nat → Nat)
    (s0 : LinkState) : LinkState :=
  ((List.range g.num_rows).foldl (sidewinderRow g odds rndQ rnd) (s0, 0, 0)).1

/-- `sidewinder(grid, odds)`: the two asserts `odds >= 0.0` and
`odds < 1.0` fire before the loop; a failing assert surfaces with the link
state untouched. -/
def sidewinder (g : Grid) (odds : ℚ) (rndQ : Nat → ℚ) (rnd : Nat → Nat)
    (s0 : LinkState) : Except (String × LinkState) LinkState :=
  if ¬ (0 ≤ odds) then .error ("AssertionError: odds >= 0.0", s0)
  else if ¬ (odds < 1) then .error ("AssertionError: odds < 1.0", s0)
  else .ok (sidewinderRun g odds rndQ rnd s0)

/-- The cells strictly before column `c` of row `r` in row-major order:
the part of the grid already attached to the growing `sidewinder` tree. -/
def visUpTo (g : Grid) (r c : Nat) : Finset Pos :=
  g.cellList.toFinset.filter fun p => p.1 < r ∨ (p.1 = r ∧ p.2 < c)

/-- The `while len(visited) < grid.size()` loop of `aldous_broder`. -/
def aldousLoop (g : Grid) (rnd : Nat → Nat) :
    Nat → Pos → List Pos → LinkState → Nat → Option LinkState
  | fuel, current, visited, s, i =>
    if visited.length < g.size then
      match fuel with
      | 0 => none
      | fuel + 1 =>
        let nbrs := g.neighbors current
        let nb := nbrs.getD (rnd i % nbrs.length) (0, 0)
        if nb ∈ visited then aldousLoop g rnd fuel nb visited s (i + 1)
        else aldousLoop g rnd fuel nb (visited ++ [nb]) (link s nb current true) (i + 1)
    else some s

/-- `aldous_broder(grid)`: random start, then a random walk linking each
newly visited cell to the cell it was entered from. -/
def aldous_broder (g : Grid) (rnd : Nat → Nat) (fuel : Nat) (s0 : LinkState) :
    Option LinkState :=
  let ci := g.randomCell rnd 0
  aldousLoop g rnd fuel ci.1 [ci.1] s0 ci.2

/-- The loop-erasure `while path[-1] != next: path.pop()`: chop the path
back to the revisited cell (kept as the new last element). -/
def chopTo (next : Pos) : List Pos → List Pos
  | [] => []
  | p :: rest =>
    if (p :: rest).getLast? = some next then p :: rest
    else chopTo next (p :: rest).dropLast
termination_by l => l.length
decreasing_by simp [List.length_dropLast]

/-- The `while path[-1] in unvisited` random-walk loop of `wilson`,
returning the finished path and the advanced draw counter. -/
def wilsonWalk (g : Grid) (rnd : Nat → Nat) :
    Nat → List Pos → List Pos → Nat → Option (List Pos × Nat)
  | fuel, unvisited, path, i =>
    if (path.getLast?.map fun l => unvisited.contains l).getD false then
      match fuel with
      | 0 => none
      | fuel + 1 =>
        let cur := path.getLast?.getD (0, 0)
        let nbrs := g.neighbors cur
        let nb := nbrs.getD (rnd i % nbrs.length) (0, 0)
        if nb ∈ path then wilsonWalk g rnd fuel unvisited (chopTo nb path) (i + 1)
        else wilsonWalk g rnd fuel unvisited (path ++ [nb]) (i + 1)
    else some (path, i)

/-- The path-connection loop
`for i in range(len(path) - 1): path[i].link(path[i+1]); unvisited.remove(path[i])`. -/
def linkPath (s : LinkState) (unvisited : List Pos) :
    List Pos → LinkState × List Pos
  | a :: b :: rest =>
    linkPath (link s a b true) (unvisited.erase a) (b :: rest)
  | _ => (s, unvisited)

/-- The outer `while len(unvisited) > 0` loop of `wilson` (also the second
phase of `hybrid`, whose source text is the same loop). -/
def wilsonLoop (g : Grid) (rnd : Nat → Nat) (wfuel : Nat) :
    Nat → List Pos → LinkState → Nat → Option (LinkState × Nat)
  | fuel, unvisited, s, i =>
    if 0 < unvisited.length then
      match fuel with
      | 0 => none
      | fuel + 1 =>
        let start := unvisited.getD (rnd i % unvisited.length) (0, 0)
        match wilsonWalk g rnd wfuel unvisited [start] (i + 1) with
        | none => none
        | some (path, i1) =>
          let su := linkPath s unvisited path
          wilsonLoop g rnd wfuel fuel su.2 su.1 i1
    else some (s, i)

/-- `wilson(grid)`: remove a random first cell from the unvisited list,
then repeat loop-erased random walks until every cell is visited. -/
def wilson (g : Grid) (rnd : Nat → Nat) (fuel wfuel : Nat) (s0 : LinkState) :
    Option LinkState :=
  let ci := g.randomCell rnd 0
  let unvisited := g.cellList.erase ci.1
  (wilsonLoop g rnd wfuel fuel unvisited s0 ci.2).map (·.1)

/-- The first (`Aldous-Broder`-style) phase of `hybrid`:
`while len(unvisited) > grid.size() * threshold`. -/
def hybridPhase1 (g : Grid) (rnd : Nat → Nat) (threshold : ℚ) :
    Nat → Pos → List Pos → LinkState → Nat →
    Option (Pos × List Pos × LinkState × Nat)
  | fuel, current, unvisited, s, i =>
    if (g.size : ℚ) * threshold < (unvisited.length : ℚ) then
      match fuel with
      | 0 => none
      | fuel + 1 =>
        let nbrs := g.neighbors current
        let nb := nbrs.getD (rnd i % nbrs.length) (0, 0)
        if nb ∈ unvisited then
          hybridPhase1 g rnd threshold fuel nb (unvisited.erase nb)
            (link s nb current true) (i + 1)
        else hybridPhase1 g rnd threshold fuel nb unvisited s (i + 1)
    else some (current, unvisited, s, i)

/-- `hybrid(grid, threshold)`: a random-walk phase down to the threshold,
then Wilson's loop on the remaining unvisited cells. -/
def hybrid (g : Grid) (rnd : Nat → Nat) (threshold : ℚ) (fuel1 fuel2 wfuel : Nat)
    (s0 : LinkState) : Option LinkState :=
  let ci := g.randomCell rnd 0
  let unvisited := g.cellList.erase ci.1
  match hybridPhase1 g rnd threshold fuel1 ci.1 unvisited s0 ci.2 with
  | none => none
  | some (_, unv, s, i) => (wilsonLoop g rnd wfuel fuel2 unv s i).map (·.1)

/-- The `while stack:` loop of `recursive_backtracker`; the stack grows at
the tail (`stack[-1]` is the last element). -/
def rbLoop (g : Grid) (rnd : Nat → Nat) :
    Nat → List Pos → List Pos → LinkState → Nat → Option LinkState
  | fuel, visited, stack, s, i =>
    match stack with
    | [] => some s
    | _ :: _ =>
      match fuel with
      | 0 => none
      | fuel + 1 =>
        let current := stack.getLast?.getD (0, 0)
        let unvis := (g.neighbors current).filter fun n => ¬ n ∈ visited
        if unvis.isEmpty then rbLoop g rnd fuel visited stack.dropLast s i
        else
          let nb := unvis.getD (rnd i % unvis.length) (0, 0)
          rbLoop g rnd fuel (visited ++ [nb]) (stack ++ [nb])
            (link s current nb true) (i + 1)

/-- `recursive_backtracker(grid, start_cell)`: explicit-stack DFS; a falsy
`start_cell` (i.e. `None`) is replaced by a random cell. -/
def recursive_backtracker (g : Grid) (rnd : Nat → Nat) (start? : Option Pos)
    (fuel : Nat) (s0 : LinkState) : Option LinkState :=
  let ci : Pos × Nat :=
    match start? with
    | some c => (c, 0)
    | none => g.randomCell rnd 0
  rbLoop g rnd fuel [ci.1] [ci.1] s0 ci.2

/-! ## Concrete instances used by the scenario claims -/

/-- The 3×3 grid of the binary-tree bias scenario. -/
def g33 : Grid := ⟨3, 3⟩

/-- A 2×2 grid. -/
def g22 : Grid := ⟨2, 2⟩

/-- A 1×3 grid (one row, three columns). -/
def g13 : Grid := ⟨1, 3⟩

/-- An adversarial choice stream for `aldous_broder` on `g13`: start at
`(0, 0)`, then alternate east/west forever, so that `(0, 2)` is never
visited. -/
def badStream (k : Nat) : Nat := if k < 2 then 0 else k % 2

/-- The 1×N grid (one row, `N` columns) of the Dijkstra line scenario. -/
def g1N (N : Nat) : Grid := ⟨1, N⟩

/-- The 1×N line fully linked east-west: link every cell to its east
neighbor, exactly as `Cell.link` would build it. -/
def lineState (N : Nat) : LinkState :=
  (List.range (N - 1)).foldl (fun s k => link s (0, k) (0, k + 1) true) []

/-- The expected Dijkstra table on the line: cell `(0, j)` marked `j`, in
insertion order. -/
def marksUpTo (m : Nat) : Marks :=
  (List.range m).map fun j => ((((0 : Nat), j) : Pos), j)

/-! ## Spanning-tree statement -/

/-- One directed step along a link. -/
def LinkedRel (s : LinkState) (a b : Pos) : Prop := (a, b) ∈ s

/-- Reachability through the link relation. -/
def Reach (s : LinkState) : Pos → Pos → Prop :=
  Relation.ReflTransGen (LinkedRel s)

/-- Normalise a directed pair to its row-major-ordered representative. -/
def normPair (e : Pos × Pos) : Pos × Pos :=
  if posLe e.1 e.2 then e else (e.2, e.1)

/-- The set of undirected links of a link state. -/
def edgeFinset (s : LinkState) : Finset (Pos × Pos) :=
  (s.map normPair).toFinset

/-- The spanning-tree property claimed for the generation algorithms:
every cell reaches every other cell through links, and there are exactly
`size() - 1` undirected links. -/
def IsSpanning (g : Grid) (s : LinkState) : Prop :=
  (∀ p ∈ g.cellList, ∀ q ∈ g.cellList, Reach s p q) ∧
  (edgeFinset s).card = g.size - 1

/-- The structural well-formedness invariant preserved by bidirectional
operations: symmetry plus no duplicate directed pairs. -/
def InvState (s : LinkState) : Prop := SymmState s ∧ s.Nodup

/-- The directed pairs created by bidirectionally linking the consecutive
cells of a path, in creation order. -/
def pathPairs : List Pos → LinkState
  | a :: b :: rest => (a, b) :: (b, a) :: pathPairs (b :: rest)
  | _ => []

/-- Geographic adjacency inside the grid: a step of the lattice graph. -/
def NbrRel (g : Grid) (a b : Pos) : Prop :=
  a ∈ g.cellList ∧ b ∈ g.cellList ∧ b ∈ g.neighbors a

/-- The invariant maintained by every generation algorithm: the links built
so far form a spanning tree of the visited cells.  All fields depend on the
link state only through its multiset of directed pairs. -/
structure SpanInv (g : Grid) (vis : Finset Pos) (s : LinkState) : Prop where
  sub : ∀ p ∈ vis, p ∈ g.cellList
  vnonempty : vis.Nonempty
  sym : SymmState s
  nodup : s.Nodup
  ends : ∀ a b : Pos, (a, b) ∈ s → a ∈ vis ∧ b ∈ vis ∧ a ≠ b
  conn : ∀ p ∈ vis, ∀ q ∈ vis, Reach s p q
  count : s.length = 2 * (vis.card - 1)

/-- The invariant of the `binary_tree` sweep over a processed prefix of the
cells: every link recorded so far is the north/east parent link of a
processed cell, every processed cell with a candidate list has one, and the
pair count is twice the number of processed cells with candidates. -/
structure BTInv (g : Grid) (processed : List Pos) (s : LinkState) : Prop where
  sym : SymmState s
  nodup : s.Nodup
  account : ∀ a b : Pos, (a, b) ∈ s →
    (a ∈ processed ∧ b ∈ btNeighbors g a) ∨
    (b ∈ processed ∧ a ∈ btNeighbors g b)
  parent : ∀ c ∈ processed, btNeighbors g c ≠ [] →
    ∃ n ∈ btNeighbors g c, (c, n) ∈ s
  count : s.length = 2 * (processed.countP fun p => !(btNeighbors g p).isEmpty)

/-! ## Basic lemmas about the link state -/

theorem isLinked_iff {s : LinkState} {a b : Pos} :
    isLinked s a b = true ↔ (a, b) ∈ s := by
  simp [isLinked]

theorem isLinked_eq_false {s : LinkState} {a b : Pos} :
    isLinked s a b = false ↔ (a, b) ∉ s := by
  simp [isLinked]

theorem mem_linkOne {s : LinkState} {a b : Pos} {x : Pos × Pos} :
    x ∈ linkOne s a b ↔ x ∈ s ∨ x = (a, b) := by
  unfold linkOne
  split
  · rename_i h
    constructor
    · exact Or.inl
    · rintro (hx | rfl)
      · exact hx
      · exact h
  · simp [List.mem_append]

theorem subset_linkOne {s : LinkState} {a b : Pos} : s ⊆ linkOne s a b := by
  intro x hx
  exact mem_linkOne.mpr (Or.inl hx)

theorem linkOne_nodup {s : LinkState} {a b : Pos} (h : s.Nodup) :
    (linkOne s a b).Nodup := by
  unfold linkOne
  split
  · exact h
  · rename_i hm
    simp [List.nodup_append, h, hm]

theorem mem_link_true {s : LinkState} {a b : Pos} {x : Pos × Pos} :
    x ∈ link s a b true ↔ x ∈ s ∨ x = (a, b) ∨ x = (b, a) := by
  simp [link, mem_linkOne, or_assoc]

theorem subset_link {s : LinkState} {a b : Pos} {bi : Bool} :
    s ⊆ link s a b bi := by
  intro x hx
  cases bi <;> simp [link, mem_linkOne, hx]

theorem mem_link_self_left {s : LinkState} {a b : Pos} :
    (a, b) ∈ link s a b true :=
  mem_link_true.mpr (Or.inr (Or.inl rfl))

theorem mem_link_self_right {s : LinkState} {a b : Pos} :
    (b, a) ∈ link s a b true :=
  mem_link_true.mpr (Or.inr (Or.inr rfl))

theorem link_nodup {s : LinkState} {a b : Pos} {bi : Bool} (h : s.Nodup) :
    (link s a b bi).Nodup := by
  cases bi <;> simp [link, linkOne_nodup, linkOne_nodup h]

theorem symm_link {s : LinkState} {a b : Pos} (h : SymmState s) :
    SymmState (link s a b true) := by
  intro x y hxy
  rcases mem_link_true.mp hxy with hs | hx | hx
  · exact mem_link_true.mpr (Or.inl (h x y hs))
  · rcases Prod.mk.injEq .. ▸ hx with ⟨rfl, rfl⟩
    exact mem_link_self_right
  · rcases Prod.mk.injEq .. ▸ hx with ⟨rfl, rfl⟩
    exact mem_link_self_left

theorem linkCount_pos_of_mem {s : LinkState} {a b : Pos} (h : (a, b) ∈ s) :
    1 ≤ linkCount s a := by
  have hb : b ∈ allLinks s a := by
    simp only [allLinks, List.mem_filterMap]
    exact ⟨(a, b), h, by simp⟩
  have := List.length_pos.mpr (List.ne_nil_of_mem hb)
  simpa [linkCount] using this

/-! ## Claim C5: symmetry invariant -/

theorem invState_applyOp {s : LinkState} (h : InvState s) (op : LinkOp) :
    InvState (applyOp s op) := by
  obtain ⟨hsym, hnd⟩ := h
  cases op with
  | doLink a b =>
    simp only [applyOp]
    exact ⟨symm_link hsym, link_nodup hnd⟩
  | doUnlink a b =>
    simp only [applyOp, unlink, unlinkOne]
    by_cases hab : (a, b) ∈ s
    · have hba : (b, a) ∈ s := hsym a b hab
      by_cases heq : a = b
      · subst heq
        have : (a, a) ∉ s.erase (a, a) := by
          intro hmem
          exact absurd ((hnd.mem_erase_iff).mp hmem).1 (by simp)
        simp only [hab, if_pos, this, if_neg (by simpa using this)]
        refine ⟨?_, hnd.erase _⟩
        intro x y hxy
        have hx := (hnd.mem_erase_iff).mp hxy
        refine (hnd.mem_erase_iff).mpr ⟨?_, hsym x y hx.2⟩
        intro hc
        apply hx.1
        have : x = a ∧ y = a := by
          constructor
          · exact congrArg Prod.snd hc
          · exact congrArg Prod.fst hc
        simp [this.1, this.2]
      · have hba1 : (b, a) ∈ s.erase (a, b) := by
          refine (hnd.mem_erase_iff).mpr ⟨?_, hba⟩
          simp only [ne_eq, Prod.mk.injEq, not_and]
          intro _ h2
          exact absurd h2 heq
        simp only [hab, if_pos, hba1]
        refine ⟨?_, (hnd.erase _).erase _⟩
        intro x y hxy
        have hnd1 := hnd.erase (a, b)
        have hx2 := (hnd1.mem_erase_iff).mp hxy
        have hx3 := (hnd.mem_erase_iff).mp hx2.2
        refine (hnd1.mem_erase_iff).mpr ⟨?_, (hnd.mem_erase_iff).mpr ⟨?_, hsym x y hx3.2⟩⟩
        · intro hc
          apply hx3.1
          rcases Prod.mk.injEq .. ▸ hc with ⟨rfl, rfl⟩
          rfl
        · intro hc
          apply hx2.1
          rcases Prod.mk.injEq .. ▸ hc with ⟨rfl, rfl⟩
          rfl
    · simp only [if_neg hab]
      exact ⟨hsym, hnd⟩

theorem invState_runOps {s : LinkState} (h : InvState s) (ops : List LinkOp) :
    InvState (runOps s ops) := by
  induction ops generalizing s with
  | nil => exact h
  | cons op rest ih =>
    exact ih (invState_applyOp h op)

/-- C5: for all cells A and B, after any sequence of bidirectional link and
unlink operations starting from the all-unlinked state,
`A.is_linked(B) == B.is_linked(A)`; and `A.link(B)` with bidirectional true
makes both `A.is_linked(B)` and `B.is_linked(A)` true. -/
theorem link_symmetry_invariant :
    ∀ (ops : List LinkOp) (a b : Pos),
      isLinked (runOps [] ops) a b = isLinked (runOps [] ops) b a ∧
      ∀ s : LinkState,
        isLinked (link s a b true) a b = true ∧
        isLinked (link s a b true) b a = true := by
  intro ops a b
  have hinv : InvState (runOps [] ops) :=
    invState_runOps ⟨fun x y h => by simp at h, List.nodup_nil⟩ ops
  refine ⟨?_, fun s => ⟨isLinked_iff.mpr mem_link_self_left,
    isLinked_iff.mpr mem_link_self_right⟩⟩
  by_cases h : (a, b) ∈ runOps [] ops
  · rw [isLinked_iff.mpr h, (isLinked_iff.mpr (hinv.1 a b h)).symm]
  · have h2 : (b, a) ∉ runOps [] ops := fun hc => h (hinv.1 b a hc)
    rw [isLinked_eq_false.mpr h, isLinked_eq_false.mpr h2]

/-! ## Claim C6: sidewinder precondition -/

/-- C6: `sidewinder(grid, odds=1.0)` fails on the `odds < 1.0` assert, with
the link state untouched (the error carries the unmutated input state). -/
theorem sidewinder_odds_one_fails :
    ∀ (g : Grid) (rndQ : Nat → ℚ) (rnd : Nat → Nat) (s0 : LinkState),
      sidewinder g 1 rndQ rnd s0 =
        .error ("AssertionError: odds < 1.0", s0) := by
  intro g rndQ rnd s0
  simp [sidewinder]

/-! ## Claim C8: get_item_at on an unmarked in-bounds cell -/

/-- C8: for an in-bounds cell that has not been explicitly marked,
`Markup.get_item_at` returns the absent value `None`, while plain get
(`Markup.__getitem__`) returns the markup's declared default. -/
theorem get_item_at_unmarked {V : Type} (m : Markup V) (row column : Int)
    (hr0 : 0 ≤ row) (hr1 : row < m.grid.num_rows)
    (hc0 : 0 ≤ column) (hc1 : column < m.grid.num_columns)
    (hunmarked : m.lookup (row.toNat, column.toNat) = none) :
    m.get_item_at row column = .ok none ∧
    m.getItem (row.toNat, column.toNat) = m.default := by
  constructor
  · simp only [Markup.get_item_at, Grid.cell_at]
    rw [if_neg (not_not.mpr ⟨hr0, hr1⟩), if_neg (not_not.mpr ⟨hc0, hc1⟩),
        if_pos ⟨hr0, hr1, hc0, hc1⟩]
    simp [hunmarked]
  · simp [Markup.getItem, hunmarked]

/-- Witness for C8 at a concrete markup: a 1×1 grid, empty table. -/
theorem get_item_at_unmarked_witness :
    (Markup.get_item_at ⟨⟨1, 1⟩, [], 'd'⟩ 0 0 = .ok none) ∧
    (Markup.getItem ⟨⟨1, 1⟩, ([] : List (Pos × Char)), 'd'⟩ ((0 : Int).toNat, (0 : Int).toNat) = 'd') :=
  get_item_at_unmarked ⟨⟨1, 1⟩, [], 'd'⟩ 0 0 (by decide) (by decide)
    (by decide) (by decide) (by decide)

/-! ## Claim C9: colorize_dijkstra treats an explicit 0 as unspecified -/

/-- C9: `colorize_dijkstra` with `start_row = 0` (resp. `start_column = 0`)
behaves exactly like the unspecified argument: the falsy test `not start_row`
replaces an explicit `0` by the grid's center index, so row/column 0 is not
used as the Dijkstra source. -/
theorem colorize_dijkstra_explicit_zero :
    ∀ g : Grid,
      (∀ sc, colorizeDijkstraRoot g (some 0) sc = colorizeDijkstraRoot g none sc) ∧
      (∀ sr, colorizeDijkstraRoot g sr (some 0) = colorizeDijkstraRoot g sr none) ∧
      colorizeDijkstraRoot g (some 0) (some 0) =
        g.cell_at (g.num_rows / 2) (g.num_columns / 2) := by
  intro g
  refine ⟨fun sc => ?_, fun sr => ?_, ?_⟩ <;> simp [colorizeDijkstraRoot]

/-! ## Claim C10: unlink is not atomic on error -/

/-- C10: when `A.links` contains `B` but not conversely, `A.unlink(B)` first
removes `B` from `A`s side and only then raises the missing-key error, so
the surfaced state has `A.is_linked(B)` false while `B`s side is untouched. -/
theorem unlink_not_atomic (s : LinkState) (a b : Pos) (hnd : s.Nodup)
    (hab : (a, b) ∈ s) (hba : (b, a) ∉ s) :
    unlink s a b true = .error (s.erase (a, b)) ∧
    isLinked (s.erase (a, b)) a b = false ∧
    allLinks (s.erase (a, b)) b = allLinks s b := by
  have hne : a ≠ b := by
    rintro rfl
    exact hba hab
  have hba1 : (b, a) ∉ s.erase (a, b) := fun hc => hba (List.mem_of_mem_erase hc)
  refine ⟨?_, ?_, ?_⟩
  · simp only [unlink, unlinkOne, if_pos hab, if_neg hba1]
  · refine isLinked_eq_false.mpr fun hc => ?_
    simpa using ((hnd.mem_erase_iff).mp hc).1
  · obtain ⟨l1, l2, _, hsplit, herase⟩ := List.exists_erase_eq hab
    rw [herase, hsplit]
    simp only [allLinks, List.filterMap_append, List.filterMap_cons]
    rw [if_neg (by simpa using hne)]

/-- Witness for C10: the state produced by the one-directional
`A.link(B, bidirectional=False)`. -/
theorem unlink_not_atomic_witness :
    unlink [((0, 0), (0, 1))] (0, 0) (0, 1) true = .error [] ∧
    isLinked ([] : LinkState) (0, 0) (0, 1) = false ∧
    allLinks ([] : LinkState) (0, 1) = allLinks [((0, 0), (0, 1))] (0, 1) := by
  have h := unlink_not_atomic [((0, 0), (0, 1))] (0, 0) (0, 1)
    (by decide) (by decide) (by decide)
  simpa using h

/-! ## Claim C7: degenerate markup extrema and colorization -/

theorem maxStep_foldl_spec {V : Type} [LinearOrder V] (m : Markup V) :
    ∀ (keys : List Pos) (c0 : Pos),
      ∃ c, keys.foldl (Markup.maxStep m) (some c0) = some c ∧
        (c = c0 ∨ c ∈ keys) ∧ m.getItem c0 ≤ m.getItem c ∧
        ∀ k ∈ keys, m.getItem k ≤ m.getItem c := by
  intro keys
  induction keys with
  | nil => exact fun c0 => ⟨c0, rfl, Or.inl rfl, le_refl _, by simp⟩
  | cons k rest ih =>
    intro c0
    rw [List.foldl_cons]
    by_cases hlt : m.getItem c0 < m.getItem k
    · have hstep : Markup.maxStep m (some c0) k = some k := by
        simp [Markup.maxStep, hlt]
      rw [hstep]
      obtain ⟨c, hc, hmem, hle, hall⟩ := ih k
      refine ⟨c, hc, ?_, le_trans hlt.le hle, ?_⟩
      · rcases hmem with rfl | hm
        · exact Or.inr (List.mem_cons_self _ _)
        · exact Or.inr (List.mem_cons_of_mem _ hm)
      · intro x hx
        rcases List.mem_cons.mp hx with rfl | hx2
        · exact hle
        · exact hall x hx2
    · have hstep : Markup.maxStep m (some c0) k = some c0 := by
        simp [Markup.maxStep, hlt]
      rw [hstep]
      obtain ⟨c, hc, hmem, hle, hall⟩ := ih c0
      refine ⟨c, hc, ?_, hle, ?_⟩
      · rcases hmem with rfl | hm
        · exact Or.inl rfl
        · exact Or.inr (List.mem_cons_of_mem _ hm)
      · intro x hx
        rcases List.mem_cons.mp hx with rfl | hx2
        · exact le_trans (not_lt.mp hlt) hle
        · exact hall x hx2

theorem minStep_foldl_spec {V : Type} [LinearOrder V] (m : Markup V) :
    ∀ (keys : List Pos) (c0 : Pos),
      ∃ c, keys.foldl (Markup.minStep m) (some c0) = some c := by
  intro keys
  induction keys with
  | nil => exact fun c0 => ⟨c0, rfl⟩
  | cons k rest ih =>
    intro c0
    rw [List.foldl_cons]
    by_cases hlt : m.getItem k < m.getItem c0
    · have hstep : Markup.minStep m (some c0) k = some k := by
        simp [Markup.minStep, hlt]
      rw [hstep]
      exact ih k
    · have hstep : Markup.minStep m (some c0) k = some c0 := by
        simp [Markup.minStep, hlt]
      rw [hstep]
      exact ih c0

theorem maxCell_of_ne_nil {V : Type} [LinearOrder V] (m : Markup V)
    (h : m.marks ≠ []) :
    ∃ c, m.maxCell = some c ∧
      ∀ k ∈ m.marks.map Prod.fst, m.getItem k ≤ m.getItem c := by
  unfold Markup.maxCell
  match hm : m.marks with
  | [] => exact absurd hm h
  | e :: rest =>
    simp only [List.map_cons, List.foldl_cons]
    have hstep : Markup.maxStep m none e.1 = some e.1 := rfl
    rw [hstep]
    obtain ⟨c, hc, _, hle, hall⟩ := maxStep_foldl_spec m (rest.map Prod.fst) e.1
    refine ⟨c, hc, ?_⟩
    intro x hx
    rcases List.mem_cons.mp hx with rfl | hx2
    · exact hle
    · exact hall x hx2

theorem minCell_of_ne_nil {V : Type} [LinearOrder V] (m : Markup V)
    (h : m.marks ≠ []) : ∃ c, m.minCell = some c := by
  unfold Markup.minCell
  match hm : m.marks with
  | [] => exact absurd hm h
  | e :: rest =>
    simp only [List.map_cons, List.foldl_cons]
    have hstep : Markup.minStep m none e.1 = some e.1 := rfl
    rw [hstep]
    exact minStep_foldl_spec m (rest.map Prod.fst) e.1

theorem find_eq_of_mem_nodup {V : Type} {p : Pos} {v : V} :
    ∀ l : List (Pos × V), (p, v) ∈ l → (l.map Prod.fst).Nodup →
      (l.find? fun e => e.1 == p) = some (p, v) := by
  intro l
  induction l with
  | nil => intro hmem; simp at hmem
  | cons e rest ih =>
    intro hmem hnd
    rw [List.map_cons, List.nodup_cons] at hnd
    rcases List.mem_cons.mp hmem with rfl | hrest
    · simp [List.find?]
    · have hne : e.1 ≠ p := by
        intro hc
        exact hnd.1 (hc ▸ List.mem_map.mpr ⟨(p, v), hrest, rfl⟩)
      rw [List.find?]
      have hb : (e.1 == p) = false := by simpa using hne
      rw [hb]
      exact ih hrest hnd.2

theorem lookup_eq_of_mem_nodup {V : Type} {m : Markup V} {p : Pos} {v : V}
    (hmem : (p, v) ∈ m.marks) (hnd : (m.marks.map Prod.fst).Nodup) :
    m.lookup p = some v := by
  unfold Markup.lookup
  rw [find_eq_of_mem_nodup m.marks hmem hnd]
  rfl

theorem foldlM_colorize_ok {A B : Type} (mv : ℚ) (e : String)
    (f : A → B → A) (hmv : ¬ mv = 0) :
    ∀ (l : List B) (acc : A),
      (l.foldlM
        (fun a c => if mv = 0 then Except.error e else Except.ok (f a c))
        acc) = Except.ok (l.foldl f acc) := by
  intro l
  induction l with
  | nil => intro acc; rfl
  | cons x rest ih =>
    intro acc
    rw [List.foldlM_cons, if_neg hmv, List.foldl_cons]
    simpa using ih (f acc x)

/-- C7: `max()`/`min()` on an empty table signal the empty-collection
error; `intensity_colorize` raises `ZeroDivisionError` exactly when the
source markup's maximum value is `0`; and neither failure occurs once some
cell carries a positive value. -/
theorem markup_degenerate_extrema :
    ∀ (g : Grid) (channel : Char) (m : Markup ℚ),
      (m.marks = [] → m.maxCell = none ∧ m.minCell = none) ∧
      (∀ mx, m.maxCell = some mx → m.getItem mx = 0 → g.cellList ≠ [] →
        intensityColorize g channel m = .error "ZeroDivisionError") ∧
      ((m.marks.map Prod.fst).Nodup → (∃ e ∈ m.marks, 0 < e.2) →
        (∃ c, m.maxCell = some c) ∧ (∃ c, m.minCell = some c) ∧
        ∃ r, intensityColorize g channel m = .ok r) := by
  intro g channel m
  refine ⟨?_, ?_, ?_⟩
  · intro hnil
    constructor <;> simp [Markup.maxCell, Markup.minCell, hnil]
  · intro mx hmx hzero hne
    unfold intensityColorize
    rw [hmx]
    dsimp only
    match hl : g.cellList with
    | [] => exact absurd hl hne
    | c :: rest =>
      rw [List.foldlM_cons, if_pos hzero]
      rfl
  · intro hnd ⟨e, hemem, hepos⟩
    have hne : m.marks ≠ [] := List.ne_nil_of_mem hemem
    obtain ⟨mc, hmc, hall⟩ := maxCell_of_ne_nil m hne
    have hemax : e.2 ≤ m.getItem mc := by
      have he1 : m.getItem e.1 = e.2 := by
        simp [Markup.getItem, lookup_eq_of_mem_nodup hemem hnd]
      exact he1 ▸ hall e.1 (List.mem_map.mpr ⟨e, hemem, rfl⟩)
    have hpos : ¬ m.getItem mc = 0 := by
      intro hc
      rw [hc] at hemax
      exact absurd (lt_of_lt_of_le hepos hemax) (lt_irrefl 0)
    refine ⟨⟨mc, hmc⟩, minCell_of_ne_nil m hne, ?_⟩
    unfold intensityColorize
    rw [hmc]
    dsimp only
    exact ⟨_, foldlM_colorize_ok (m.getItem mc) _ _ hpos g.cellList []⟩

/-- Witness for C7: an empty table, a table whose maximum is `0`, and a
table with a positive mark, all over a 2×2 grid. -/
theorem markup_degenerate_extrema_witness :
    (Markup.maxCell ⟨g22, ([] : List (Pos × ℚ)), 0⟩ = none) ∧
    (intensityColorize g22 'R' ⟨g22, [((0, 0), (0 : ℚ))], 0⟩ =
      .error "ZeroDivisionError") ∧
    (∃ r, intensityColorize g22 'R'
      ⟨g22, [((0, 0), (0 : ℚ)), ((0, 1), (2 : ℚ))], 0⟩ = .ok r) := by
  refine ⟨(markup_degenerate_extrema g22 'R' _).1 rfl |>.1, ?_, ?_⟩
  · exact (markup_degenerate_extrema g22 'R' _).2.1 (0, 0) (by decide)
      (by decide) (by decide)
  · exact ((markup_degenerate_extrema g22 'R' _).2.2 (by decide)
      ⟨((0, 1), (2 : ℚ)), by decide, by norm_num⟩).2.2

/-! ## Claim C4: the binary-tree bias scenario on the 3×3 grid -/

theorem bt_step_subset {g : Grid} {rnd : Nat → Nat} {st : LinkState × Nat}
    {p : Pos} : st.1 ⊆ (binaryTreeStep g rnd st p).1 := by
  unfold binaryTreeStep
  split
  · exact List.Subset.refl _
  · intro x hx
    show x ∈ link st.1 p
      ((btNeighbors g p).getD (rnd st.2 % (btNeighbors g p).length) (0, 0)) true
    exact subset_link hx

theorem bt_closed_form (g : Grid) (rnd : Nat → Nat) (st : LinkState × Nat)
    (p n : Pos) (hn : btNeighbors g p = [n]) :
    binaryTreeStep g rnd st p = (link st.1 p n true, st.2 + 1) := by
  unfold binaryTreeStep
  rw [hn]
  simp [Nat.mod_one]

theorem bt_foldl_subset (g : Grid) (rnd : Nat → Nat) :
    ∀ (l : List Pos) (st : LinkState × Nat),
      st.1 ⊆ (l.foldl (binaryTreeStep g rnd) st).1 := by
  intro l
  induction l with
  | nil => exact fun st => List.Subset.refl _
  | cons p rest ih =>
    intro st
    rw [List.foldl_cons]
    exact List.Subset.trans bt_step_subset (ih _)

/-- C4 counterexample: on the 3×3 grid with the all-zero choice stream the
top-right cell `(0, 2)` ends with `link_count() == 2`, not `0` — it is
always linked from `(0, 1)` (and here also from `(1, 2)`). -/
theorem binary_tree_top_right_count_ne_zero :
    linkCount (binary_tree g33 (fun _ => 0) []) (0, 2) ≠ 0 := by decide

/-- C4 (amended): for every choice stream on the 3×3 grid, the top row is
one continuous east chain, the top-right cell `(0, 2)` — the unique cell
with neither north nor east neighbor — initiates no link itself, yet its
final `link_count()` is at least 1 (it is always linked from `(0, 1)`). -/
theorem binary_tree_bias_3x3 :
    ∀ rnd : Nat → Nat,
      isLinked (binary_tree g33 rnd []) (0, 0) (0, 1) = true ∧
      isLinked (binary_tree g33 rnd []) (0, 1) (0, 2) = true ∧
      1 ≤ linkCount (binary_tree g33 rnd []) (0, 2) ∧
      (∀ st, binaryTreeStep g33 rnd st (0, 2) = st) ∧
      g33.cellList.filter (fun p => (btNeighbors g33 p).isEmpty) = [(0, 2)] := by
  intro rnd
  have hcells : g33.cellList =
      (0, 0) :: (0, 1) :: [(0, 2), (1, 0), (1, 1), (1, 2), (2, 0), (2, 1), (2, 2)] := by
    decide
  have h1 : binaryTreeStep g33 rnd ([], 0) (0, 0) =
      ([((0, 0), (0, 1)), ((0, 1), (0, 0))], 1) := by
    rw [bt_closed_form g33 rnd ([], 0) (0, 0) (0, 1) (by decide)]
    decide
  have h2 : binaryTreeStep g33 rnd ([((0, 0), (0, 1)), ((0, 1), (0, 0))], 1) (0, 1) =
      ([((0, 0), (0, 1)), ((0, 1), (0, 0)), ((0, 1), (0, 2)), ((0, 2), (0, 1))], 2) := by
    rw [bt_closed_form g33 rnd _ (0, 1) (0, 2) (by decide)]
    decide
  have hrun : binary_tree g33 rnd [] =
      ([(0, 2), (1, 0), (1, 1), (1, 2), (2, 0), (2, 1), (2, 2)].foldl
        (binaryTreeStep g33 rnd)
        ([((0, 0), (0, 1)), ((0, 1), (0, 0)), ((0, 1), (0, 2)), ((0, 2), (0, 1))], 2)).1 := by
    unfold binary_tree
    rw [hcells, List.foldl_cons, List.foldl_cons, h1, h2]
  have hsub := bt_foldl_subset g33 rnd
    [(0, 2), (1, 0), (1, 1), (1, 2), (2, 0), (2, 1), (2, 2)]
    ([((0, 0), (0, 1)), ((0, 1), (0, 0)), ((0, 1), (0, 2)), ((0, 2), (0, 1))], 2)
  refine ⟨?_, ?_, ?_, ?_, by decide⟩
  · rw [isLinked_iff, hrun]
    exact hsub (show ((0, 0), (0, 1)) ∈ _ by decide)
  · rw [isLinked_iff, hrun]
    exact hsub (show ((0, 1), (0, 2)) ∈ _ by decide)
  · rw [hrun]
    exact linkCount_pos_of_mem (hsub (show ((0, 2), (0, 1)) ∈ _ by decide))
  · intro st
    have hn : (btNeighbors g33 (0, 2)).isEmpty = true := by decide
    unfold binaryTreeStep
    rw [if_pos hn]

/-! ## Grid lattice lemmas -/

theorem mem_cellList {g : Grid} {p : Pos} :
    p ∈ g.cellList ↔ p.1 < g.num_rows ∧ p.2 < g.num_columns := by
  simp only [Grid.cellList, List.mem_flatMap, List.mem_range, List.mem_map]
  constructor
  · rintro ⟨r, hr, c, hc, rfl⟩
    exact ⟨hr, hc⟩
  · intro ⟨h1, h2⟩
    exact ⟨p.1, h1, p.2, h2, rfl⟩

theorem cellList_nodup (g : Grid) : g.cellList.Nodup := by
  unfold Grid.cellList
  rw [List.nodup_flatMap]
  refine ⟨fun r _ => ?_, ?_⟩
  · refine List.Nodup.map ?_ (List.nodup_range _)
    intro a b h
    exact (Prod.mk.injEq .. ▸ h).2
  · refine List.Pairwise.imp ?_ (List.pairwise_lt_range _)
    intro r r2 hrr x hx hx2
    simp only [List.mem_map, List.mem_range] at hx hx2
    obtain ⟨c, _, rfl⟩ := hx
    obtain ⟨c2, _, h⟩ := hx2
    exact (Nat.ne_of_lt hrr).symm (Prod.mk.injEq .. ▸ h).1

theorem cellList_length (g : Grid) : g.cellList.length = g.size := by
  unfold Grid.cellList Grid.size
  rw [List.length_flatMap]
  have h1 : (List.length ∘ fun r => (List.range g.num_columns).map
      fun c => ((r, c) : Pos)) = fun _ => g.num_columns := by
    funext r
    simp
  rw [h1]
  have h2 : ((List.range g.num_rows).map fun _ => g.num_columns) =
      List.replicate g.num_rows g.num_columns := by
    rw [List.eq_replicate_iff]
    refine ⟨by simp, ?_⟩
    intro b hb
    simp only [List.mem_map] at hb
    obtain ⟨_, _, rfl⟩ := hb
    rfl
  rw [h2, List.sum_replicate, smul_eq_mul, Nat.mul_comm]

theorem north_eq_some {g : Grid} {p n : Pos} :
    g.north p = some n ↔ 0 < p.1 ∧ n = (p.1 - 1, p.2) := by
  unfold Grid.north
  split <;> rename_i h
  · simp only [Option.some.injEq]
    exact ⟨fun he => ⟨h, he.symm⟩, fun he => he.2.symm⟩
  · simp only [reduceCtorEq, false_iff, not_and]
    intro hc
    exact absurd hc h

theorem south_eq_some {g : Grid} {p n : Pos} :
    g.south p = some n ↔ p.1 < g.num_rows - 1 ∧ n = (p.1 + 1, p.2) := by
  unfold Grid.south
  split <;> rename_i h
  · simp only [Option.some.injEq]
    exact ⟨fun he => ⟨h, he.symm⟩, fun he => he.2.symm⟩
  · simp only [reduceCtorEq, false_iff, not_and]
    intro hc
    exact absurd hc h

theorem east_eq_some {g : Grid} {p n : Pos} :
    g.east p = some n ↔ p.2 < g.num_columns - 1 ∧ n = (p.1, p.2 + 1) := by
  unfold Grid.east
  split <;> rename_i h
  · simp only [Option.some.injEq]
    exact ⟨fun he => ⟨h, he.symm⟩, fun he => he.2.symm⟩
  · simp only [reduceCtorEq, false_iff, not_and]
    intro hc
    exact absurd hc h

theorem west_eq_some {g : Grid} {p n : Pos} :
    g.west p = some n ↔ 0 < p.2 ∧ n = (p.1, p.2 - 1) := by
  unfold Grid.west
  split <;> rename_i h
  · simp only [Option.some.injEq]
    exact ⟨fun he => ⟨h, he.symm⟩, fun he => he.2.symm⟩
  · simp only [reduceCtorEq, false_iff, not_and]
    intro hc
    exact absurd hc h

theorem mem_neighbors {g : Grid} {p n : Pos} :
    n ∈ g.neighbors p ↔
      g.north p = some n ∨ g.south p = some n ∨
      g.east p = some n ∨ g.west p = some n := by
  simp only [Grid.neighbors, List.mem_filterMap, id, List.mem_cons,
    List.not_mem_nil, or_false]
  constructor
  · rintro ⟨o, ho, rfl⟩
    rcases ho with h | h | h | h
    · exact Or.inl h.symm
    · exact Or.inr (Or.inl h.symm)
    · exact Or.inr (Or.inr (Or.inl h.symm))
    · exact Or.inr (Or.inr (Or.inr h.symm))
  · rintro (h | h | h | h)
    · exact ⟨g.north p, Or.inl rfl, h⟩
    · exact ⟨g.south p, Or.inr (Or.inl rfl), h⟩
    · exact ⟨g.east p, Or.inr (Or.inr (Or.inl rfl)), h⟩
    · exact ⟨g.west p, Or.inr (Or.inr (Or.inr rfl)), h⟩

theorem neighbors_mem_cellList {g : Grid} {p n : Pos} (hp : p ∈ g.cellList)
    (hn : n ∈ g.neighbors p) : n ∈ g.cellList := by
  rw [mem_cellList] at hp ⊢
  rcases mem_neighbors.mp hn with h | h | h | h
  · obtain ⟨h0, rfl⟩ := north_eq_some.mp h
    exact ⟨by omega, hp.2⟩
  · obtain ⟨h0, rfl⟩ := south_eq_some.mp h
    exact ⟨by omega, hp.2⟩
  · obtain ⟨h0, rfl⟩ := east_eq_some.mp h
    exact ⟨hp.1, by omega⟩
  · obtain ⟨h0, rfl⟩ := west_eq_some.mp h
    exact ⟨hp.1, by omega⟩

theorem neighbors_ne_nil {g : Grid} {p : Pos} (hsize : 1 < g.size)
    (hp : p ∈ g.cellList) : g.neighbors p ≠ [] := by
  rw [mem_cellList] at hp
  have hd : 1 < g.num_rows ∨ 1 < g.num_columns := by
    by_contra hc
    push_neg at hc
    unfold Grid.size at hsize
    nlinarith [hc.1, hc.2, hp.1, hp.2]
  intro hnil
  rcases hd with h1 | h1
  · by_cases h0 : 0 < p.1
    · have : (p.1 - 1, p.2) ∈ g.neighbors p :=
        mem_neighbors.mpr (Or.inl (north_eq_some.mpr ⟨h0, rfl⟩))
      rw [hnil] at this
      simp at this
    · have : (p.1 + 1, p.2) ∈ g.neighbors p :=
        mem_neighbors.mpr (Or.inr (Or.inl (south_eq_some.mpr ⟨by omega, rfl⟩)))
      rw [hnil] at this
      simp at this
  · by_cases h0 : 0 < p.2
    · have : (p.1, p.2 - 1) ∈ g.neighbors p :=
        mem_neighbors.mpr (Or.inr (Or.inr (Or.inr (west_eq_some.mpr ⟨h0, rfl⟩))))
      rw [hnil] at this
      simp at this
    · have : (p.1, p.2 + 1) ∈ g.neighbors p :=
        mem_neighbors.mpr (Or.inr (Or.inr (Or.inl (east_eq_some.mpr ⟨by omega, rfl⟩))))
      rw [hnil] at this
      simp at this

theorem getD_mod_mem {l : List Pos} (h : l ≠ []) (k : Nat) :
    l.getD (k % l.length) (0, 0) ∈ l := by
  have hlen : 0 < l.length := List.length_pos.mpr h
  have hk : k % l.length < l.length := Nat.mod_lt _ hlen
  rw [List.getD_eq_getElem _ _ hk]
  exact List.getElem_mem hk

theorem nbrRel_symm {g : Grid} : ∀ a b : Pos, NbrRel g a b → NbrRel g b a := by
  intro a b ⟨ha, hb, hnb⟩
  refine ⟨hb, ha, ?_⟩
  rw [mem_cellList] at ha hb
  rcases mem_neighbors.mp hnb with h | h | h | h
  · obtain ⟨h0, rfl⟩ := north_eq_some.mp h
    refine mem_neighbors.mpr (Or.inr (Or.inl (south_eq_some.mpr ⟨by omega, ?_⟩)))
    ext <;> simp <;> omega
  · obtain ⟨h0, rfl⟩ := south_eq_some.mp h
    refine mem_neighbors.mpr (Or.inl (north_eq_some.mpr ⟨by omega, ?_⟩))
    ext <;> simp
  · obtain ⟨h0, rfl⟩ := east_eq_some.mp h
    refine mem_neighbors.mpr (Or.inr (Or.inr (Or.inr (west_eq_some.mpr ⟨by omega, ?_⟩))))
    ext <;> simp
  · obtain ⟨h0, rfl⟩ := west_eq_some.mp h
    refine mem_neighbors.mpr (Or.inr (Or.inr (Or.inl (east_eq_some.mpr ⟨by omega, ?_⟩))))
    ext <;> simp <;> omega

theorem reach_origin {g : Grid} : ∀ p ∈ g.cellList,
    Relation.ReflTransGen (NbrRel g) p (0, 0) := by
  intro p hp
  obtain ⟨n, hn⟩ : ∃ n, p.1 + p.2 = n := ⟨_, rfl⟩
  induction n using Nat.strong_induction_on generalizing p with
  | _ n ih =>
    by_cases h2 : 0 < p.2
    · have hw : (p.1, p.2 - 1) ∈ g.neighbors p :=
        mem_neighbors.mpr (Or.inr (Or.inr (Or.inr (west_eq_some.mpr ⟨h2, rfl⟩))))
      have hwc : (p.1, p.2 - 1) ∈ g.cellList := neighbors_mem_cellList hp hw
      exact Relation.ReflTransGen.head ⟨hp, hwc, hw⟩
        (ih (p.1 + (p.2 - 1)) (by omega) _ hwc rfl)
    · by_cases h1 : 0 < p.1
      · have hw : (p.1 - 1, p.2) ∈ g.neighbors p :=
          mem_neighbors.mpr (Or.inl (north_eq_some.mpr ⟨h1, rfl⟩))
        have hwc : (p.1 - 1, p.2) ∈ g.cellList := neighbors_mem_cellList hp hw
        exact Relation.ReflTransGen.head ⟨hp, hwc, hw⟩
          (ih (p.1 - 1 + p.2) (by omega) _ hwc rfl)
      · have hpe : p = (0, 0) := by
          ext <;> omega
        rw [hpe]

theorem grid_connected {g : Grid} {p q : Pos} (hp : p ∈ g.cellList)
    (hq : q ∈ g.cellList) : Relation.ReflTransGen (NbrRel g) p q := by
  have h1 := reach_origin p hp
  have h2 := Relation.ReflTransGen.symmetric nbrRel_symm (reach_origin q hq)
  exact h1.trans h2

/-! ## Reachability lemmas -/

theorem reach_mono {s s2 : LinkState} (h : s ⊆ s2) {p q : Pos}
    (hr : Reach s p q) : Reach s2 p q :=
  Relation.ReflTransGen.mono (fun _ _ hab => h hab) hr

theorem reach_symm {s : LinkState} (hs : SymmState s) {p q : Pos}
    (hr : Reach s p q) : Reach s q p :=
  Relation.ReflTransGen.symmetric (fun a b hab => hs a b hab) hr

/-! ## Path-pair lemmas -/

theorem pathPairs_mem_sub : ∀ (l : List Pos) (x y : Pos),
    (x, y) ∈ pathPairs l → x ∈ l ∧ y ∈ l := by
  intro l
  induction l with
  | nil => simp [pathPairs]
  | cons a rest ih =>
    cases rest with
    | nil => simp [pathPairs]
    | cons b rest2 =>
      intro x y hm
      simp only [pathPairs, List.mem_cons] at hm
      rcases hm with heq | heq | hm2
      · obtain ⟨rfl, rfl⟩ := Prod.mk.injEq .. ▸ heq
        exact ⟨by simp, by simp⟩
      · obtain ⟨rfl, rfl⟩ := Prod.mk.injEq .. ▸ heq
        exact ⟨by simp, by simp⟩
      · obtain ⟨h1, h2⟩ := ih x y hm2
        exact ⟨List.mem_cons_of_mem _ h1, List.mem_cons_of_mem _ h2⟩

theorem pathPairs_swap_mem : ∀ (l : List Pos) (x y : Pos),
    (x, y) ∈ pathPairs l → (y, x) ∈ pathPairs l := by
  intro l
  induction l with
  | nil => simp [pathPairs]
  | cons a rest ih =>
    cases rest with
    | nil => simp [pathPairs]
    | cons b rest2 =>
      intro x y hm
      simp only [pathPairs, List.mem_cons] at hm ⊢
      rcases hm with heq | heq | hm2
      · obtain ⟨rfl, rfl⟩ := Prod.mk.injEq .. ▸ heq
        exact Or.inr (Or.inl rfl)
      · obtain ⟨rfl, rfl⟩ := Prod.mk.injEq .. ▸ heq
        exact Or.inl rfl
      · exact Or.inr (Or.inr (ih x y hm2))

theorem pathPairs_endpoint : ∀ (l : List Pos) (x y : Pos),
    (x, y) ∈ pathPairs l → x ∈ l.dropLast ∨ y ∈ l.dropLast := by
  intro l
  induction l with
  | nil => simp [pathPairs]
  | cons a rest ih =>
    cases rest with
    | nil => simp [pathPairs]
    | cons b rest2 =>
      intro x y hm
      simp only [pathPairs, List.mem_cons] at hm
      have hdl : (a :: b :: rest2).dropLast = a :: (b :: rest2).dropLast := by
        simp
      rcases hm with heq | heq | hm2
      · obtain ⟨rfl, rfl⟩ := Prod.mk.injEq .. ▸ heq
        rw [hdl]
        exact Or.inl (by simp)
      · obtain ⟨rfl, rfl⟩ := Prod.mk.injEq .. ▸ heq
        rw [hdl]
        exact Or.inr (by simp)
      · rcases ih x y hm2 with h | h
        · rw [hdl]
          exact Or.inl (List.mem_cons_of_mem _ h)
        · rw [hdl]
          exact Or.inr (List.mem_cons_of_mem _ h)

theorem pathPairs_ne : ∀ (l : List Pos), l.Nodup → ∀ (x y : Pos),
    (x, y) ∈ pathPairs l → x ≠ y := by
  intro l
  induction l with
  | nil => simp [pathPairs]
  | cons a rest ih =>
    cases rest with
    | nil => simp [pathPairs]
    | cons b rest2 =>
      intro hnd x y hm
      simp only [pathPairs, List.mem_cons] at hm
      have hab : a ≠ b := by
        intro hc
        rw [List.nodup_cons] at hnd
        exact hnd.1 (hc ▸ List.mem_cons_self _ _)
      rcases hm with heq | heq | hm2
      · obtain ⟨rfl, rfl⟩ := Prod.mk.injEq .. ▸ heq
        exact hab
      · obtain ⟨rfl, rfl⟩ := Prod.mk.injEq .. ▸ heq
        exact hab.symm
      · exact ih (List.Nodup.of_cons hnd) x y hm2

theorem pathPairs_nodup : ∀ (l : List Pos), l.Nodup → (pathPairs l).Nodup := by
  intro l
  induction l with
  | nil => simp [pathPairs]
  | cons a rest ih =>
    cases rest with
    | nil => simp [pathPairs]
    | cons b rest2 =>
      intro hnd
      have hanb : a ∉ b :: rest2 := (List.nodup_cons.mp hnd).1
      have hab : a ≠ b := fun hc => hanb (hc ▸ List.mem_cons_self _ _)
      simp only [pathPairs, List.nodup_cons, List.mem_cons]
      refine ⟨?_, ?_, ih (List.Nodup.of_cons hnd)⟩
      · push_neg
        refine ⟨fun hc => hab ((Prod.mk.injEq .. ▸ hc).1.symm ▸ rfl), ?_⟩
        intro hc
        exact hanb ((pathPairs_mem_sub _ a b hc).1)
      · intro hc
        exact hanb ((pathPairs_mem_sub _ b a hc).2)

theorem pathPairs_length : ∀ l : List Pos,
    (pathPairs l).length = 2 * (l.length - 1) := by
  intro l
  induction l with
  | nil => simp [pathPairs]
  | cons a rest ih =>
    cases rest with
    | nil => simp [pathPairs]
    | cons b rest2 =>
      simp only [pathPairs, List.length_cons] at ih ⊢
      omega

theorem pathPairs_append_last : ∀ (l : List Pos) (last b : Pos),
    l.getLast? = some last →
    pathPairs (l ++ [b]) = pathPairs l ++ [(last, b), (b, last)] := by
  intro l
  induction l with
  | nil => intro last b h; cases h
  | cons a rest ih =>
    intro last b h
    cases rest with
    | nil =>
      rw [List.getLast?_singleton, Option.some.injEq] at h
      subst h
      simp [pathPairs]
    | cons c rest2 =>
      rw [List.getLast?_cons_cons] at h
      have hih := ih last b h
      simp only [List.cons_append, pathPairs] at hih ⊢
      exact congrArg (fun t => (a, c) :: (c, a) :: t) hih

theorem pathPairs_reach {s : LinkState} : ∀ (l : List Pos) (last : Pos),
    l.getLast? = some last →
    (∀ e ∈ pathPairs l, e ∈ s) → ∀ p ∈ l, Reach s p last := by
  intro l
  induction l with
  | nil => intro last h; cases h
  | cons a rest ih =>
    intro last hl hsub p hp
    cases rest with
    | nil =>
      rw [List.getLast?_singleton, Option.some.injEq] at hl
      subst hl
      rcases List.mem_cons.mp hp with rfl | h2
      · exact Relation.ReflTransGen.refl
      · simp at h2
    | cons b rest2 =>
      rw [List.getLast?_cons_cons] at hl
      have hsub2 : ∀ e ∈ pathPairs (b :: rest2), e ∈ s := by
        intro e he
        exact hsub e (by simp only [pathPairs, List.mem_cons]; exact Or.inr (Or.inr he))
      rcases List.mem_cons.mp hp with rfl | h2
      · have hstep : (p, b) ∈ s :=
          hsub (p, b) (by simp [pathPairs])
        exact Relation.ReflTransGen.head hstep
          (ih last hl hsub2 b (List.mem_cons_self _ _))
      · exact ih last hl hsub2 p h2

/-! ## Spanning-invariant core lemmas -/

theorem spanInv_perm {g : Grid} {vis : Finset Pos} {s s2 : LinkState}
    (hp : s.Perm s2) (inv : SpanInv g vis s) : SpanInv g vis s2 := by
  refine ⟨inv.sub, inv.vnonempty, ?_, hp.nodup_iff.mp inv.nodup, ?_, ?_, ?_⟩
  · intro a b hab
    exact hp.mem_iff.mp (inv.sym a b (hp.mem_iff.mpr hab))
  · intro a b hab
    exact inv.ends a b (hp.mem_iff.mpr hab)
  · intro p hpv q hq
    exact reach_mono (fun x hx => hp.mem_iff.mp hx) (inv.conn p hpv q hq)
  · rw [← hp.length_eq]
    exact inv.count

theorem spanInv_singleton (g : Grid) (c : Pos) (hc : c ∈ g.cellList) :
    SpanInv g {c} [] := by
  refine ⟨?_, ⟨c, by simp⟩, ?_, List.nodup_nil, ?_, ?_, ?_⟩
  · intro p hp
    rw [Finset.mem_singleton] at hp
    exact hp ▸ hc
  · intro a b hab
    simp at hab
  · intro a b hab
    simp at hab
  · intro p hp q hq
    rw [Finset.mem_singleton] at hp hq
    rw [hp, hq]
    exact Relation.ReflTransGen.refl
  · simp

theorem link_fresh_eq {s : LinkState} {a b : Pos} (h1 : (a, b) ∉ s)
    (h2 : (b, a) ∉ s) (hne : a ≠ b) :
    link s a b true = s ++ [(a, b), (b, a)] := by
  have hfr : (b, a) ∉ s ++ [(a, b)] := by
    intro hc
    rcases List.mem_append.mp hc with hc2 | hc2
    · exact h2 hc2
    · simp only [List.mem_singleton] at hc2
      exact hne ((Prod.mk.injEq .. ▸ hc2).2.symm ▸ rfl)
  show linkOne (linkOne s a b) b a = _
  have e1 : linkOne s a b = s ++ [(a, b)] := by
    unfold linkOne
    rw [if_neg h1]
  rw [e1]
  unfold linkOne
  rw [if_neg hfr, List.append_assoc]
  rfl

theorem spanInv_link {g : Grid} {vis : Finset Pos} {s : LinkState}
    (inv : SpanInv g vis s) {nb cur : Pos} (hnbc : nb ∈ g.cellList)
    (hnb : nb ∉ vis) (hcur : cur ∈ vis) :
    SpanInv g (insert nb vis) (link s nb cur true) := by
  have hne : nb ≠ cur := fun hc => hnb (hc ▸ hcur)
  have h1 : (nb, cur) ∉ s := fun hc => hnb (inv.ends nb cur hc).1
  have h2 : (cur, nb) ∉ s := fun hc => hnb (inv.ends cur nb hc).2.1
  rw [link_fresh_eq h1 h2 hne]
  have hmem : ∀ x : Pos × Pos, x ∈ s ++ [(nb, cur), (cur, nb)] ↔
      x ∈ s ∨ x = (nb, cur) ∨ x = (cur, nb) := by
    intro x
    simp [List.mem_append]
  have hstep1 : (nb, cur) ∈ s ++ [(nb, cur), (cur, nb)] := by simp
  have hstep2 : (cur, nb) ∈ s ++ [(nb, cur), (cur, nb)] := by simp
  have hsub : s ⊆ s ++ [(nb, cur), (cur, nb)] := by
    intro x hx
    exact List.mem_append.mpr (Or.inl hx)
  refine ⟨?_, ⟨nb, Finset.mem_insert_self _ _⟩, ?_, ?_, ?_, ?_, ?_⟩
  · intro p hp
    rcases Finset.mem_insert.mp hp with rfl | hp2
    · exact hnbc
    · exact inv.sub p hp2
  · intro a b hab
    rcases (hmem (a, b)).mp hab with h | h | h
    · exact (hmem _).mpr (Or.inl (inv.sym a b h))
    · obtain ⟨rfl, rfl⟩ := Prod.mk.injEq .. ▸ h
      exact hstep2
    · obtain ⟨rfl, rfl⟩ := Prod.mk.injEq .. ▸ h
      exact hstep1
  · rw [List.nodup_append]
    refine ⟨inv.nodup, ?_, ?_⟩
    · refine List.nodup_cons.mpr ⟨?_, by simp⟩
      simp only [List.mem_singleton]
      intro hc
      exact hne (Prod.mk.injEq .. ▸ hc).1
    · intro x hx hx2
      simp only [List.mem_cons, List.not_mem_nil, or_false] at hx2
      rcases hx2 with rfl | rfl
      · exact h1 hx
      · exact h2 hx
  · intro a b hab
    rcases (hmem (a, b)).mp hab with h | h | h
    · obtain ⟨ha, hb, hne2⟩ := inv.ends a b h
      exact ⟨Finset.mem_insert_of_mem ha, Finset.mem_insert_of_mem hb, hne2⟩
    · obtain ⟨rfl, rfl⟩ := Prod.mk.injEq .. ▸ h
      exact ⟨Finset.mem_insert_self _ _, Finset.mem_insert_of_mem hcur, hne⟩
    · obtain ⟨rfl, rfl⟩ := Prod.mk.injEq .. ▸ h
      exact ⟨Finset.mem_insert_of_mem hcur, Finset.mem_insert_self _ _, hne.symm⟩
  · have hreach_nb : ∀ q ∈ vis, Reach (s ++ [(nb, cur), (cur, nb)]) nb q := by
      intro q hq
      exact Relation.ReflTransGen.head hstep1
        (reach_mono hsub (inv.conn cur hcur q hq))
    intro p hp q hq
    rcases Finset.mem_insert.mp hp with rfl | hp2 <;>
      rcases Finset.mem_insert.mp hq with rfl | hq2
    · exact Relation.ReflTransGen.refl
    · exact hreach_nb q hq2
    · exact (reach_mono hsub (inv.conn p hp2 cur hcur)).trans
        (Relation.ReflTransGen.single hstep2)
    · exact reach_mono hsub (inv.conn p hp2 q hq2)
  · rw [Finset.card_insert_of_not_mem hnb]
    have hc := Finset.card_pos.mpr inv.vnonempty
    have hlen : (s ++ [(nb, cur), (cur, nb)]).length = s.length + 2 := by
      simp
    rw [hlen, inv.count]
    omega

theorem spanInv_branch {g : Grid} {vis : Finset Pos} {s : LinkState}
    (inv : SpanInv g vis s) {path : List Pos} {chosen nb : Pos}
    (hpne : path ≠ []) (hpnd : path.Nodup)
    (hpc : ∀ p ∈ path, p ∈ g.cellList) (hpv : ∀ p ∈ path, p ∉ vis)
    (hch : chosen ∈ path) (hnb : nb ∈ vis) :
    SpanInv g (vis ∪ path.toFinset)
      (s ++ pathPairs path ++ [(chosen, nb), (nb, chosen)]) := by
  have hchnb : chosen ≠ nb := fun hc => hpv chosen hch (hc ▸ hnb)
  have hnbp : nb ∉ path := fun hc => hpv nb hc hnb
  have fPP : ∀ x ∈ pathPairs path, x ∉ s := by
    intro x hx hxs
    obtain ⟨h1, _⟩ := pathPairs_mem_sub path x.1 x.2 hx
    exact hpv x.1 h1 (inv.ends x.1 x.2 hxs).1
  have fb1 : (chosen, nb) ∉ s := fun hc => hpv chosen hch (inv.ends _ _ hc).1
  have fb2 : (nb, chosen) ∉ s := fun hc => hpv chosen hch (inv.ends _ _ hc).2.1
  have fb3 : (chosen, nb) ∉ pathPairs path := fun hc =>
    hnbp (pathPairs_mem_sub path _ _ hc).2
  have fb4 : (nb, chosen) ∉ pathPairs path := fun hc =>
    hnbp (pathPairs_mem_sub path _ _ hc).1
  have fb5 : ((chosen, nb) : Pos × Pos) ≠ (nb, chosen) := by
    intro hc
    exact hchnb (Prod.mk.injEq .. ▸ hc).1
  have hl2 : path.getLast? = some (path.getLast hpne) :=
    List.getLast?_eq_getLast path hpne
  have hlmem : path.getLast hpne ∈ path := List.getLast_mem hpne
  have hmem : ∀ x : Pos × Pos,
      x ∈ s ++ pathPairs path ++ [(chosen, nb), (nb, chosen)] ↔
      x ∈ s ∨ x ∈ pathPairs path ∨ x = (chosen, nb) ∨ x = (nb, chosen) := by
    intro x
    simp [List.mem_append, or_assoc]
  have hPPsub : ∀ e ∈ pathPairs path,
      e ∈ s ++ pathPairs path ++ [(chosen, nb), (nb, chosen)] := by
    intro e he
    exact (hmem e).mpr (Or.inr (Or.inl he))
  have hssub : s ⊆ s ++ pathPairs path ++ [(chosen, nb), (nb, chosen)] := by
    intro x hx
    exact (hmem x).mpr (Or.inl hx)
  have hb1 : ((chosen, nb) : Pos × Pos) ∈
      s ++ pathPairs path ++ [(chosen, nb), (nb, chosen)] :=
    (hmem _).mpr (Or.inr (Or.inr (Or.inl rfl)))
  have hb2 : ((nb, chosen) : Pos × Pos) ∈
      s ++ pathPairs path ++ [(chosen, nb), (nb, chosen)] :=
    (hmem _).mpr (Or.inr (Or.inr (Or.inr rfl)))
  have hsym2 : SymmState (s ++ pathPairs path ++ [(chosen, nb), (nb, chosen)]) := by
    intro x y hxy
    rcases (hmem (x, y)).mp hxy with h | h | h | h
    · exact (hmem _).mpr (Or.inl (inv.sym x y h))
    · exact (hmem _).mpr (Or.inr (Or.inl (pathPairs_swap_mem path x y h)))
    · obtain ⟨rfl, rfl⟩ := Prod.mk.injEq .. ▸ h
      exact hb2
    · obtain ⟨rfl, rfl⟩ := Prod.mk.injEq .. ▸ h
      exact hb1
  have hreach : ∀ p ∈ path,
      Reach (s ++ pathPairs path ++ [(chosen, nb), (nb, chosen)]) p
        (path.getLast hpne) :=
    pathPairs_reach path _ hl2 hPPsub
  have hAux : ∀ x ∈ vis ∪ path.toFinset,
      Reach (s ++ pathPairs path ++ [(chosen, nb), (nb, chosen)]) x nb := by
    intro x hx
    rcases Finset.mem_union.mp hx with hx2 | hx2
    · exact reach_mono hssub (inv.conn x hx2 nb hnb)
    · rw [List.mem_toFinset] at hx2
      have h1 := hreach x hx2
      have h2 := reach_symm hsym2 (hreach chosen hch)
      exact (h1.trans h2).trans (Relation.ReflTransGen.single hb1)
  refine ⟨?_, ?_, hsym2, ?_, ?_, ?_, ?_⟩
  · intro p hp
    rcases Finset.mem_union.mp hp with h | h
    · exact inv.sub p h
    · rw [List.mem_toFinset] at h
      exact hpc p h
  · obtain ⟨v, hv⟩ := inv.vnonempty
    exact ⟨v, Finset.mem_union.mpr (Or.inl hv)⟩
  · rw [List.nodup_append]
    refine ⟨?_, ?_, ?_⟩
    · rw [List.nodup_append]
      refine ⟨inv.nodup, pathPairs_nodup path hpnd, ?_⟩
      intro x hx hx2
      exact fPP x hx2 hx
    · refine List.nodup_cons.mpr ⟨?_, by simp⟩
      simp only [List.mem_singleton]
      exact fb5
    · intro x hx hx2
      simp only [List.mem_cons, List.not_mem_nil, or_false] at hx2
      rcases List.mem_append.mp hx with hx3 | hx3
      · rcases hx2 with rfl | rfl
        · exact fb1 hx3
        · exact fb2 hx3
      · rcases hx2 with rfl | rfl
        · exact fb3 hx3
        · exact fb4 hx3
  · intro a b hab
    rcases (hmem (a, b)).mp hab with h | h | h | h
    · obtain ⟨h1, h2, h3⟩ := inv.ends a b h
      exact ⟨Finset.mem_union.mpr (Or.inl h1), Finset.mem_union.mpr (Or.inl h2), h3⟩
    · obtain ⟨h1, h2⟩ := pathPairs_mem_sub path a b h
      exact ⟨Finset.mem_union.mpr (Or.inr (List.mem_toFinset.mpr h1)),
        Finset.mem_union.mpr (Or.inr (List.mem_toFinset.mpr h2)),
        pathPairs_ne path hpnd a b h⟩
    · obtain ⟨rfl, rfl⟩ := Prod.mk.injEq .. ▸ h
      exact ⟨Finset.mem_union.mpr (Or.inr (List.mem_toFinset.mpr hch)),
        Finset.mem_union.mpr (Or.inl hnb), hchnb⟩
    · obtain ⟨rfl, rfl⟩ := Prod.mk.injEq .. ▸ h
      exact ⟨Finset.mem_union.mpr (Or.inl hnb),
        Finset.mem_union.mpr (Or.inr (List.mem_toFinset.mpr hch)), hchnb.symm⟩
  · intro p hp q hq
    exact (hAux p hp).trans (reach_symm hsym2 (hAux q hq))
  · have hdisj : Disjoint vis path.toFinset := by
      rw [Finset.disjoint_left]
      intro x hx hx2
      exact hpv x (List.mem_toFinset.mp hx2) hx
    rw [Finset.card_union_of_disjoint hdisj, List.toFinset_card_of_nodup hpnd]
    have hlen : (s ++ pathPairs path ++ [(chosen, nb), (nb, chosen)]).length =
        s.length + (pathPairs path).length + 2 := by
      simp
      omega
    rw [hlen, inv.count, pathPairs_length]
    have h1 := Finset.card_pos.mpr inv.vnonempty
    have h2 := List.length_pos.mpr hpne
    omega

theorem spanInv_of_path (g : Grid) : ∀ (path : List Pos), path ≠ [] →
    path.Nodup → (∀ p ∈ path, p ∈ g.cellList) →
    SpanInv g path.toFinset (pathPairs path) := by
  intro path
  induction path with
  | nil => intro h; exact absurd rfl h
  | cons a rest ih =>
    intro _ hnd hsub
    cases rest with
    | nil =>
      have := spanInv_singleton g a (hsub a (by simp))
      simpa [pathPairs] using this
    | cons b rest2 =>
      have hanb : a ∉ b :: rest2 := (List.nodup_cons.mp hnd).1
      have hprev := ih (by simp) (List.Nodup.of_cons hnd)
        (fun p hp => hsub p (List.mem_cons_of_mem _ hp))
      have hlinked := spanInv_link hprev (hsub a (by simp))
        (by rw [List.mem_toFinset]; exact hanb)
        (List.mem_toFinset.mpr (List.mem_cons_self _ _))
      have h1 : ((a, b) : Pos × Pos) ∉ pathPairs (b :: rest2) := fun hc =>
        hanb (pathPairs_mem_sub _ _ _ hc).1
      have h2 : ((b, a) : Pos × Pos) ∉ pathPairs (b :: rest2) := fun hc =>
        hanb (pathPairs_mem_sub _ _ _ hc).2
      have hne : a ≠ b := fun hc => hanb (hc ▸ List.mem_cons_self _ _)
      rw [link_fresh_eq h1 h2 hne] at hlinked
      have hperm : (pathPairs (b :: rest2) ++ [(a, b), (b, a)]).Perm
          (pathPairs (a :: b :: rest2)) := by
        have := @List.perm_append_comm _ (pathPairs (b :: rest2))
          ([(a, b), (b, a)] : LinkState)
        simpa [pathPairs] using this
      have hfin : insert a (b :: rest2).toFinset = (a :: b :: rest2).toFinset := by
        simp
      exact hfin ▸ spanInv_perm hperm hlinked

/-! ## Counting undirected links -/

theorem posLe_iff {a b : Pos} :
    posLe a b = true ↔ a.1 < b.1 ∨ (a.1 = b.1 ∧ a.2 < b.2) ∨ a = b := by
  simp [posLe, posLt, Prod.ext_iff]
  tauto

theorem posLe_total (a b : Pos) : posLe a b = true ∨ posLe b a = true := by
  rw [posLe_iff, posLe_iff, Prod.ext_iff, Prod.ext_iff]
  omega

theorem posLe_antisymm {a b : Pos} (h1 : posLe a b = true)
    (h2 : posLe b a = true) : a = b := by
  rw [posLe_iff] at h1 h2
  rw [Prod.ext_iff] at h1 h2 ⊢
  omega

theorem normPair_swap (a b : Pos) : normPair (a, b) = normPair (b, a) := by
  unfold normPair
  by_cases h1 : posLe a b
  · by_cases h2 : posLe b a
    · rw [if_pos h1, if_pos h2, posLe_antisymm h1 h2]
    · rw [if_pos h1, if_neg h2]
  · rcases posLe_total a b with h | h
    · exact absurd h h1
    · rw [if_neg h1, if_pos h]

theorem normPair_cases {e e2 : Pos × Pos} (h : normPair e = normPair e2) :
    e = e2 ∨ e = (e2.2, e2.1) := by
  obtain ⟨x, y⟩ := e
  obtain ⟨u, v⟩ := e2
  unfold normPair at h
  by_cases h1 : posLe x y = true <;> by_cases h2 : posLe u v = true
  · rw [if_pos h1, if_pos h2] at h
    exact Or.inl h
  · rw [if_pos h1, if_neg h2] at h
    exact Or.inr h
  · rw [if_neg h1, if_pos h2] at h
    obtain ⟨rfl, rfl⟩ := Prod.mk.injEq .. ▸ h
    exact Or.inr rfl
  · rw [if_neg h1, if_neg h2] at h
    obtain ⟨rfl, rfl⟩ := Prod.mk.injEq .. ▸ h
    exact Or.inl rfl

theorem edgeFinset_perm {s s2 : LinkState} (h : s.Perm s2) :
    edgeFinset s = edgeFinset s2 :=
  List.toFinset_eq_of_perm _ _ (h.map _)

theorem edge_card_half : ∀ (n : Nat) (s : LinkState), s.length = n →
    s.Nodup → SymmState s → (∀ a b : Pos, (a, b) ∈ s → a ≠ b) →
    s.length = 2 * (edgeFinset s).card := by
  intro n
  induction n using Nat.strong_induction_on with
  | _ n ih =>
    intro s hlen hnd hsym hirr
    rcases s with _ | ⟨⟨a, b⟩, t0⟩
    · simp [edgeFinset]
    · have hmem : ((a, b) : Pos × Pos) ∈ (a, b) :: t0 := List.mem_cons_self _ _
      have hba : ((b, a) : Pos × Pos) ∈ (a, b) :: t0 := hsym a b hmem
      have hne : a ≠ b := hirr a b hmem
      have hbane : ((b, a) : Pos × Pos) ≠ (a, b) := by
        intro hc
        exact hne (Prod.mk.injEq .. ▸ hc).2
      have hba0 : ((b, a) : Pos × Pos) ∈ t0 := by
        rcases List.mem_cons.mp hba with h | h
        · exact absurd h hbane
        · exact h
      have habt0 : ((a, b) : Pos × Pos) ∉ t0 := (List.nodup_cons.mp hnd).1
      have hndt0 : t0.Nodup := (List.nodup_cons.mp hnd).2
      obtain ⟨u1, u2, hsplit⟩ := List.append_of_mem hba0
      have hperm0 : t0.Perm ((b, a) :: (u1 ++ u2)) := by
        rw [hsplit]
        exact List.perm_middle
      have hperm : ((a, b) :: t0).Perm ((a, b) :: (b, a) :: (u1 ++ u2)) :=
        hperm0.cons _
      have hndba : ((b, a) :: (u1 ++ u2)).Nodup := hperm0.nodup_iff.mp hndt0
      have hbat : ((b, a) : Pos × Pos) ∉ u1 ++ u2 := (List.nodup_cons.mp hndba).1
      have htnd : (u1 ++ u2).Nodup := (List.nodup_cons.mp hndba).2
      have htsub : ∀ x ∈ u1 ++ u2, x ∈ t0 := fun x hx =>
        hperm0.mem_iff.mpr (List.mem_cons_of_mem _ hx)
      have htsym : SymmState (u1 ++ u2) := by
        intro x y hxy
        have hxyt0 : (x, y) ∈ t0 := htsub _ hxy
        have hyx : (y, x) ∈ (a, b) :: t0 :=
          hsym x y (List.mem_cons_of_mem _ hxyt0)
        have hyxt0 : (y, x) ∈ t0 := by
          rcases List.mem_cons.mp hyx with h | h
          · exfalso
            obtain ⟨rfl, rfl⟩ := Prod.mk.injEq .. ▸ h
            exact hbat hxy
          · exact h
        rcases List.mem_cons.mp (hperm0.mem_iff.mp hyxt0) with h | h
        · exfalso
          obtain ⟨rfl, rfl⟩ := Prod.mk.injEq .. ▸ h
          exact habt0 (htsub _ hxy)
        · exact h
      have htirr : ∀ x y : Pos, (x, y) ∈ u1 ++ u2 → x ≠ y := by
        intro x y hxy
        exact hirr x y (List.mem_cons_of_mem _ (htsub _ hxy))
      have hlent : t0.length = (u1 ++ u2).length + 1 := by
        rw [hperm0.length_eq]
        rfl
      have hiht := ih (u1 ++ u2).length
        (by simp only [List.length_cons] at hlen; omega)
        (u1 ++ u2) rfl htnd htsym htirr
      have hE : edgeFinset ((a, b) :: t0) =
          insert (normPair (a, b)) (edgeFinset (u1 ++ u2)) := by
        rw [edgeFinset_perm hperm]
        unfold edgeFinset
        simp only [List.map_cons, List.toFinset_cons]
        rw [normPair_swap b a]
        rw [Finset.insert_idem]
      have hnotin : normPair (a, b) ∉ edgeFinset (u1 ++ u2) := by
        intro hc
        unfold edgeFinset at hc
        rw [List.mem_toFinset, List.mem_map] at hc
        obtain ⟨x, hx, hnx⟩ := hc
        rcases normPair_cases hnx with rfl | h
        · exact habt0 (htsub _ hx)
        · have hxba : x = (b, a) := by
            rw [h]
          rw [hxba] at hx
          exact hbat hx
      rw [hE, Finset.card_insert_of_not_mem hnotin]
      simp only [List.length_cons]
      omega

theorem visited_complete {g : Grid} {visited : List Pos}
    (hnd : visited.Nodup) (hsub : ∀ p ∈ visited, p ∈ g.cellList)
    (hlen : g.size ≤ visited.length) :
    visited.toFinset = g.cellList.toFinset := by
  apply Finset.eq_of_subset_of_card_le
  · intro x hx
    rw [List.mem_toFinset] at hx ⊢
    exact hsub x hx
  · rw [List.toFinset_card_of_nodup hnd,
      List.toFinset_card_of_nodup (cellList_nodup g), cellList_length]
    exact hlen

theorem isSpanning_of_spanInv {g : Grid} {s : LinkState}
    (inv : SpanInv g g.cellList.toFinset s) : IsSpanning g s := by
  constructor
  · intro p hp q hq
    exact inv.conn p (List.mem_toFinset.mpr hp) q (List.mem_toFinset.mpr hq)
  · have h2 := edge_card_half s.length s rfl inv.nodup inv.sym
      (fun a b h => (inv.ends a b h).2.2)
    have hcard : g.cellList.toFinset.card = g.size := by
      rw [List.toFinset_card_of_nodup (cellList_nodup g), cellList_length]
    have h3 := inv.count
    rw [hcard] at h3
    omega

theorem toFinset_append_singleton (visited : List Pos) (nb : Pos) :
    (visited ++ [nb]).toFinset = insert nb visited.toFinset := by
  rw [List.toFinset_append, Finset.insert_eq]
  exact Finset.union_comm _ _

/-! ## Aldous-Broder -/

theorem aldousLoop_exit (g : Grid) (rnd : Nat → Nat) (fuel : Nat) (cur : Pos)
    (vis : List Pos) (s : LinkState) (i : Nat)
    (hguard : ¬ vis.length < g.size) :
    aldousLoop g rnd fuel cur vis s i = some s := by
  cases fuel <;> (unfold aldousLoop; rw [if_neg hguard])

theorem aldousLoop_zero (g : Grid) (rnd : Nat → Nat) (cur : Pos)
    (vis : List Pos) (s : LinkState) (i : Nat)
    (hguard : vis.length < g.size) :
    aldousLoop g rnd 0 cur vis s i = none := by
  unfold aldousLoop
  rw [if_pos hguard]

theorem aldousLoop_step_visited (g : Grid) (rnd : Nat → Nat) (fuel : Nat)
    (cur nb : Pos) (vis : List Pos) (s : LinkState) (i : Nat)
    (hguard : vis.length < g.size)
    (hnb : (g.neighbors cur).getD (rnd i % (g.neighbors cur).length) (0, 0) = nb)
    (hmem : nb ∈ vis) :
    aldousLoop g rnd (fuel + 1) cur vis s i = aldousLoop g rnd fuel nb vis s (i + 1) := by
  conv_lhs => unfold aldousLoop
  rw [if_pos hguard]
  dsimp only
  rw [hnb, if_pos hmem]

theorem aldousLoop_step_new (g : Grid) (rnd : Nat → Nat) (fuel : Nat)
    (cur nb : Pos) (vis : List Pos) (s : LinkState) (i : Nat)
    (hguard : vis.length < g.size)
    (hnb : (g.neighbors cur).getD (rnd i % (g.neighbors cur).length) (0, 0) = nb)
    (hmem : nb ∉ vis) :
    aldousLoop g rnd (fuel + 1) cur vis s i =
      aldousLoop g rnd fuel nb (vis ++ [nb]) (link s nb cur true) (i + 1) := by
  conv_lhs => unfold aldousLoop
  rw [if_pos hguard]
  dsimp only
  rw [hnb, if_neg hmem]

theorem aldousLoop_spanning (g : Grid) (rnd : Nat → Nat) :
    ∀ (fuel : Nat) (cur : Pos) (visited : List Pos) (s : LinkState)
      (i : Nat) (out : LinkState),
      aldousLoop g rnd fuel cur visited s i = some out →
      visited.Nodup → (∀ p ∈ visited, p ∈ g.cellList) → cur ∈ visited →
      SpanInv g visited.toFinset s → IsSpanning g out := by
  intro fuel
  induction fuel with
  | zero =>
    intro cur visited s i out hrun hnd hsub hcur hinv
    by_cases hguard : visited.length < g.size
    · rw [aldousLoop_zero g rnd cur visited s i hguard] at hrun
      cases hrun
    · rw [aldousLoop_exit g rnd 0 cur visited s i hguard] at hrun
      obtain rfl := Option.some.injEq .. ▸ hrun
      apply isSpanning_of_spanInv
      rwa [visited_complete hnd hsub (le_of_not_lt hguard)] at hinv
  | succ fuel ih =>
    intro cur visited s i out hrun hnd hsub hcur hinv
    by_cases hguard : visited.length < g.size
    · have hsize : 1 < g.size :=
        lt_of_le_of_lt (List.length_pos.mpr (List.ne_nil_of_mem hcur)) hguard
      have hnne : g.neighbors cur ≠ [] := neighbors_ne_nil hsize (hsub cur hcur)
      set nb := (g.neighbors cur).getD (rnd i % (g.neighbors cur).length) (0, 0)
        with hnbdef
      have hnbmem : nb ∈ g.neighbors cur := getD_mod_mem hnne _
      have hnbc : nb ∈ g.cellList := neighbors_mem_cellList (hsub cur hcur) hnbmem
      by_cases hmem : nb ∈ visited
      · rw [aldousLoop_step_visited g rnd fuel cur nb visited s i hguard
          hnbdef.symm hmem] at hrun
        exact ih nb visited s (i + 1) out hrun hnd hsub hmem hinv
      · rw [aldousLoop_step_new g rnd fuel cur nb visited s i hguard
          hnbdef.symm hmem] at hrun
        refine ih nb (visited ++ [nb]) _ (i + 1) out hrun ?_ ?_ (by simp) ?_
        · rw [List.nodup_append]
          refine ⟨hnd, by simp, ?_⟩
          intro x hx hx2
          simp only [List.mem_singleton] at hx2
          exact hmem (hx2 ▸ hx)
        · intro p hp
          rcases List.mem_append.mp hp with h | h
          · exact hsub p h
          · simp only [List.mem_singleton] at h
            exact h ▸ hnbc
        · rw [toFinset_append_singleton]
          exact spanInv_link hinv hnbc (by simpa using hmem)
            (List.mem_toFinset.mpr hcur)
    · rw [aldousLoop_exit g rnd (fuel + 1) cur visited s i hguard] at hrun
      obtain rfl := Option.some.injEq .. ▸ hrun
      apply isSpanning_of_spanInv
      rwa [visited_complete hnd hsub (le_of_not_lt hguard)] at hinv

theorem aldous_broder_spanning {g : Grid} {rnd : Nat → Nat} {fuel : Nat}
    {out : LinkState} (hr : 0 < g.num_rows) (hc : 0 < g.num_columns)
    (hrun : aldous_broder g rnd fuel [] = some out) : IsSpanning g out := by
  unfold aldous_broder at hrun
  set start : Pos := (rnd 0 % g.num_rows, rnd 1 % g.num_columns) with hstart
  have hsc : start ∈ g.cellList :=
    mem_cellList.mpr ⟨Nat.mod_lt _ hr, Nat.mod_lt _ hc⟩
  refine aldousLoop_spanning g rnd fuel start [start] [] 2 out hrun
    (by simp) ?_ (by simp) ?_
  · intro p hp
    simp only [List.mem_singleton] at hp
    exact hp ▸ hsc
  · have : ([start] : List Pos).toFinset = {start} := by simp
    rw [this]
    exact spanInv_singleton g start hsc

/-- The bouncing tail of the adversarial Aldous-Broder run on the 1×3 grid:
from draw index 3 on, the walk alternates between `(0, 1)` and `(0, 0)` and
never visits `(0, 2)`, so the loop never exits, whatever the fuel. -/
theorem aldous_bad_loop : ∀ (fuel i : Nat), 3 ≤ i →
    aldousLoop g13 badStream fuel (if i % 2 = 1 then (0, 1) else (0, 0))
      [(0, 0), (0, 1)] [((0, 1), (0, 0)), ((0, 0), (0, 1))] i = none := by
  intro fuel
  induction fuel with
  | zero =>
    intro i _
    exact aldousLoop_zero g13 badStream _ _ _ i (by decide)
  | succ fuel ih =>
    intro i hi
    have hbs : badStream i = i % 2 := by
      unfold badStream
      rw [if_neg (by omega)]
    by_cases hpar : i % 2 = 1
    · rw [if_pos hpar]
      have hn : g13.neighbors (0, 1) = [(0, 2), (0, 0)] := by decide
      have hstep := aldousLoop_step_visited g13 badStream fuel (0, 1) (0, 0)
        [(0, 0), (0, 1)] [((0, 1), (0, 0)), ((0, 0), (0, 1))] i
        (by decide) (by rw [hn, hbs, hpar]; decide) (by decide)
      rw [hstep]
      have hrec := ih (i + 1) (by omega)
      rwa [if_neg (by omega)] at hrec
    · rw [if_neg hpar]
      have hn : g13.neighbors (0, 0) = [(0, 1)] := by decide
      have hstep := aldousLoop_step_visited g13 badStream fuel (0, 0) (0, 1)
        [(0, 0), (0, 1)] [((0, 1), (0, 0)), ((0, 0), (0, 1))] i
        (by decide) (by rw [hn]; simp [Nat.mod_one]) (by decide)
      rw [hstep]
      have hrec := ih (i + 1) (by omega)
      rwa [if_pos (by omega)] at hrec

theorem aldous_broder_nonterminating :
    ¬ ∃ (fuel : Nat) (out : LinkState),
      aldous_broder g13 badStream fuel [] = some out := by
  rintro ⟨fuel, out, hrun⟩
  have hrun2 : aldousLoop g13 badStream fuel (0, 0) [(0, 0)] [] 2 = some out :=
    hrun
  cases fuel with
  | zero =>
    rw [aldousLoop_zero g13 badStream _ _ _ 2 (by decide)] at hrun2
    cases hrun2
  | succ fuel =>
    have hstep := aldousLoop_step_new g13 badStream fuel (0, 0) (0, 1)
      [(0, 0)] [] 2 (by decide) (by decide) (by decide)
    rw [hstep] at hrun2
    have hv : ([(0, 0)] ++ [(0, 1)] : List Pos) = [(0, 0), (0, 1)] := rfl
    have hlink : link [] (0, 1) (0, 0) true =
        [((0, 1), (0, 0)), ((0, 0), (0, 1))] := by decide
    rw [hv, hlink] at hrun2
    have hbad := aldous_bad_loop fuel 3 (by omega)
    rw [if_pos (by decide)] at hbad
    rw [hbad] at hrun2
    cases hrun2

/-! ## Recursive backtracker -/

theorem spanInv_link_rev {g : Grid} {vis : Finset Pos} {s : LinkState}
    (inv : SpanInv g vis s) {nb cur : Pos} (hnbc : nb ∈ g.cellList)
    (hnb : nb ∉ vis) (hcur : cur ∈ vis) :
    SpanInv g (insert nb vis) (link s cur nb true) := by
  have hne : nb ≠ cur := fun hc => hnb (hc ▸ hcur)
  have h1 : (nb, cur) ∉ s := fun hc => hnb (inv.ends nb cur hc).1
  have h2 : (cur, nb) ∉ s := fun hc => hnb (inv.ends cur nb hc).2.1
  have e1 := link_fresh_eq h1 h2 hne
  have e2 := link_fresh_eq h2 h1 hne.symm
  have hperm : (link s nb cur true).Perm (link s cur nb true) := by
    rw [e1, e2]
    exact List.Perm.append_left s (List.Perm.swap _ _ _)
  exact spanInv_perm hperm (spanInv_link inv hnbc hnb hcur)

theorem rbLoop_nil (g : Grid) (rnd : Nat → Nat) (fuel : Nat)
    (visited : List Pos) (s : LinkState) (i : Nat) :
    rbLoop g rnd fuel visited [] s i = some s := by
  unfold rbLoop
  rfl

theorem rbLoop_step (g : Grid) (rnd : Nat → Nat) (fuel : Nat)
    (visited : List Pos) (a : Pos) (rest : List Pos) (s : LinkState) (i : Nat) :
    rbLoop g rnd (fuel + 1) visited (a :: rest) s i =
      (let current := (a :: rest).getLast?.getD (0, 0)
       let unvis := (g.neighbors current).filter fun n => ¬ n ∈ visited
       if unvis.isEmpty then rbLoop g rnd fuel visited (a :: rest).dropLast s i
       else
         let nb := unvis.getD (rnd i % unvis.length) (0, 0)
         rbLoop g rnd fuel (visited ++ [nb]) ((a :: rest) ++ [nb])
           (link s current nb true) (i + 1)) := by
  conv_lhs => unfold rbLoop

theorem closure_complete {g : Grid} {visited : List Pos} {v0 : Pos}
    (hv0 : v0 ∈ visited) (hsub : ∀ p ∈ visited, p ∈ g.cellList)
    (hcl : ∀ v ∈ visited, ∀ n ∈ g.neighbors v, n ∈ visited) :
    ∀ p ∈ g.cellList, p ∈ visited := by
  have key : ∀ q, Relation.ReflTransGen (NbrRel g) v0 q → q ∈ visited := by
    intro q hr
    induction hr with
    | refl => exact hv0
    | tail hst hrel ih => exact hcl _ ih _ hrel.2.2
  exact fun p hp => key p (grid_connected (hsub v0 hv0) hp)

theorem rbLoop_spanning (g : Grid) (rnd : Nat → Nat) :
    ∀ (fuel : Nat) (visited stack : List Pos) (s : LinkState) (i : Nat)
      (out : LinkState),
      rbLoop g rnd fuel visited stack s i = some out →
      visited.Nodup → (∀ p ∈ visited, p ∈ g.cellList) →
      (∀ p ∈ stack, p ∈ visited) →
      (∀ v ∈ visited, v ∉ stack → ∀ n ∈ g.neighbors v, n ∈ visited) →
      SpanInv g visited.toFinset s → IsSpanning g out := by
  intro fuel
  induction fuel with
  | zero =>
    intro visited stack s i out hrun hnd hsub hstk hcl hinv
    cases stack with
    | nil =>
      rw [rbLoop_nil] at hrun
      obtain rfl := Option.some.injEq .. ▸ hrun
      obtain ⟨v0, hv0⟩ := hinv.vnonempty
      rw [List.mem_toFinset] at hv0
      have hcompl := closure_complete hv0 hsub
        (fun v hv n hn => hcl v hv (by simp) n hn)
      apply isSpanning_of_spanInv
      have : visited.toFinset = g.cellList.toFinset := by
        ext x
        rw [List.mem_toFinset, List.mem_toFinset]
        exact ⟨fun h => hsub x h, fun h => hcompl x h⟩
      rwa [this] at hinv
    | cons a rest =>
      unfold rbLoop at hrun
      cases hrun
  | succ fuel ih =>
    intro visited stack s i out hrun hnd hsub hstk hcl hinv
    cases stack with
    | nil =>
      rw [rbLoop_nil] at hrun
      obtain rfl := Option.some.injEq .. ▸ hrun
      obtain ⟨v0, hv0⟩ := hinv.vnonempty
      rw [List.mem_toFinset] at hv0
      have hcompl := closure_complete hv0 hsub
        (fun v hv n hn => hcl v hv (by simp) n hn)
      apply isSpanning_of_spanInv
      have : visited.toFinset = g.cellList.toFinset := by
        ext x
        rw [List.mem_toFinset, List.mem_toFinset]
        exact ⟨fun h => hsub x h, fun h => hcompl x h⟩
      rwa [this] at hinv
    | cons a rest =>
      rw [rbLoop_step g rnd fuel visited a rest s i] at hrun
      dsimp only at hrun
      set cur := (a :: rest).getLast?.getD (0, 0) with hcurdef
      have hcurstk : cur ∈ a :: rest := by
        rw [hcurdef, List.getLast?_eq_getLast _ (by simp)]
        exact List.getLast_mem _
      have hcurvis : cur ∈ visited := hstk cur hcurstk
      set unvis := (g.neighbors cur).filter (fun n => ¬ n ∈ visited)
        with hunvisdef
      split at hrun
      · rename_i hempty
        have hnbrs : ∀ n ∈ g.neighbors cur, n ∈ visited := by
          intro n hn
          by_contra hc
          have : n ∈ unvis := by
            rw [hunvisdef, List.mem_filter]
            exact ⟨hn, by simpa using hc⟩
          rw [List.isEmpty_iff] at hempty
          rw [hempty] at this
          cases this
        refine ih visited (a :: rest).dropLast s i out hrun hnd hsub
          (fun p hp => hstk p (List.dropLast_subset _ hp)) ?_ hinv
        intro v hv hvd n hn
        by_cases hvstk : v ∈ a :: rest
        · have hveq : v = cur := by
            rw [hcurdef, List.getLast?_eq_getLast _ (by simp)]
            have hsplit := List.dropLast_append_getLast
              (l := a :: rest) (by simp)
            by_contra hne
            have : v ∈ (a :: rest).dropLast ++ [(a :: rest).getLast (by simp)] := by
              rw [hsplit]
              exact hvstk
            rcases List.mem_append.mp this with h | h
            · exact hvd h
            · simp only [List.mem_singleton] at h
              exact hne (h.trans (by simp))
          rw [hveq] at hn
          exact hnbrs n hn
        · exact hcl v hv hvstk n hn
      · rename_i hnonempty
        have hune : unvis ≠ [] := by
          intro hc
          apply hnonempty
          rw [hc]
          rfl
        set nb := unvis.getD (rnd i % unvis.length) (0, 0) with hnbdef
        have hnbu : nb ∈ unvis := getD_mod_mem hune _
        have hnbn : nb ∈ g.neighbors cur ∧ nb ∉ visited := by
          rw [hunvisdef] at hnbu
          rw [List.mem_filter] at hnbu
          exact ⟨hnbu.1, by simpa using hnbu.2⟩
        have hnbc : nb ∈ g.cellList :=
          neighbors_mem_cellList (hsub cur hcurvis) hnbn.1
        refine ih (visited ++ [nb]) ((a :: rest) ++ [nb]) _ (i + 1) out hrun
          ?_ ?_ ?_ ?_ ?_
        · rw [List.nodup_append]
          refine ⟨hnd, by simp, ?_⟩
          intro x hx hx2
          simp only [List.mem_singleton] at hx2
          exact hnbn.2 (hx2 ▸ hx)
        · intro p hp
          rcases List.mem_append.mp hp with h | h
          · exact hsub p h
          · simp only [List.mem_singleton] at h
            exact h ▸ hnbc
        · intro p hp
          rcases List.mem_append.mp hp with h | h
          · exact List.mem_append.mpr (Or.inl (hstk p h))
          · exact List.mem_append.mpr (Or.inr h)
        · intro v hv hvd n hn
          have hvvis : v ∈ visited := by
            rcases List.mem_append.mp hv with h | h
            · exact h
            · exfalso
              exact hvd (List.mem_append.mpr (Or.inr h))
          have hvstk : v ∉ a :: rest := fun hc =>
            hvd (List.mem_append.mpr (Or.inl hc))
          exact List.mem_append.mpr (Or.inl (hcl v hvvis hvstk n hn))
        · rw [toFinset_append_singleton]
          exact spanInv_link_rev hinv hnbc (by simpa using hnbn.2)
            (List.mem_toFinset.mpr hcurvis)

theorem nodup_length_le {l l2 : List Pos} (hnd : l.Nodup)
    (hsub : ∀ p ∈ l, p ∈ l2) : l.length ≤ l2.length := by
  calc l.length = l.toFinset.card := (List.toFinset_card_of_nodup hnd).symm
    _ ≤ l2.toFinset.card := by
        apply Finset.card_le_card
        intro x hx
        rw [List.mem_toFinset] at hx ⊢
        exact hsub x hx
    _ ≤ l2.length := List.toFinset_card_le _

theorem rbLoop_terminates (g : Grid) (rnd : Nat → Nat) :
    ∀ (fuel : Nat) (visited stack : List Pos) (s : LinkState) (i : Nat),
      visited.Nodup → (∀ p ∈ visited, p ∈ g.cellList) →
      (∀ p ∈ stack, p ∈ visited) →
      2 * (g.size - visited.length) + stack.length < fuel →
      ∃ out, rbLoop g rnd fuel visited stack s i = some out := by
  intro fuel
  induction fuel with
  | zero =>
    intro visited stack s i _ _ _ hlt
    omega
  | succ fuel ih =>
    intro visited stack s i hnd hsub hstk hlt
    cases stack with
    | nil => exact ⟨s, rbLoop_nil g rnd _ _ _ _⟩
    | cons a rest =>
      rw [rbLoop_step g rnd fuel visited a rest s i]
      dsimp only
      set cur := (a :: rest).getLast?.getD (0, 0) with hcurdef
      have hcurstk : cur ∈ a :: rest := by
        rw [hcurdef, List.getLast?_eq_getLast _ (by simp)]
        exact List.getLast_mem _
      have hcurvis : cur ∈ visited := hstk cur hcurstk
      set unvis := (g.neighbors cur).filter (fun n => ¬ n ∈ visited)
        with hunvisdef
      split
      · apply ih visited (a :: rest).dropLast s i hnd hsub
          (fun p hp => hstk p (List.dropLast_subset _ hp))
        have hdl : (a :: rest).dropLast.length = rest.length := by
          rw [List.length_dropLast]
          simp
        rw [hdl]
        simp only [List.length_cons] at hlt
        omega
      · rename_i hnonempty
        have hune : unvis ≠ [] := by
          intro hc
          apply hnonempty
          rw [hc]
          rfl
        set nb := unvis.getD (rnd i % unvis.length) (0, 0) with hnbdef
        have hnbu : nb ∈ unvis := getD_mod_mem hune _
        have hnbn : nb ∈ g.neighbors cur ∧ nb ∉ visited := by
          rw [hunvisdef] at hnbu
          rw [List.mem_filter] at hnbu
          exact ⟨hnbu.1, by simpa using hnbu.2⟩
        have hnbc : nb ∈ g.cellList :=
          neighbors_mem_cellList (hsub cur hcurvis) hnbn.1
        have hnd2 : (visited ++ [nb]).Nodup := by
          rw [List.nodup_append]
          refine ⟨hnd, by simp, ?_⟩
          intro x hx hx2
          simp only [List.mem_singleton] at hx2
          exact hnbn.2 (hx2 ▸ hx)
        have hsub2 : ∀ p ∈ visited ++ [nb], p ∈ g.cellList := by
          intro p hp
          rcases List.mem_append.mp hp with h | h
          · exact hsub p h
          · simp only [List.mem_singleton] at h
            exact h ▸ hnbc
        have hsize : (visited ++ [nb]).length ≤ g.size := by
          have := nodup_length_le hnd2 (fun p hp => hsub2 p hp)
          rwa [cellList_length] at this
        apply ih (visited ++ [nb]) ((a :: rest) ++ [nb]) _ (i + 1) hnd2 hsub2
        · intro p hp
          rcases List.mem_append.mp hp with h | h
          · exact List.mem_append.mpr (Or.inl (hstk p h))
          · exact List.mem_append.mpr (Or.inr h)
        · simp only [List.length_append, List.length_cons,
            List.length_singleton] at hsize hlt ⊢
          omega

theorem recursive_backtracker_spanning {g : Grid} {rnd : Nat → Nat}
    {start? : Option Pos} {fuel : Nat} {out : LinkState}
    (hr : 0 < g.num_rows) (hc : 0 < g.num_columns)
    (hstart : ∀ c, start? = some c → c ∈ g.cellList)
    (hrun : recursive_backtracker g rnd start? fuel [] = some out) :
    IsSpanning g out := by
  unfold recursive_backtracker at hrun
  have hstartmem : (match start? with
      | some c => (c, 0)
      | none => g.randomCell rnd 0).1 ∈ g.cellList := by
    cases start? with
    | some c => exact hstart c rfl
    | none => exact mem_cellList.mpr ⟨Nat.mod_lt _ hr, Nat.mod_lt _ hc⟩
  refine rbLoop_spanning g rnd fuel _ _ [] _ out hrun (by simp) ?_ ?_ ?_ ?_
  · intro p hp
    simp only [List.mem_singleton] at hp
    exact hp ▸ hstartmem
  · intro p hp
    exact hp
  · intro v hv hvn
    exact absurd hv hvn
  · have h1 : ([(match start? with
        | some c => (c, 0)
        | none => g.randomCell rnd 0).1] : List Pos).toFinset =
        {(match start? with
        | some c => (c, 0)
        | none => g.randomCell rnd 0).1} := by simp
    rw [h1]
    exact spanInv_singleton g _ hstartmem

theorem recursive_backtracker_terminates {g : Grid} {rnd : Nat → Nat}
    {start? : Option Pos} (hr : 0 < g.num_rows) (hc : 0 < g.num_columns)
    (hstart : ∀ c, start? = some c → c ∈ g.cellList) :
    ∃ out, recursive_backtracker g rnd start? (2 * g.size + 1) [] = some out := by
  unfold recursive_backtracker
  have hsz : 1 ≤ g.size := by
    unfold Grid.size
    exact Nat.one_le_iff_ne_zero.mpr (Nat.mul_ne_zero (by omega) (by omega))
  apply rbLoop_terminates g rnd (2 * g.size + 1) _ _ [] _ (by simp)
  · intro p hp
    simp only [List.mem_singleton] at hp
    subst hp
    cases start? with
    | some c => exact hstart c rfl
    | none => exact mem_cellList.mpr ⟨Nat.mod_lt _ hr, Nat.mod_lt _ hc⟩
  · intro p hp
    exact hp
  · simp only [List.length_singleton]
    omega

/-! ## Binary tree: general spanning proof -/

theorem mem_btNeighbors {g : Grid} {p n : Pos} :
    n ∈ btNeighbors g p ↔ g.north p = some n ∨ g.east p = some n := by
  unfold btNeighbors
  rcases hn : g.north p with _ | x <;> rcases he : g.east p with _ | y <;>
    simp [Option.some.injEq, eq_comm]

theorem btNeighbors_ne {g : Grid} {p n : Pos} (h : n ∈ btNeighbors g p) :
    n ≠ p := by
  rcases mem_btNeighbors.mp h with h2 | h2
  · obtain ⟨h0, rfl⟩ := north_eq_some.mp h2
    intro hc
    have := (Prod.ext_iff.mp hc).1
    simp only at this
    omega
  · obtain ⟨h0, rfl⟩ := east_eq_some.mp h2
    intro hc
    have := (Prod.ext_iff.mp hc).2
    simp only at this
    omega

theorem btNeighbors_antisymm {g : Grid} {p n : Pos}
    (h : n ∈ btNeighbors g p) : p ∉ btNeighbors g n := by
  intro h2
  rcases mem_btNeighbors.mp h with h3 | h3 <;>
    rcases mem_btNeighbors.mp h2 with h4 | h4
  · obtain ⟨h0, rfl⟩ := north_eq_some.mp h3
    obtain ⟨h1, hpe⟩ := north_eq_some.mp h4
    have := (Prod.ext_iff.mp hpe).1
    simp only at this h1
    omega
  · obtain ⟨h0, rfl⟩ := north_eq_some.mp h3
    obtain ⟨h1, hpe⟩ := east_eq_some.mp h4
    have := (Prod.ext_iff.mp hpe).1
    simp only at this
    omega
  · obtain ⟨h0, rfl⟩ := east_eq_some.mp h3
    obtain ⟨h1, hpe⟩ := north_eq_some.mp h4
    have := (Prod.ext_iff.mp hpe).1
    simp only at this h1
    omega
  · obtain ⟨h0, rfl⟩ := east_eq_some.mp h3
    obtain ⟨h1, hpe⟩ := east_eq_some.mp h4
    have := (Prod.ext_iff.mp hpe).2
    simp only at this
    omega

theorem btNeighbors_sub_cells {g : Grid} {p n : Pos} (hp : p ∈ g.cellList)
    (h : n ∈ btNeighbors g p) : n ∈ g.cellList := by
  rw [mem_cellList] at hp ⊢
  rcases mem_btNeighbors.mp h with h2 | h2
  · obtain ⟨h0, rfl⟩ := north_eq_some.mp h2
    exact ⟨by omega, hp.2⟩
  · obtain ⟨h0, rfl⟩ := east_eq_some.mp h2
    exact ⟨hp.1, by omega⟩

theorem btNeighbors_eq_nil_iff {g : Grid} {p : Pos} :
    btNeighbors g p = [] ↔ ¬ 0 < p.1 ∧ ¬ p.2 < g.num_columns - 1 := by
  unfold btNeighbors Grid.north Grid.east
  by_cases h1 : 0 < p.1 <;> by_cases h2 : p.2 < g.num_columns - 1 <;>
    simp [h1, h2]

theorem countP_eq_one_of_iff {P : Pos → Bool} :
    ∀ (l : List Pos) (a : Pos), l.Nodup → a ∈ l →
      (∀ x ∈ l, P x = true ↔ x = a) → l.countP P = 1 := by
  intro l
  induction l with
  | nil => intro a _ hmem; simp at hmem
  | cons x t ih =>
    intro a hnd hmem hiff
    rw [List.countP_cons]
    have hx := hiff x (by simp)
    by_cases hxa : x = a
    · subst hxa
      rw [if_pos (hx.mpr rfl)]
      have hzero : t.countP P = 0 := by
        rw [List.countP_eq_zero]
        intro y hy hPy
        have : y = x := (hiff y (List.mem_cons_of_mem _ hy)).mp hPy
        exact (List.nodup_cons.mp hnd).1 (this ▸ hy)
      omega
    · have hmem2 : a ∈ t := by
        rcases List.mem_cons.mp hmem with h | h
        · exact absurd h.symm hxa
        · exact h
      rw [if_neg (by intro hc; exact hxa (hx.mp hc))]
      rw [ih a (List.nodup_cons.mp hnd).2 hmem2
        (fun y hy => hiff y (List.mem_cons_of_mem _ hy))]

theorem countP_not_add (P : Pos → Bool) :
    ∀ l : List Pos, l.countP (fun x => !(P x)) + l.countP P = l.length := by
  intro l
  induction l with
  | nil => rfl
  | cons x t ih =>
    rw [List.countP_cons, List.countP_cons, List.length_cons]
    by_cases hPx : P x = true
    · rw [if_pos hPx, if_neg (by simp [hPx])]
      omega
    · rw [if_neg hPx, if_pos (by simp [Bool.not_eq_true] at hPx ⊢; exact hPx)]
      omega

theorem btInv_empty (g : Grid) : BTInv g [] [] := by
  refine ⟨?_, List.nodup_nil, ?_, ?_, ?_⟩
  · intro a b h
    simp at h
  · intro a b h
    simp at h
  · intro c hc
    simp at hc
  · rfl

theorem btInv_fold (g : Grid) (rnd : Nat → Nat) :
    ∀ (l proc : List Pos) (st : LinkState × Nat),
      (proc ++ l).Nodup → BTInv g proc st.1 →
      BTInv g (proc ++ l) ((l.foldl (binaryTreeStep g rnd) st)).1 := by
  intro l
  induction l with
  | nil =>
    intro proc st _ hinv
    simpa using hinv
  | cons c l2 ih =>
    intro proc st hnd hinv
    have hnd2 : ((proc ++ [c]) ++ l2).Nodup := by
      rw [List.append_assoc]
      simpa using hnd
    have hcproc : c ∉ proc := by
      rw [List.nodup_append] at hnd
      intro hc
      exact hnd.2.2 hc (by simp)
    have hassoc : proc ++ c :: l2 = (proc ++ [c]) ++ l2 := by
      rw [List.append_assoc]
      rfl
    rw [hassoc, List.foldl_cons]
    apply ih (proc ++ [c]) (binaryTreeStep g rnd st c) hnd2
    unfold binaryTreeStep
    by_cases hempty : (btNeighbors g c).isEmpty
    · rw [if_pos hempty]
      have hnil : btNeighbors g c = [] := by
        rwa [List.isEmpty_iff] at hempty
      refine ⟨hinv.sym, hinv.nodup, ?_, ?_, ?_⟩
      · intro a b hab
        rcases hinv.account a b hab with ⟨h1, h2⟩ | ⟨h1, h2⟩
        · exact Or.inl ⟨List.mem_append.mpr (Or.inl h1), h2⟩
        · exact Or.inr ⟨List.mem_append.mpr (Or.inl h1), h2⟩
      · intro x hx hxne
        rcases List.mem_append.mp hx with h | h
        · exact hinv.parent x h hxne
        · simp only [List.mem_singleton] at h
          exact absurd (h ▸ hnil) hxne
      · rw [hinv.count, List.countP_append]
        have : ([c].countP fun p => !(btNeighbors g p).isEmpty) = 0 := by
          simp [List.countP_cons, hempty]
        rw [this]
        omega
    · rw [if_neg hempty]
      have hnil : btNeighbors g c ≠ [] := by
        intro hc
        rw [hc] at hempty
        exact hempty rfl
      set n := (btNeighbors g c).getD (rnd st.2 % (btNeighbors g c).length) (0, 0)
        with hndef
      have hnmem : n ∈ btNeighbors g c := getD_mod_mem hnil _
      have hne : c ≠ n := (btNeighbors_ne hnmem).symm
      have hanti : c ∉ btNeighbors g n := btNeighbors_antisymm hnmem
      have hf1 : (c, n) ∉ st.1 := by
        intro hc2
        rcases hinv.account c n hc2 with ⟨h1, _⟩ | ⟨_, h2⟩
        · exact hcproc h1
        · exact hanti h2
      have hf2 : (n, c) ∉ st.1 := by
        intro hc2
        rcases hinv.account n c hc2 with ⟨_, h2⟩ | ⟨h1, _⟩
        · exact hanti h2
        · exact hcproc h1
      rw [link_fresh_eq hf1 hf2 hne]
      have hmem2 : ∀ x : Pos × Pos, x ∈ st.1 ++ [(c, n), (n, c)] ↔
          x ∈ st.1 ∨ x = (c, n) ∨ x = (n, c) := by
        intro x
        simp [List.mem_append]
      refine ⟨?_, ?_, ?_, ?_, ?_⟩
      · intro x y hxy
        rcases (hmem2 (x, y)).mp hxy with h | h | h
        · exact (hmem2 _).mpr (Or.inl (hinv.sym x y h))
        · obtain ⟨rfl, rfl⟩ := Prod.mk.injEq .. ▸ h
          exact (hmem2 _).mpr (Or.inr (Or.inr rfl))
        · obtain ⟨rfl, rfl⟩ := Prod.mk.injEq .. ▸ h
          exact (hmem2 _).mpr (Or.inr (Or.inl rfl))
      · rw [List.nodup_append]
        refine ⟨hinv.nodup, ?_, ?_⟩
        · refine List.nodup_cons.mpr ⟨?_, by simp⟩
          simp only [List.mem_singleton]
          intro hc2
          exact hne (Prod.mk.injEq .. ▸ hc2).1
        · intro x hx hx2
          simp only [List.mem_cons, List.not_mem_nil, or_false] at hx2
          rcases hx2 with rfl | rfl
          · exact hf1 hx
          · exact hf2 hx
      · intro a b hab
        rcases (hmem2 (a, b)).mp hab with h | h | h
        · rcases hinv.account a b h with ⟨h1, h2⟩ | ⟨h1, h2⟩
          · exact Or.inl ⟨List.mem_append.mpr (Or.inl h1), h2⟩
          · exact Or.inr ⟨List.mem_append.mpr (Or.inl h1), h2⟩
        · obtain ⟨rfl, rfl⟩ := Prod.mk.injEq .. ▸ h
          exact Or.inl ⟨List.mem_append.mpr (Or.inr (by simp)), hnmem⟩
        · obtain ⟨rfl, rfl⟩ := Prod.mk.injEq .. ▸ h
          exact Or.inr ⟨List.mem_append.mpr (Or.inr (by simp)), hnmem⟩
      · intro x hx hxne
        rcases List.mem_append.mp hx with h | h
        · obtain ⟨m, hm1, hm2⟩ := hinv.parent x h hxne
          exact ⟨m, hm1, (hmem2 _).mpr (Or.inl hm2)⟩
        · simp only [List.mem_singleton] at h
          subst h
          exact ⟨n, hnmem, (hmem2 _).mpr (Or.inr (Or.inl rfl))⟩
      · have hlen : (st.1 ++ [(c, n), (n, c)]).length = st.1.length + 2 := by
          simp
        rw [hlen, hinv.count, List.countP_append]
        have : ([c].countP fun p => !(btNeighbors g p).isEmpty) = 1 := by
          simp only [List.countP_cons, List.countP_nil]
          rw [if_pos (by simpa using hempty)]
        rw [this]
        omega

theorem bt_reach_root (g : Grid) (s : LinkState)
    (hpar : ∀ c ∈ g.cellList, btNeighbors g c ≠ [] →
      ∃ n ∈ btNeighbors g c, (c, n) ∈ s) :
    ∀ p ∈ g.cellList, Reach s p (0, g.num_columns - 1) := by
  intro p hp
  obtain ⟨m, hm⟩ : ∃ m, p.1 + (g.num_columns - 1 - p.2) = m := ⟨_, rfl⟩
  induction m using Nat.strong_induction_on generalizing p with
  | _ m ih =>
    by_cases hnil : btNeighbors g p = []
    · obtain ⟨h1, h2⟩ := btNeighbors_eq_nil_iff.mp hnil
      have hb := mem_cellList.mp hp
      have hpe : p = (0, g.num_columns - 1) := by
        rw [Prod.ext_iff]
        exact ⟨show p.1 = 0 by omega, show p.2 = g.num_columns - 1 by omega⟩
      rw [hpe]
      exact Relation.ReflTransGen.refl
    · obtain ⟨n, hn, hmem⟩ := hpar p hp hnil
      have hnc : n ∈ g.cellList := btNeighbors_sub_cells hp hn
      have hmeas : n.1 + (g.num_columns - 1 - n.2) < m := by
        rcases mem_btNeighbors.mp hn with h2 | h2
        · obtain ⟨h0, rfl⟩ := north_eq_some.mp h2
          simp only
          omega
        · obtain ⟨h0, rfl⟩ := east_eq_some.mp h2
          simp only
          omega
      exact Relation.ReflTransGen.head hmem (ih _ hmeas n hnc rfl)

theorem binary_tree_spanning {g : Grid} (rnd : Nat → Nat)
    (hr : 0 < g.num_rows) (hc : 0 < g.num_columns) :
    IsSpanning g (binary_tree g rnd []) := by
  have hinv : BTInv g g.cellList (binary_tree g rnd []) := by
    have := btInv_fold g rnd g.cellList [] ([], 0)
      (by simpa using cellList_nodup g) (btInv_empty g)
    simpa [binary_tree] using this
  have hroot : ((0 : Nat), g.num_columns - 1) ∈ g.cellList :=
    mem_cellList.mpr ⟨hr, by omega⟩
  have hreach := bt_reach_root g (binary_tree g rnd []) hinv.parent
  have hcount : (g.cellList.countP fun p => !(btNeighbors g p).isEmpty) =
      g.size - 1 := by
    have h1 : (g.cellList.countP fun p => (btNeighbors g p).isEmpty) = 1 := by
      apply countP_eq_one_of_iff g.cellList (0, g.num_columns - 1)
        (cellList_nodup g) hroot
      intro x hx
      rw [List.isEmpty_iff, btNeighbors_eq_nil_iff]
      have hb := mem_cellList.mp hx
      rw [Prod.ext_iff]
      constructor
      · intro ⟨ha, hb2⟩
        exact ⟨show x.1 = 0 by omega, show x.2 = g.num_columns - 1 by omega⟩
      · intro ⟨ha, hb2⟩
        constructor
        · show ¬ 0 < x.1
          have : x.1 = 0 := ha
          omega
        · show ¬ x.2 < g.num_columns - 1
          have : x.2 = g.num_columns - 1 := hb2
          omega
    have h2 := countP_not_add (fun p => (btNeighbors g p).isEmpty) g.cellList
    rw [h1, cellList_length] at h2
    have hsz : 1 ≤ g.size := by
      unfold Grid.size
      exact Nat.one_le_iff_ne_zero.mpr (Nat.mul_ne_zero (by omega) (by omega))
    omega
  constructor
  · intro p hp q hq
    have h1 := hreach p hp
    have h2 := reach_symm hinv.sym (hreach q hq)
    exact h1.trans h2
  · have hlen : (binary_tree g rnd []).length = 2 * (g.size - 1) := by
      rw [hinv.count, hcount]
    have hirr : ∀ a b : Pos, (a, b) ∈ binary_tree g rnd [] → a ≠ b := by
      intro a b hab
      rcases hinv.account a b hab with ⟨_, h2⟩ | ⟨_, h2⟩
      · exact (btNeighbors_ne h2).symm
      · exact btNeighbors_ne h2
    have h3 := edge_card_half (binary_tree g rnd []).length _ rfl hinv.nodup
      hinv.sym hirr
    omega

/-! ## Wilson: loop-erased walk lemmas -/

theorem chopTo_prefix (next : Pos) : ∀ path : List Pos,
    chopTo next path <+: path := by
  intro path
  induction path using chopTo.induct next with
  | case1 => simp [chopTo]
  | case2 p rest hlast =>
    rw [chopTo, if_pos hlast]
  | case3 p rest hlast ih =>
    rw [chopTo, if_neg hlast]
    exact ih.trans (List.dropLast_prefix _)

theorem chopTo_getLast (next : Pos) : ∀ path : List Pos, next ∈ path →
    (chopTo next path).getLast? = some next := by
  intro path
  induction path using chopTo.induct next with
  | case1 => intro h; simp at h
  | case2 p rest hlast =>
    intro _
    rw [chopTo, if_pos hlast]
    exact hlast
  | case3 p rest hlast ih =>
    intro hmem
    rw [chopTo, if_neg hlast]
    apply ih
    have hne : (p :: rest) ≠ [] := by simp
    have hsplit := List.dropLast_append_getLast hne
    rcases List.mem_append.mp (hsplit ▸ hmem) with h | h
    · exact h
    · simp only [List.mem_singleton] at h
      exfalso
      apply hlast
      rw [List.getLast?_eq_getLast _ hne, h]

theorem wilsonWalk_exit (g : Grid) (rnd : Nat → Nat) (fuel : Nat)
    (unvisited path : List Pos) (i : Nat)
    (hcond : ¬ ((path.getLast?.map fun l => unvisited.contains l).getD false = true)) :
    wilsonWalk g rnd fuel unvisited path i = some (path, i) := by
  cases fuel <;> (unfold wilsonWalk; rw [if_neg hcond])

theorem wilsonWalk_zero (g : Grid) (rnd : Nat → Nat)
    (unvisited path : List Pos) (i : Nat)
    (hcond : (path.getLast?.map fun l => unvisited.contains l).getD false = true) :
    wilsonWalk g rnd 0 unvisited path i = none := by
  unfold wilsonWalk
  rw [if_pos hcond]

theorem wilsonWalk_step (g : Grid) (rnd : Nat → Nat) (fuel : Nat)
    (unvisited path : List Pos) (i : Nat)
    (hcond : (path.getLast?.map fun l => unvisited.contains l).getD false = true) :
    wilsonWalk g rnd (fuel + 1) unvisited path i =
      (let cur := path.getLast?.getD (0, 0)
       let nbrs := g.neighbors cur
       let nb := nbrs.getD (rnd i % nbrs.length) (0, 0)
       if nb ∈ path then wilsonWalk g rnd fuel unvisited (chopTo nb path) (i + 1)
       else wilsonWalk g rnd fuel unvisited (path ++ [nb]) (i + 1)) := by
  conv_lhs => unfold wilsonWalk
  rw [if_pos hcond]

theorem wilsonWalk_spec (g : Grid) (rnd : Nat → Nat)
    (hnb : ∀ p ∈ g.cellList, g.neighbors p ≠ []) :
    ∀ (fuel : Nat) (unvisited path : List Pos) (i : Nat)
      (path2 : List Pos) (i2 : Nat),
      wilsonWalk g rnd fuel unvisited path i = some (path2, i2) →
      path ≠ [] → path.Nodup → (∀ p ∈ path, p ∈ g.cellList) →
      (∀ p ∈ path.dropLast, p ∈ unvisited) →
      path2 ≠ [] ∧ path2.Nodup ∧ (∀ p ∈ path2, p ∈ g.cellList) ∧
      (∀ p ∈ path2.dropLast, p ∈ unvisited) ∧
      ∀ l, path2.getLast? = some l → l ∉ unvisited := by
  intro fuel
  induction fuel with
  | zero =>
    intro unvisited path i path2 i2 hrun hne hnd hsub hdrop
    by_cases hcond : (path.getLast?.map fun l => unvisited.contains l).getD false = true
    · rw [wilsonWalk_zero g rnd unvisited path i hcond] at hrun
      cases hrun
    · rw [wilsonWalk_exit g rnd 0 unvisited path i hcond] at hrun
      obtain ⟨rfl, rfl⟩ := Prod.mk.injEq .. ▸ Option.some.injEq .. ▸ hrun
      refine ⟨hne, hnd, hsub, hdrop, ?_⟩
      intro l hl hlu
      apply hcond
      rw [hl]
      simpa using hlu
  | succ fuel ih =>
    intro unvisited path i path2 i2 hrun hne hnd hsub hdrop
    by_cases hcond : (path.getLast?.map fun l => unvisited.contains l).getD false = true
    · have hlastu : path.getLast hne ∈ unvisited := by
        rw [List.getLast?_eq_getLast _ hne] at hcond
        simpa using hcond
      have hall : ∀ p ∈ path, p ∈ unvisited := by
        intro p hp
        have hsplit := List.dropLast_append_getLast hne
        rcases List.mem_append.mp (hsplit ▸ hp) with h | h
        · exact hdrop p h
        · simp only [List.mem_singleton] at h
          exact h ▸ hlastu
      rw [wilsonWalk_step g rnd fuel unvisited path i hcond] at hrun
      dsimp only at hrun
      set cur := path.getLast?.getD (0, 0) with hcurdef
      have hcurp : cur ∈ path := by
        rw [hcurdef, List.getLast?_eq_getLast _ hne]
        exact List.getLast_mem hne
      have hcurc : cur ∈ g.cellList := hsub cur hcurp
      have hnne : g.neighbors cur ≠ [] := hnb cur hcurc
      set nb := (g.neighbors cur).getD (rnd i % (g.neighbors cur).length) (0, 0)
        with hnbdef
      have hnbmem : nb ∈ g.neighbors cur := getD_mod_mem hnne _
      have hnbc : nb ∈ g.cellList := neighbors_mem_cellList hcurc hnbmem
      split at hrun
      · rename_i hinpath
        have hpre := chopTo_prefix nb path
        have hlast2 := chopTo_getLast nb path hinpath
        have hne2 : chopTo nb path ≠ [] := by
          intro hc
          rw [hc] at hlast2
          cases hlast2
        refine ih unvisited (chopTo nb path) (i + 1) path2 i2 hrun hne2
          (hnd.sublist hpre.sublist) ?_ ?_
        · intro p hp
          exact hsub p (hpre.subset hp)
        · intro p hp
          exact hall p (hpre.subset (List.dropLast_subset _ hp))
      · rename_i hninpath
        refine ih unvisited (path ++ [nb]) (i + 1) path2 i2 hrun (by simp) ?_ ?_ ?_
        · rw [List.nodup_append]
          refine ⟨hnd, by simp, ?_⟩
          intro x hx hx2
          simp only [List.mem_singleton] at hx2
          exact hninpath (hx2 ▸ hx)
        · intro p hp
          rcases List.mem_append.mp hp with h | h
          · exact hsub p h
          · simp only [List.mem_singleton] at h
            exact h ▸ hnbc
        · intro p hp
          rw [List.dropLast_concat] at hp
          exact hall p hp
    · rw [wilsonWalk_exit g rnd (fuel + 1) unvisited path i hcond] at hrun
      obtain ⟨rfl, rfl⟩ := Prod.mk.injEq .. ▸ Option.some.injEq .. ▸ hrun
      refine ⟨hne, hnd, hsub, hdrop, ?_⟩
      intro l hl hlu
      apply hcond
      rw [hl]
      simpa using hlu

/-! ## Wilson: path connection -/

theorem linkPath_fst_closed : ∀ (path : List Pos) (s : LinkState)
    (unv : List Pos), path.Nodup → (∀ x ∈ pathPairs path, x ∉ s) →
    (linkPath s unv path).1 = s ++ pathPairs path := by
  intro path
  induction path with
  | nil => intro s unv _ _; simp [linkPath, pathPairs]
  | cons a rest ih =>
    intro s unv hnd hfresh
    cases rest with
    | nil => simp [linkPath, pathPairs]
    | cons b rest2 =>
      have hanb : a ∉ b :: rest2 := (List.nodup_cons.mp hnd).1
      have hab : a ≠ b := fun hc => hanb (hc ▸ List.mem_cons_self _ _)
      have hf1 : ((a, b) : Pos × Pos) ∉ s :=
        hfresh (a, b) (by simp [pathPairs])
      have hf2 : ((b, a) : Pos × Pos) ∉ s :=
        hfresh (b, a) (by simp [pathPairs])
      show (linkPath (link s a b true) (unv.erase a) (b :: rest2)).1 = _
      rw [link_fresh_eq hf1 hf2 hab]
      rw [ih (s ++ [(a, b), (b, a)]) (unv.erase a) (List.Nodup.of_cons hnd) ?_]
      · simp only [pathPairs, List.append_assoc]
        rfl
      · intro x hx hxs
        obtain ⟨h1, h2⟩ := pathPairs_mem_sub (b :: rest2) x.1 x.2
          (by rwa [show (x.1, x.2) = x from rfl])
        rcases List.mem_append.mp hxs with h | h
        · refine hfresh x ?_ h
          show x ∈ (a, b) :: (b, a) :: pathPairs (b :: rest2)
          exact List.mem_cons_of_mem _ (List.mem_cons_of_mem _ hx)
        · simp only [List.mem_cons, List.not_mem_nil, or_false] at h
          rcases h with h | h
          · apply hanb
            rw [h] at h1
            exact h1
          · apply hanb
            rw [h] at h2
            exact h2

theorem linkPath_snd_spec : ∀ (path : List Pos) (s : LinkState)
    (unv : List Pos), unv.Nodup →
    (linkPath s unv path).2.Nodup ∧
    ∀ x : Pos, x ∈ (linkPath s unv path).2 ↔ x ∈ unv ∧ x ∉ path.dropLast := by
  intro path
  induction path with
  | nil =>
    intro s unv hnd
    exact ⟨hnd, fun x => by simp [linkPath]⟩
  | cons a rest ih =>
    intro s unv hnd
    cases rest with
    | nil =>
      exact ⟨hnd, fun x => by simp [linkPath]⟩
    | cons b rest2 =>
      have hstep := ih (link s a b true) (unv.erase a) (hnd.erase a)
      refine ⟨hstep.1, ?_⟩
      intro x
      show x ∈ (linkPath (link s a b true) (unv.erase a) (b :: rest2)).2 ↔ _
      rw [(hstep.2 x)]
      rw [hnd.mem_erase_iff]
      have hdl : (a :: b :: rest2).dropLast = a :: (b :: rest2).dropLast := by
        simp
      rw [hdl]
      simp only [List.mem_cons]
      constructor
      · intro ⟨⟨h1, h2⟩, h3⟩
        exact ⟨h2, fun hc => hc.elim h1 h3⟩
      · intro ⟨h1, h2⟩
        exact ⟨⟨fun hc => h2 (Or.inl hc), h1⟩, fun hc => h2 (Or.inr hc)⟩

theorem one_lt_size_of_two_mem {g : Grid} {u v : Pos} (hu : u ∈ g.cellList)
    (hv : v ∈ g.cellList) (huv : u ≠ v) : 1 < g.size := by
  have h2 : ({u, v} : Finset Pos).card = 2 := by
    rw [Finset.card_insert_of_not_mem (by simpa using huv), Finset.card_singleton]
  have hsub : ({u, v} : Finset Pos) ⊆ g.cellList.toFinset := by
    intro x hx
    rcases Finset.mem_insert.mp hx with rfl | hx2
    · exact List.mem_toFinset.mpr hu
    · rw [Finset.mem_singleton] at hx2
      exact List.mem_toFinset.mpr (hx2 ▸ hv)
  have := Finset.card_le_card hsub
  rw [h2, List.toFinset_card_of_nodup (cellList_nodup g), cellList_length] at this
  omega

theorem wilsonLoop_exit (g : Grid) (rnd : Nat → Nat) (wfuel fuel : Nat)
    (s : LinkState) (i : Nat) :
    wilsonLoop g rnd wfuel fuel [] s i = some (s, i) := by
  cases fuel <;> (unfold wilsonLoop; rfl)

theorem wilsonLoop_step (g : Grid) (rnd : Nat → Nat) (wfuel fuel : Nat)
    (u : Pos) (urest : List Pos) (s : LinkState) (i : Nat) :
    wilsonLoop g rnd wfuel (fuel + 1) (u :: urest) s i =
      (let start := (u :: urest).getD (rnd i % (u :: urest).length) (0, 0)
       match wilsonWalk g rnd wfuel (u :: urest) [start] (i + 1) with
       | none => none
       | some (path, i1) =>
         let su := linkPath s (u :: urest) path
         wilsonLoop g rnd wfuel fuel su.2 su.1 i1) := by
  conv_lhs => unfold wilsonLoop
  rw [if_pos (by simp)]

theorem wilsonLoop_spanning (g : Grid) (rnd : Nat → Nat) (wfuel : Nat) :
    ∀ (fuel : Nat) (unvisited : List Pos) (s : LinkState) (i : Nat)
      (out : LinkState × Nat),
      wilsonLoop g rnd wfuel fuel unvisited s i = some out →
      unvisited.Nodup → (∀ p ∈ unvisited, p ∈ g.cellList) →
      SpanInv g (g.cellList.toFinset \ unvisited.toFinset) s →
      IsSpanning g out.1 := by
  intro fuel
  induction fuel with
  | zero =>
    intro unvisited s i out hrun hnd hsub hinv
    cases unvisited with
    | nil =>
      rw [wilsonLoop_exit] at hrun
      obtain rfl := Option.some.injEq .. ▸ hrun
      apply isSpanning_of_spanInv
      simpa using hinv
    | cons u urest =>
      unfold wilsonLoop at hrun
      rw [if_pos (by simp)] at hrun
      cases hrun
  | succ fuel ih =>
    intro unvisited s i out hrun hnd hsub hinv
    cases unvisited with
    | nil =>
      rw [wilsonLoop_exit] at hrun
      obtain rfl := Option.some.injEq .. ▸ hrun
      apply isSpanning_of_spanInv
      simpa using hinv
    | cons u urest =>
      rw [wilsonLoop_step g rnd wfuel fuel u urest s i] at hrun
      dsimp only at hrun
      set start := (u :: urest).getD (rnd i % (u :: urest).length) (0, 0)
        with hstartdef
      have hstartu : start ∈ u :: urest := getD_mod_mem (by simp) _
      have hstartc : start ∈ g.cellList := hsub start hstartu
      obtain ⟨v0, hv0⟩ := hinv.vnonempty
      have hv0f := Finset.mem_sdiff.mp hv0
      have hsize : 1 < g.size := by
        refine one_lt_size_of_two_mem (List.mem_toFinset.mp hv0f.1) hstartc ?_
        intro hc
        exact hv0f.2 (List.mem_toFinset.mpr (hc ▸ hstartu))
      have hnbne : ∀ p ∈ g.cellList, g.neighbors p ≠ [] := fun p hp =>
        neighbors_ne_nil hsize hp
      rcases hw : wilsonWalk g rnd wfuel (u :: urest) [start] (i + 1) with
        _ | ⟨path2, i2⟩
      · rw [hw] at hrun
        cases hrun
      · rw [hw] at hrun
        have hstartonly : ∀ p ∈ ([start] : List Pos), p ∈ g.cellList := by
          intro p hp
          simp only [List.mem_singleton] at hp
          exact hp ▸ hstartc
        obtain ⟨hp_ne, hp_nd, hp_cells, hp_drop, hp_last⟩ :=
          wilsonWalk_spec g rnd hnbne wfuel (u :: urest) [start] (i + 1)
            path2 i2 hw (by simp) (by simp) hstartonly (by simp)
        have hfresh : ∀ x ∈ pathPairs path2, x ∉ s := by
          intro x hx hxs
          rcases pathPairs_endpoint path2 x.1 x.2
            (by rwa [show (x.1, x.2) = x from rfl]) with h | h
          · have := (hinv.ends x.1 x.2 (by rwa [show (x.1, x.2) = x from rfl])).1
            exact (Finset.mem_sdiff.mp this).2
              (List.mem_toFinset.mpr (hp_drop _ h))
          · have := (hinv.ends x.1 x.2 (by rwa [show (x.1, x.2) = x from rfl])).2.1
            exact (Finset.mem_sdiff.mp this).2
              (List.mem_toFinset.mpr (hp_drop _ h))
        have hfst := linkPath_fst_closed path2 s (u :: urest) hp_nd hfresh
        have hsnd := linkPath_snd_spec path2 s (u :: urest) hnd
        set l2 := path2.dropLast with hl2def
        have hlast : path2.getLast? = some (path2.getLast hp_ne) :=
          List.getLast?_eq_getLast _ hp_ne
        set lastc := path2.getLast hp_ne with hlastdef
        have hlastc : lastc ∈ g.cellList :=
          hp_cells lastc (List.getLast_mem hp_ne)
        have hlastu : lastc ∉ u :: urest := hp_last lastc hlast
        have hlastvis : lastc ∈ g.cellList.toFinset \ (u :: urest).toFinset :=
          Finset.mem_sdiff.mpr ⟨List.mem_toFinset.mpr hlastc,
            fun hc => hlastu (List.mem_toFinset.mp hc)⟩
        have hsplit : path2 = l2 ++ [lastc] :=
          (List.dropLast_append_getLast hp_ne).symm
        have hinv2 : SpanInv g
            ((g.cellList.toFinset \ (u :: urest).toFinset) ∪ l2.toFinset)
            (s ++ pathPairs path2) := by
          cases hl2 : l2 with
          | nil =>
            have hpp : pathPairs path2 = [] := by
              rw [hsplit, hl2]
              rfl
            rw [hpp, List.append_nil]
            simpa using hinv
          | cons w wrest =>
            have hl2ne : l2 ≠ [] := by rw [hl2]; simp
            have hl2nd : l2.Nodup := by
              rw [hl2def]
              exact hp_nd.sublist (List.dropLast_prefix path2).sublist
            have hl2last : l2.getLast? = some (l2.getLast hl2ne) :=
              List.getLast?_eq_getLast _ hl2ne
            have hpp : pathPairs path2 =
                pathPairs l2 ++ [(l2.getLast hl2ne, lastc), (lastc, l2.getLast hl2ne)] := by
              conv_lhs => rw [hsplit]
              exact pathPairs_append_last l2 _ lastc hl2last
            rw [hpp, ← List.append_assoc]
            rw [← hl2]
            refine spanInv_branch hinv hl2ne hl2nd ?_ ?_
              (List.getLast_mem hl2ne) hlastvis
            · intro p hp
              exact hp_cells p (List.dropLast_subset _ hp)
            · intro p hp hpf
              exact (Finset.mem_sdiff.mp hpf).2
                (List.mem_toFinset.mpr (hp_drop p hp))
        have hunv2 : (linkPath s (u :: urest) path2).2.toFinset =
            (u :: urest).toFinset \ l2.toFinset := by
          ext x
          rw [List.mem_toFinset, (hsnd.2 x), Finset.mem_sdiff,
            List.mem_toFinset, List.mem_toFinset]
        have hvisf : g.cellList.toFinset \ (linkPath s (u :: urest) path2).2.toFinset =
            (g.cellList.toFinset \ (u :: urest).toFinset) ∪ l2.toFinset := by
          rw [hunv2]
          ext x
          simp only [Finset.mem_sdiff, Finset.mem_union, List.mem_toFinset]
          constructor
          · intro ⟨h1, h2⟩
            by_cases hxl : x ∈ l2
            · exact Or.inr hxl
            · exact Or.inl ⟨h1, fun hc => h2 ⟨hc, hxl⟩⟩
          · intro h
            rcases h with ⟨h1, h2⟩ | h1
            · exact ⟨h1, fun hc => h2 hc.1⟩
            · exact ⟨hp_cells x (List.dropLast_subset _ h1), fun hc => hc.2 h1⟩
        refine ih (linkPath s (u :: urest) path2).2 (linkPath s (u :: urest) path2).1
          i2 out hrun hsnd.1 ?_ ?_
        · intro p hp
          exact hsub p ((hsnd.2 p).mp hp).1
        · rw [hvisf, hfst]
          exact hinv2

theorem wilson_spanning {g : Grid} {rnd : Nat → Nat} {fuel wfuel : Nat}
    {out : LinkState} (hr : 0 < g.num_rows) (hc : 0 < g.num_columns)
    (hrun : wilson g rnd fuel wfuel [] = some out) : IsSpanning g out := by
  have heq : wilson g rnd fuel wfuel [] =
      (wilsonLoop g rnd wfuel fuel (g.cellList.erase (g.randomCell rnd 0).1) []
        (g.randomCell rnd 0).2).map (fun x => x.1) := rfl
  rw [heq] at hrun
  rw [Option.map_eq_some'] at hrun
  obtain ⟨pair, hpair, rfl⟩ := hrun
  set c := (g.randomCell rnd 0).1 with hcdef
  have hcc : c ∈ g.cellList :=
    mem_cellList.mpr ⟨Nat.mod_lt _ hr, Nat.mod_lt _ hc⟩
  have hnd0 : (g.cellList.erase c).Nodup := (cellList_nodup g).erase c
  refine wilsonLoop_spanning g rnd wfuel fuel _ [] _ pair hpair hnd0 ?_ ?_
  · intro p hp
    exact List.mem_of_mem_erase hp
  · have hvf : g.cellList.toFinset \ (g.cellList.erase c).toFinset = {c} := by
      ext x
      simp only [Finset.mem_sdiff, List.mem_toFinset, Finset.mem_singleton]
      constructor
      · intro ⟨h1, h2⟩
        by_contra hxc
        exact h2 (((cellList_nodup g).mem_erase_iff).mpr ⟨hxc, h1⟩)
      · rintro rfl
        refine ⟨hcc, fun hc2 => ?_⟩
        exact (((cellList_nodup g).mem_erase_iff).mp hc2).1 rfl
    rw [hvf]
    exact spanInv_singleton g c hcc

/-! ## Hybrid -/

theorem hybridPhase1_exit (g : Grid) (rnd : Nat → Nat) (threshold : ℚ)
    (fuel : Nat) (cur : Pos) (unvisited : List Pos) (s : LinkState) (i : Nat)
    (hguard : ¬ ((g.size : ℚ) * threshold < (unvisited.length : ℚ))) :
    hybridPhase1 g rnd threshold fuel cur unvisited s i =
      some (cur, unvisited, s, i) := by
  cases fuel <;> (unfold hybridPhase1; rw [if_neg hguard])

theorem hybridPhase1_zero (g : Grid) (rnd : Nat → Nat) (threshold : ℚ)
    (cur : Pos) (unvisited : List Pos) (s : LinkState) (i : Nat)
    (hguard : (g.size : ℚ) * threshold < (unvisited.length : ℚ)) :
    hybridPhase1 g rnd threshold 0 cur unvisited s i = none := by
  unfold hybridPhase1
  rw [if_pos hguard]

theorem hybridPhase1_step (g : Grid) (rnd : Nat → Nat) (threshold : ℚ)
    (fuel : Nat) (cur : Pos) (unvisited : List Pos) (s : LinkState) (i : Nat)
    (hguard : (g.size : ℚ) * threshold < (unvisited.length : ℚ)) :
    hybridPhase1 g rnd threshold (fuel + 1) cur unvisited s i =
      (let nbrs := g.neighbors cur
       let nb := nbrs.getD (rnd i % nbrs.length) (0, 0)
       if nb ∈ unvisited then
         hybridPhase1 g rnd threshold fuel nb (unvisited.erase nb)
           (link s nb cur true) (i + 1)
       else hybridPhase1 g rnd threshold fuel nb unvisited s (i + 1)) := by
  conv_lhs => unfold hybridPhase1
  rw [if_pos hguard]

theorem hybridPhase1_inv (g : Grid) (rnd : Nat → Nat) (threshold : ℚ)
    (hthr : 0 ≤ threshold) :
    ∀ (fuel : Nat) (cur : Pos) (unvisited : List Pos) (s : LinkState) (i : Nat)
      (out : Pos × List Pos × LinkState × Nat),
      hybridPhase1 g rnd threshold fuel cur unvisited s i = some out →
      unvisited.Nodup → (∀ p ∈ unvisited, p ∈ g.cellList) →
      cur ∈ g.cellList → cur ∉ unvisited →
      SpanInv g (g.cellList.toFinset \ unvisited.toFinset) s →
      out.2.1.Nodup ∧ (∀ p ∈ out.2.1, p ∈ g.cellList) ∧
      SpanInv g (g.cellList.toFinset \ out.2.1.toFinset) out.2.2.1 := by
  intro fuel
  induction fuel with
  | zero =>
    intro cur unvisited s i out hrun hnd hsub hcur hcuru hinv
    by_cases hguard : (g.size : ℚ) * threshold < (unvisited.length : ℚ)
    · rw [hybridPhase1_zero g rnd threshold cur unvisited s i hguard] at hrun
      cases hrun
    · rw [hybridPhase1_exit g rnd threshold 0 cur unvisited s i hguard] at hrun
      obtain rfl := Option.some.injEq .. ▸ hrun
      exact ⟨hnd, hsub, hinv⟩
  | succ fuel ih =>
    intro cur unvisited s i out hrun hnd hsub hcur hcuru hinv
    by_cases hguard : (g.size : ℚ) * threshold < (unvisited.length : ℚ)
    · rw [hybridPhase1_step g rnd threshold fuel cur unvisited s i hguard] at hrun
      dsimp only at hrun
      have hcurvis : cur ∈ g.cellList.toFinset \ unvisited.toFinset :=
        Finset.mem_sdiff.mpr ⟨List.mem_toFinset.mpr hcur,
          fun hc2 => hcuru (List.mem_toFinset.mp hc2)⟩
      have hsize : 1 < g.size := by
        have hune : unvisited ≠ [] := by
          intro hc2
          rw [hc2] at hguard
          simp only [List.length_nil, Nat.cast_zero] at hguard
          have h0 : (0 : ℚ) ≤ (g.size : ℚ) * threshold :=
            mul_nonneg (by positivity) hthr
          linarith
        obtain ⟨u, hu⟩ := List.exists_mem_of_ne_nil unvisited hune
        exact one_lt_size_of_two_mem (hsub u hu) hcur
          (fun hc2 => hcuru (hc2 ▸ hu))
      have hnne : g.neighbors cur ≠ [] := neighbors_ne_nil hsize hcur
      set nb := (g.neighbors cur).getD (rnd i % (g.neighbors cur).length) (0, 0)
        with hnbdef
      have hnbmem : nb ∈ g.neighbors cur := getD_mod_mem hnne _
      have hnbc : nb ∈ g.cellList := neighbors_mem_cellList hcur hnbmem
      split at hrun
      · rename_i hin
        have hnd2 : (unvisited.erase nb).Nodup := hnd.erase nb
        have hvf : g.cellList.toFinset \ (unvisited.erase nb).toFinset =
            insert nb (g.cellList.toFinset \ unvisited.toFinset) := by
          ext x
          simp only [Finset.mem_sdiff, List.mem_toFinset, Finset.mem_insert]
          constructor
          · intro ⟨h1, h2⟩
            by_cases hxnb : x = nb
            · exact Or.inl hxnb
            · refine Or.inr ⟨h1, fun hc2 => ?_⟩
              exact h2 ((hnd.mem_erase_iff).mpr ⟨hxnb, hc2⟩)
          · intro h
            rcases h with rfl | ⟨h1, h2⟩
            · refine ⟨hnbc, fun hc2 => ?_⟩
              exact ((hnd.mem_erase_iff).mp hc2).1 rfl
            · exact ⟨h1, fun hc2 => h2 (List.mem_of_mem_erase hc2)⟩
        refine ih nb (unvisited.erase nb) _ (i + 1) out hrun hnd2
          (fun p hp => hsub p (List.mem_of_mem_erase hp)) hnbc
          (fun hc2 => ((hnd.mem_erase_iff).mp hc2).1 rfl) ?_
        rw [hvf]
        exact spanInv_link hinv hnbc
          (fun hc2 => (Finset.mem_sdiff.mp hc2).2 (List.mem_toFinset.mpr hin))
          hcurvis
      · rename_i hnotin
        exact ih nb unvisited s (i + 1) out hrun hnd hsub hnbc hnotin hinv
    · rw [hybridPhase1_exit g rnd threshold (fuel + 1) cur unvisited s i hguard] at hrun
      obtain rfl := Option.some.injEq .. ▸ hrun
      exact ⟨hnd, hsub, hinv⟩

theorem hybrid_spanning {g : Grid} {rnd : Nat → Nat} {threshold : ℚ}
    {fuel1 fuel2 wfuel : Nat} {out : LinkState}
    (hr : 0 < g.num_rows) (hc : 0 < g.num_columns) (hthr : 0 ≤ threshold)
    (hrun : hybrid g rnd threshold fuel1 fuel2 wfuel [] = some out) :
    IsSpanning g out := by
  have heq : hybrid g rnd threshold fuel1 fuel2 wfuel [] =
      (match hybridPhase1 g rnd threshold fuel1 (g.randomCell rnd 0).1
          (g.cellList.erase (g.randomCell rnd 0).1) [] (g.randomCell rnd 0).2 with
        | none => none
        | some (_, unv, s, i) =>
          (wilsonLoop g rnd wfuel fuel2 unv s i).map (fun x => x.1)) := rfl
  rw [heq] at hrun
  set c := (g.randomCell rnd 0).1 with hcdef
  have hcc : c ∈ g.cellList :=
    mem_cellList.mpr ⟨Nat.mod_lt _ hr, Nat.mod_lt _ hc⟩
  have hnd0 : (g.cellList.erase c).Nodup := (cellList_nodup g).erase c
  have hvf : g.cellList.toFinset \ (g.cellList.erase c).toFinset = {c} := by
    ext x
    simp only [Finset.mem_sdiff, List.mem_toFinset, Finset.mem_singleton]
    constructor
    · intro ⟨h1, h2⟩
      by_contra hxc
      exact h2 (((cellList_nodup g).mem_erase_iff).mpr ⟨hxc, h1⟩)
    · rintro rfl
      refine ⟨hcc, fun hc2 => ?_⟩
      exact (((cellList_nodup g).mem_erase_iff).mp hc2).1 rfl
  rcases hp1 : hybridPhase1 g rnd threshold fuel1 c (g.cellList.erase c) []
      (g.randomCell rnd 0).2 with _ | ⟨cur2, unv2, s2, i2⟩
  · rw [hp1] at hrun
    cases hrun
  · rw [hp1] at hrun
    obtain ⟨hnd2, hsub2, hinv2⟩ := hybridPhase1_inv g rnd threshold hthr fuel1 c
      (g.cellList.erase c) [] (g.randomCell rnd 0).2 (cur2, unv2, s2, i2) hp1 hnd0
      (fun p hp => List.mem_of_mem_erase hp) hcc
      (fun hc2 => (((cellList_nodup g).mem_erase_iff).mp hc2).1 rfl)
      (by rw [hvf]; exact spanInv_singleton g c hcc)
    have hrun2 : (wilsonLoop g rnd wfuel fuel2 unv2 s2 i2).map (fun x => x.1) =
        some out := hrun
    rw [Option.map_eq_some'] at hrun2
    obtain ⟨pair, hpair, rfl⟩ := hrun2
    exact wilsonLoop_spanning g rnd wfuel fuel2 unv2 s2 i2 pair hpair hnd2
      hsub2 hinv2

/-! ## Sidewinder -/

theorem mem_visUpTo {g : Grid} {r c : Nat} {p : Pos} :
    p ∈ visUpTo g r c ↔ p ∈ g.cellList ∧ (p.1 < r ∨ (p.1 = r ∧ p.2 < c)) := by
  unfold visUpTo
  rw [Finset.mem_filter, List.mem_toFinset]

theorem visUpTo_full (g : Grid) :
    visUpTo g g.num_rows 0 = g.cellList.toFinset := by
  ext p
  rw [mem_visUpTo, List.mem_toFinset]
  constructor
  · exact fun h => h.1
  · intro h
    exact ⟨h, Or.inl (mem_cellList.mp h).1⟩

theorem visUpTo_row_end (g : Grid) (r : Nat) :
    visUpTo g r g.num_columns = visUpTo g (r + 1) 0 := by
  ext p
  rw [mem_visUpTo, mem_visUpTo]
  constructor
  · intro ⟨h1, h2⟩
    refine ⟨h1, Or.inl ?_⟩
    rcases h2 with h | ⟨he, _⟩
    · omega
    · omega
  · intro ⟨h1, h2⟩
    refine ⟨h1, ?_⟩
    have hcb := (mem_cellList.mp h1).2
    rcases h2 with h | ⟨_, h⟩
    · by_cases hpr : p.1 = r
      · exact Or.inr ⟨hpr, hcb⟩
      · exact Or.inl (by omega)
    · omega

theorem rowList_eq_range (g : Grid) (r : Nat) :
    g.rowList r = (List.range' 0 g.num_columns).map fun k => (r, k) := by
  unfold Grid.rowList
  rw [List.range_eq_range']

theorem rowList_toFinset (g : Grid) (hr : 0 < g.num_rows) :
    (g.rowList 0).toFinset = visUpTo g 1 0 := by
  ext p
  rw [List.mem_toFinset, mem_visUpTo]
  unfold Grid.rowList
  simp only [List.mem_map, List.mem_range]
  constructor
  · intro ⟨k, hk, hpk⟩
    subst hpk
    exact ⟨mem_cellList.mpr ⟨hr, hk⟩, Or.inl Nat.one_pos⟩
  · intro ⟨h1, h2⟩
    have hp1 : p.1 = 0 := by
      rcases h2 with h | ⟨_, h⟩
      · omega
      · omega
    exact ⟨p.2, (mem_cellList.mp h1).2, by rw [← hp1]⟩

theorem swCell_row0_east (g : Grid) (odds : ℚ) (rndQ : Nat → ℚ)
    (rnd : Nat → Nat) (s : LinkState) (run0 : List Pos) (i j : Nat) (p e : Pos)
    (hp : p.1 = 0) (he : g.east p = some e) :
    sidewinderCell g odds rndQ rnd (s, run0, i, j) p =
      (link s p e true, run0 ++ [p], i, j) := by
  unfold sidewinderCell
  rw [he]
  dsimp only
  rw [if_pos hp]
  rfl

theorem swCell_row0_noeast (g : Grid) (odds : ℚ) (rndQ : Nat → ℚ)
    (rnd : Nat → Nat) (s : LinkState) (run0 : List Pos) (i j : Nat) (p : Pos)
    (hp : p.1 = 0) (he : g.east p = none) :
    sidewinderCell g odds rndQ rnd (s, run0, i, j) p =
      (s, run0 ++ [p], i, j) := by
  unfold sidewinderCell
  rw [he]
  dsimp only
  rw [if_pos hp, if_neg (by omega)]

theorem swCell_link_east (g : Grid) (odds : ℚ) (rndQ : Nat → ℚ)
    (rnd : Nat → Nat) (s : LinkState) (run0 : List Pos) (i j : Nat) (p e : Pos)
    (hp : ¬ (p.1 = 0)) (hd : decide (rndQ j > odds) = true)
    (he : g.east p = some e) :
    sidewinderCell g odds rndQ rnd (s, run0, i, j) p =
      (link s p e true, run0 ++ [p], i, j + 1) := by
  unfold sidewinderCell
  rw [he]
  dsimp only
  rw [if_neg hp]
  rw [hd]
  rfl

theorem swCell_close_east (g : Grid) (odds : ℚ) (rndQ : Nat → ℚ)
    (rnd : Nat → Nat) (s : LinkState) (run0 : List Pos) (i j : Nat)
    (p e nb : Pos) (hp : ¬ (p.1 = 0)) (hd : decide (rndQ j > odds) = false)
    (he : g.east p = some e)
    (hn : g.north ((run0 ++ [p]).getD (rnd i % (run0 ++ [p]).length) (0, 0)) =
      some nb) :
    sidewinderCell g odds rndQ rnd (s, run0, i, j) p =
      (link s ((run0 ++ [p]).getD (rnd i % (run0 ++ [p]).length) (0, 0)) nb true,
       [], i + 1, j + 1) := by
  unfold sidewinderCell
  rw [he]
  dsimp only
  rw [if_neg hp]
  rw [hd]
  rw [hn]
  rfl

theorem swCell_close_noeast (g : Grid) (odds : ℚ) (rndQ : Nat → ℚ)
    (rnd : Nat → Nat) (s : LinkState) (run0 : List Pos) (i j : Nat)
    (p nb : Pos) (hp : ¬ (p.1 = 0)) (he : g.east p = none)
    (hn : g.north ((run0 ++ [p]).getD (rnd i % (run0 ++ [p]).length) (0, 0)) =
      some nb) :
    sidewinderCell g odds rndQ rnd (s, run0, i, j) p =
      (link s ((run0 ++ [p]).getD (rnd i % (run0 ++ [p]).length) (0, 0)) nb true,
       [], i + 1, j + 1) := by
  unfold sidewinderCell
  rw [he]
  dsimp only
  rw [if_neg hp, if_pos (Nat.pos_of_ne_zero hp)]
  rw [hn]

theorem sw_row0_fold (g : Grid) (odds : ℚ) (rndQ : Nat → ℚ)
    (rnd : Nat → Nat) : ∀ (n a : Nat) (s : LinkState) (run0 : List Pos)
      (i j : Nat), a + n = g.num_columns →
      (∀ x : Pos × Pos, x ∈ s → x.1.2 < a ∨ x.2.2 < a) →
      ((List.range' a n).map fun k => ((0 : Nat), k)).foldl
          (sidewinderCell g odds rndQ rnd) (s, run0, i, j) =
        (s ++ pathPairs ((List.range' a n).map fun k => ((0 : Nat), k)),
         run0 ++ ((List.range' a n).map fun k => ((0 : Nat), k)), i, j) := by
  intro n
  induction n with
  | zero =>
    intro a s run0 i j haC hfresh
    simp [pathPairs]
  | succ n ih =>
    intro a s run0 i j haC hfresh
    rw [List.range'_succ]
    cases n with
    | zero =>
      have he : g.east ((0 : Nat), a) = none := by
        unfold Grid.east
        rw [if_neg (show ¬ (((0 : Nat), a).2 < g.num_columns - 1) by
          show ¬ (a < g.num_columns - 1)
          omega)]
      rw [show List.range' (a + 1) 0 = [] from rfl]
      simp only [List.map_cons, List.map_nil, List.foldl_cons, List.foldl_nil]
      rw [swCell_row0_noeast g odds rndQ rnd s run0 i j ((0 : Nat), a) rfl he]
      simp [pathPairs]
    | succ m =>
      have he : g.east ((0 : Nat), a) = some ((0 : Nat), a + 1) := by
        unfold Grid.east
        rw [if_pos (show (((0 : Nat), a).2 < g.num_columns - 1) by
          show a < g.num_columns - 1
          omega)]
      simp only [List.map_cons, List.foldl_cons]
      rw [swCell_row0_east g odds rndQ rnd s run0 i j ((0 : Nat), a)
        ((0 : Nat), a + 1) rfl he]
      have hf1 : (((0 : Nat), a), ((0 : Nat), a + 1)) ∉ s := by
        intro hc
        have := hfresh _ hc
        dsimp only at this
        omega
      have hf2 : ((((0 : Nat), a + 1)), ((0 : Nat), a)) ∉ s := by
        intro hc
        have := hfresh _ hc
        dsimp only at this
        omega
      have hab : (((0 : Nat), a) : Pos) ≠ ((0 : Nat), a + 1) := by
        intro hc
        have := (Prod.mk.injEq .. ▸ hc).2
        omega
      rw [link_fresh_eq hf1 hf2 hab]
      have hfresh2 : ∀ x : Pos × Pos,
          x ∈ s ++ [(((0 : Nat), a), ((0 : Nat), a + 1)),
            (((0 : Nat), a + 1), ((0 : Nat), a))] →
          x.1.2 < a + 1 ∨ x.2.2 < a + 1 := by
        intro x hx
        rcases List.mem_append.mp hx with h | h
        · rcases hfresh x h with h2 | h2
          · exact Or.inl (by omega)
          · exact Or.inr (by omega)
        · simp only [List.mem_cons, List.not_mem_nil, or_false] at h
          rcases h with rfl | rfl
          · exact Or.inl (by dsimp only; omega)
          · exact Or.inr (by dsimp only; omega)
      rw [ih (a + 1) _ _ i j (by omega) hfresh2]
      rw [List.range'_succ, List.map_cons]
      simp only [pathPairs, List.append_assoc, List.cons_append, List.nil_append]

theorem runext_eq_range (r c0 a : Nat) (hc0a : c0 ≤ a) :
    ((List.range' c0 (a - c0)).map fun k => ((r, k) : Pos)) ++ [(r, a)] =
      (List.range' c0 (a - c0 + 1)).map fun k => ((r, k) : Pos) := by
  rw [List.range'_1_concat, List.map_append]
  rw [show c0 + (a - c0) = a from by omega]
  rfl

theorem sw_close_step (g : Grid) (rnd : Nat → Nat) (r : Nat) (hr0 : 0 < r)
    (hrR : r < g.num_rows) (a c0 : Nat) (sB : LinkState) (i : Nat)
    (haC : a < g.num_columns) (hc0a : c0 ≤ a)
    (hinv : SpanInv g (visUpTo g r c0) sB) :
    ∃ nb : Pos,
      g.north (((((List.range' c0 (a - c0)).map fun k => (r, k)) ++
          [(r, a)]).getD
        (rnd i % ((((List.range' c0 (a - c0)).map fun k => (r, k)) ++
          [(r, a)]).length)) (0, 0)) : Pos) = some nb ∧
      SpanInv g (visUpTo g r (a + 1))
        (link (sB ++ pathPairs
            (((List.range' c0 (a - c0)).map fun k => (r, k)) ++ [(r, a)]))
          (((((List.range' c0 (a - c0)).map fun k => (r, k)) ++
              [(r, a)]).getD
            (rnd i % ((((List.range' c0 (a - c0)).map fun k => (r, k)) ++
              [(r, a)]).length)) (0, 0)) : Pos) nb true) := by
  set runext : List Pos :=
    ((List.range' c0 (a - c0)).map fun k => (r, k)) ++ [(r, a)] with hrunext
  have hre : runext = (List.range' c0 (a - c0 + 1)).map fun k => (r, k) :=
    runext_eq_range r c0 a hc0a
  have hmemx : ∀ q ∈ runext, q.1 = r ∧ c0 ≤ q.2 ∧ q.2 ≤ a := by
    intro q hq
    rw [hre] at hq
    obtain ⟨k, hk, hqk⟩ := List.mem_map.mp hq
    obtain ⟨hk1, hk2⟩ := List.mem_range'_1.mp hk
    subst hqk
    exact ⟨rfl, hk1, by omega⟩
  have hndx : runext.Nodup := by
    rw [hre]
    exact (List.nodup_range' c0 (a - c0 + 1)).map
      (fun x y h => (Prod.mk.injEq .. ▸ h).2)
  have hnex : runext ≠ [] := by
    rw [hrunext]
    simp
  have hclx : ∀ q ∈ runext, q ∈ g.cellList := by
    intro q hq
    obtain ⟨h1, h2, h3⟩ := hmemx q hq
    exact mem_cellList.mpr ⟨by omega, by omega⟩
  have hvisx : ∀ q ∈ runext, q ∉ visUpTo g r c0 := by
    intro q hq hmem
    obtain ⟨h1, h2, h3⟩ := hmemx q hq
    rw [mem_visUpTo] at hmem
    rcases hmem.2 with h | ⟨_, h⟩ <;> omega
  set chosen : Pos := runext.getD (rnd i % runext.length) (0, 0) with hchdef
  have hch : chosen ∈ runext := getD_mod_mem hnex _
  obtain ⟨hch1, hch2, hch3⟩ := hmemx chosen hch
  have hn : g.north chosen = some (chosen.1 - 1, chosen.2) := by
    unfold Grid.north
    rw [if_pos (show 0 < chosen.1 by omega)]
  have hnbvis : ((chosen.1 - 1, chosen.2) : Pos) ∈ visUpTo g r c0 := by
    rw [mem_visUpTo]
    exact ⟨mem_cellList.mpr ⟨by dsimp only; omega, by dsimp only; omega⟩,
      Or.inl (by dsimp only; omega)⟩
  have hf1 : (chosen, ((chosen.1 - 1, chosen.2) : Pos)) ∉
      sB ++ pathPairs runext := by
    intro hc
    rcases List.mem_append.mp hc with h | h
    · exact hvisx chosen hch (hinv.ends _ _ h).1
    · have := (pathPairs_mem_sub runext _ _ h).2
      have h2 := (hmemx _ this).1
      dsimp only at h2
      omega
  have hf2 : (((chosen.1 - 1, chosen.2) : Pos), chosen) ∉
      sB ++ pathPairs runext := by
    intro hc
    rcases List.mem_append.mp hc with h | h
    · exact hvisx chosen hch (hinv.ends _ _ h).2.1
    · have := (pathPairs_mem_sub runext _ _ h).1
      have h2 := (hmemx _ this).1
      dsimp only at h2
      omega
  have hchnb : chosen ≠ ((chosen.1 - 1, chosen.2) : Pos) := by
    intro hc
    have h2 : chosen.1 = chosen.1 - 1 := congrArg Prod.fst hc
    omega
  have huni : visUpTo g r c0 ∪ runext.toFinset = visUpTo g r (a + 1) := by
    ext q
    rw [Finset.mem_union, mem_visUpTo, mem_visUpTo, List.mem_toFinset]
    constructor
    · intro h
      rcases h with ⟨h1, h2⟩ | hq
      · refine ⟨h1, ?_⟩
        rcases h2 with h | ⟨h2a, h2b⟩
        · exact Or.inl h
        · exact Or.inr ⟨h2a, by omega⟩
      · obtain ⟨hq1, hq2, hq3⟩ := hmemx q hq
        exact ⟨hclx q hq, Or.inr ⟨hq1, by omega⟩⟩
    · intro ⟨h1, h2⟩
      rcases h2 with h | ⟨h2a, h2b⟩
      · exact Or.inl ⟨h1, Or.inl h⟩
      · by_cases hqc : q.2 < c0
        · exact Or.inl ⟨h1, Or.inr ⟨h2a, hqc⟩⟩
        · refine Or.inr ?_
          rw [hre]
          refine List.mem_map.mpr ⟨q.2, List.mem_range'_1.mpr ⟨by omega, by omega⟩, ?_⟩
          rw [← h2a]
  refine ⟨(chosen.1 - 1, chosen.2), hn, ?_⟩
  rw [link_fresh_eq hf1 hf2 hchnb]
  exact huni ▸ spanInv_branch hinv hnex hndx hclx hvisx hch hnbvis

theorem sw_row_fold (g : Grid) (odds : ℚ) (rndQ : Nat → ℚ) (rnd : Nat → Nat)
    (r : Nat) (hr0 : 0 < r) (hrR : r < g.num_rows) :
    ∀ (n a c0 : Nat) (sB : LinkState) (i j : Nat),
      a + n = g.num_columns → 0 < n → c0 ≤ a →
      SpanInv g (visUpTo g r c0) sB →
      ∃ s2 i2 j2,
        ((List.range' a n).map fun k => ((r, k) : Pos)).foldl
            (sidewinderCell g odds rndQ rnd)
            (sB ++ pathPairs
              (((List.range' c0 (a - c0)).map fun k => (r, k)) ++ [(r, a)]),
             (List.range' c0 (a - c0)).map fun k => (r, k), i, j) =
          (s2, [], i2, j2) ∧
        SpanInv g (visUpTo g r g.num_columns) s2 := by
  intro n
  induction n with
  | zero =>
    intro a c0 sB i j haC hn0 hc0a hinv
    exact absurd hn0 (lt_irrefl 0)
  | succ n ih =>
    intro a c0 sB i j haC hn0 hc0a hinv
    have hpne : ¬ ((((r, a) : Pos)).1 = 0) := by
      show ¬ (r = 0)
      omega
    rw [List.range'_succ, List.map_cons, List.foldl_cons]
    cases n with
    | zero =>
      have he : g.east ((r, a) : Pos) = none := by
        unfold Grid.east
        rw [if_neg (show ¬ ((((r, a) : Pos)).2 < g.num_columns - 1) by
          show ¬ (a < g.num_columns - 1)
          omega)]
      obtain ⟨nb, hn, hinv2⟩ := sw_close_step g rnd r hr0 hrR a c0 sB i
        (by omega) hc0a hinv
      rw [swCell_close_noeast g odds rndQ rnd _ _ i j ((r, a) : Pos) nb hpne
        he hn]
      refine ⟨_, i + 1, j + 1, rfl, ?_⟩
      rwa [show a + 1 = g.num_columns from by omega] at hinv2
    | succ m =>
      have he : g.east ((r, a) : Pos) = some ((r, a + 1) : Pos) := by
        unfold Grid.east
        rw [if_pos (show (((r, a) : Pos)).2 < g.num_columns - 1 by
          show a < g.num_columns - 1
          omega)]
      cases hdec : decide (rndQ j > odds) with
      | true =>
        rw [swCell_link_east g odds rndQ rnd _ _ i j ((r, a) : Pos)
          ((r, a + 1) : Pos) hpne hdec he]
        have hnend : (((r, a + 1) : Pos)) ∉ visUpTo g r c0 := by
          rw [mem_visUpTo]
          intro hc
          rcases hc.2 with h | ⟨_, h⟩
          · dsimp only at h
            omega
          · dsimp only at h
            omega
        have hnrun : (((r, a + 1) : Pos)) ∉
            ((List.range' c0 (a - c0)).map fun k => ((r, k) : Pos)) ++
              [(r, a)] := by
          intro hc
          rw [runext_eq_range r c0 a hc0a] at hc
          obtain ⟨k, hk, hkq⟩ := List.mem_map.mp hc
          obtain ⟨hk1, hk2⟩ := List.mem_range'_1.mp hk
          have := (Prod.mk.injEq .. ▸ hkq).2
          omega
        have hf1 : ((((r, a) : Pos)), (((r, a + 1) : Pos))) ∉
            sB ++ pathPairs (((List.range' c0 (a - c0)).map
              fun k => ((r, k) : Pos)) ++ [(r, a)]) := by
          intro hc
          rcases List.mem_append.mp hc with h | h
          · exact hnend (hinv.ends _ _ h).2.1
          · exact hnrun (pathPairs_mem_sub _ _ _ h).2
        have hf2 : ((((r, a + 1) : Pos)), (((r, a) : Pos))) ∉
            sB ++ pathPairs (((List.range' c0 (a - c0)).map
              fun k => ((r, k) : Pos)) ++ [(r, a)]) := by
          intro hc
          rcases List.mem_append.mp hc with h | h
          · exact hnend (hinv.ends _ _ h).1
          · exact hnrun (pathPairs_mem_sub _ _ _ h).1
        have hab : (((r, a) : Pos)) ≠ ((r, a + 1) : Pos) := by
          intro hc
          have := (Prod.mk.injEq .. ▸ hc).2
          omega
        have hlast : ((((List.range' c0 (a - c0)).map
            fun k => ((r, k) : Pos)) ++ [(r, a)])).getLast? =
            some ((r, a) : Pos) := List.getLast?_concat _
        obtain ⟨s2, i2, j2, hfold, hinv2⟩ := ih (a + 1) c0 sB i (j + 1)
          (by omega) (by omega) (by omega) hinv
        refine ⟨s2, i2, j2, ?_, hinv2⟩
        have hstate :
            ((link (sB ++ pathPairs (((List.range' c0 (a - c0)).map
                  fun k => ((r, k) : Pos)) ++ [(r, a)]))
                ((r, a) : Pos) ((r, a + 1) : Pos) true,
              ((List.range' c0 (a - c0)).map fun k => ((r, k) : Pos)) ++
                [(r, a)], i, j + 1) : SwState) =
            (sB ++ pathPairs (((List.range' c0 (a + 1 - c0)).map
                fun k => ((r, k) : Pos)) ++ [(r, a + 1)]),
             (List.range' c0 (a + 1 - c0)).map fun k => ((r, k) : Pos),
             i, j + 1) := by
          rw [link_fresh_eq hf1 hf2 hab]
          rw [show a + 1 - c0 = a - c0 + 1 from by omega]
          rw [← runext_eq_range r c0 a hc0a]
          rw [pathPairs_append_last _ ((r, a) : Pos) ((r, a + 1) : Pos) hlast]
          simp only [List.append_assoc]
        rw [hstate]
        exact hfold
      | false =>
        obtain ⟨nb, hn, hinv2⟩ := sw_close_step g rnd r hr0 hrR a c0 sB i
          (by omega) hc0a hinv
        rw [swCell_close_east g odds rndQ rnd _ _ i j ((r, a) : Pos)
          ((r, a + 1) : Pos) nb hpne hdec he hn]
        obtain ⟨s2, i2, j2, hfold, hinv3⟩ := ih (a + 1) (a + 1) _ (i + 1)
          (j + 1) (by omega) (by omega) (le_refl _) hinv2
        refine ⟨s2, i2, j2, ?_, hinv3⟩
        rw [show a + 1 - (a + 1) = 0 from by omega] at hfold
        rw [show List.range' (a + 1) 0 = ([] : List Nat) from rfl] at hfold
        simp only [List.map_nil, List.nil_append] at hfold
        rw [show pathPairs [((r, a + 1) : Pos)] = [] from rfl] at hfold
        rw [List.append_nil] at hfold
        exact hfold

theorem sidewinderRow_eq (g : Grid) (odds : ℚ) (rndQ : Nat → ℚ)
    (rnd : Nat → Nat) (s : LinkState) (i j : Nat) (r : Nat) :
    sidewinderRow g odds rndQ rnd (s, i, j) r =
      (((g.rowList r).foldl (sidewinderCell g odds rndQ rnd) (s, [], i, j)).1,
       ((g.rowList r).foldl (sidewinderCell g odds rndQ rnd)
         (s, [], i, j)).2.2.1,
       ((g.rowList r).foldl (sidewinderCell g odds rndQ rnd)
         (s, [], i, j)).2.2.2) := rfl

theorem sw_rows_fold (g : Grid) (odds : ℚ) (rndQ : Nat → ℚ) (rnd : Nat → Nat)
    (hC : 0 < g.num_columns) :
    ∀ (n r : Nat) (s : LinkState) (i j : Nat), 0 < r →
      r + n = g.num_rows → SpanInv g (visUpTo g r 0) s →
      ∃ s2 i2 j2,
        (List.range' r n).foldl (sidewinderRow g odds rndQ rnd) (s, i, j) =
          (s2, i2, j2) ∧ SpanInv g (visUpTo g g.num_rows 0) s2 := by
  intro n
  induction n with
  | zero =>
    intro r s i j hr0 hrR hinv
    refine ⟨s, i, j, rfl, ?_⟩
    rw [show g.num_rows = r from by omega]
    exact hinv
  | succ n ih =>
    intro r s i j hr0 hrR hinv
    rw [List.range'_succ, List.foldl_cons]
    obtain ⟨s2, i2, j2, hfold, hinv2⟩ := sw_row_fold g odds rndQ rnd r hr0
      (by omega) g.num_columns 0 0 s i j (by omega) hC (le_refl 0) hinv
    rw [show (0 : Nat) - 0 = 0 from rfl] at hfold
    rw [show List.range' 0 0 = ([] : List Nat) from rfl] at hfold
    simp only [List.map_nil, List.nil_append] at hfold
    rw [show pathPairs [((r, 0) : Pos)] = [] from rfl] at hfold
    rw [List.append_nil] at hfold
    rw [sidewinderRow_eq, rowList_eq_range, hfold]
    exact ih (r + 1) s2 i2 j2 (by omega) (by omega)
      (by rwa [visUpTo_row_end] at hinv2)

theorem sidewinderRun_spanning (g : Grid) (odds : ℚ) (rndQ : Nat → ℚ)
    (rnd : Nat → Nat) (hr : 0 < g.num_rows) (hc : 0 < g.num_columns) :
    IsSpanning g (sidewinderRun g odds rndQ rnd []) := by
  obtain ⟨m, hm⟩ : ∃ m, g.num_rows = m + 1 := ⟨g.num_rows - 1, by omega⟩
  have hnd0 : ((List.range' 0 g.num_columns).map
      fun k => (((0 : Nat), k) : Pos)).Nodup :=
    (List.nodup_range' 0 g.num_columns).map
      (fun x y h => (Prod.mk.injEq .. ▸ h).2)
  have hne0 : ((List.range' 0 g.num_columns).map
      fun k => (((0 : Nat), k) : Pos)) ≠ [] := by
    intro hcon
    have := congrArg List.length hcon
    simp at this
    omega
  have hsub0 : ∀ p ∈ (List.range' 0 g.num_columns).map
      fun k => (((0 : Nat), k) : Pos), p ∈ g.cellList := by
    intro p hp
    obtain ⟨k, hk, hpk⟩ := List.mem_map.mp hp
    obtain ⟨_, hk2⟩ := List.mem_range'_1.mp hk
    subst hpk
    exact mem_cellList.mpr ⟨hr, by omega⟩
  have hseg : ((List.range' 0 g.num_columns).map
      fun k => (((0 : Nat), k) : Pos)).toFinset = visUpTo g 1 0 := by
    rw [← rowList_eq_range g 0, rowList_toFinset g hr]
  have hinv1 : SpanInv g (visUpTo g 1 0)
      (pathPairs ((List.range' 0 g.num_columns).map
        fun k => (((0 : Nat), k) : Pos))) :=
    hseg ▸ spanInv_of_path g _ hne0 hnd0 hsub0
  obtain ⟨s2, i2, j2, hfold2, hinv2⟩ := sw_rows_fold g odds rndQ rnd hc m 1
    (pathPairs ((List.range' 0 g.num_columns).map
      fun k => (((0 : Nat), k) : Pos))) 0 0 Nat.one_pos (by omega) hinv1
  unfold sidewinderRun
  rw [List.range_eq_range', hm, List.range'_succ, List.foldl_cons]
  simp only [Nat.zero_add]
  rw [sidewinderRow_eq, rowList_eq_range]
  rw [sw_row0_fold g odds rndQ rnd g.num_columns 0 [] [] 0 0 (by omega)
    (by intro x hx; cases hx)]
  simp only [List.nil_append]
  rw [hfold2]
  exact isSpanning_of_spanInv (visUpTo_full g ▸ hinv2)

theorem sidewinder_spanning {g : Grid} {odds : ℚ} {rndQ : Nat → ℚ}
    {rnd : Nat → Nat} {out : LinkState} (hr : 0 < g.num_rows)
    (hc : 0 < g.num_columns)
    (hrun : sidewinder g odds rndQ rnd [] = .ok out) : IsSpanning g out := by
  unfold sidewinder at hrun
  split_ifs at hrun
  have hout : sidewinderRun g odds rndQ rnd [] = out := by
    exact Except.ok.inj hrun
  rw [← hout]
  exact sidewinderRun_spanning g odds rndQ rnd hr hc

/-- C1: On every non-degenerate grid, every run of each of the six
generation algorithms that finishes does so with the link graph a spanning
tree: every cell is reachable from every other via links, and the number of
undirected links is exactly `size() - 1`.  `binary_tree` and `sidewinder`
always terminate (`sidewinder` returns normally whenever its
`0 <= odds < 1` asserts pass), and `recursive_backtracker` terminates
within `2 * size() + 1` loop iterations; but the original claim that *all*
six algorithms terminate on *every* random sequence is false —
`aldous_broder` loops forever on an adversarial sequence (see the
counterexample) — so for the random-walk algorithms the spanning-tree
property is stated for every terminating run. -/
theorem generation_algorithms_spanning {g : Grid} (hr : 0 < g.num_rows)
    (hc : 0 < g.num_columns) :
    (∀ rnd : Nat → Nat, IsSpanning g (binary_tree g rnd [])) ∧
    (∀ (odds : ℚ) (rndQ : Nat → ℚ) (rnd : Nat → Nat) (out : LinkState),
      sidewinder g odds rndQ rnd [] = .ok out → IsSpanning g out) ∧
    (∀ (rnd : Nat → Nat) (fuel : Nat) (out : LinkState),
      aldous_broder g rnd fuel [] = some out → IsSpanning g out) ∧
    (∀ (rnd : Nat → Nat) (fuel wfuel : Nat) (out : LinkState),
      wilson g rnd fuel wfuel [] = some out → IsSpanning g out) ∧
    (∀ (rnd : Nat → Nat) (threshold : ℚ) (fuel1 fuel2 wfuel : Nat)
      (out : LinkState), 0 ≤ threshold →
      hybrid g rnd threshold fuel1 fuel2 wfuel [] = some out →
      IsSpanning g out) ∧
    (∀ (rnd : Nat → Nat) (start? : Option Pos) (fuel : Nat)
      (out : LinkState), (∀ c, start? = some c → c ∈ g.cellList) →
      recursive_backtracker g rnd start? fuel [] = some out →
      IsSpanning g out) ∧
    (∀ (odds : ℚ) (rndQ : Nat → ℚ) (rnd : Nat → Nat),
      0 ≤ odds → odds < 1 →
      ∃ out, sidewinder g odds rndQ rnd [] = .ok out) ∧
    (∀ (rnd : Nat → Nat) (start? : Option Pos),
      (∀ c, start? = some c → c ∈ g.cellList) →
      ∃ out, recursive_backtracker g rnd start? (2 * g.size + 1) [] =
        some out) := by
  refine ⟨?_, ?_, ?_, ?_, ?_, ?_, ?_, ?_⟩
  · intro rnd
    exact binary_tree_spanning rnd hr hc
  · intro odds rndQ rnd out hrun
    exact sidewinder_spanning hr hc hrun
  · intro rnd fuel out hrun
    exact aldous_broder_spanning hr hc hrun
  · intro rnd fuel wfuel out hrun
    exact wilson_spanning hr hc hrun
  · intro rnd threshold fuel1 fuel2 wfuel out hthr hrun
    exact hybrid_spanning hr hc hthr hrun
  · intro rnd start? fuel out hstart hrun
    exact recursive_backtracker_spanning hr hc hstart hrun
  · intro odds rndQ rnd h0 h1
    unfold sidewinder
    rw [if_neg (not_not.mpr h0), if_neg (not_not.mpr h1)]
    exact ⟨_, rfl⟩
  · intro rnd start? hstart
    exact recursive_backtracker_terminates hr hc hstart

/-! ## Dijkstra on the 1×N line -/

theorem lineState_succ (m : Nat) :
    lineState (m + 2) = link (lineState (m + 1)) (0, m) (0, m + 1) true := by
  unfold lineState
  rw [show m + 2 - 1 = m + 1 from rfl, show m + 1 - 1 = m from rfl,
    List.range_succ, List.foldl_append]
  rfl

theorem line_mem_lt : ∀ (N : Nat) (x : Pos × Pos), x ∈ lineState N →
    x.1.2 < N ∧ x.2.2 < N := by
  intro N
  induction N with
  | zero =>
    intro x hx
    rw [show lineState 0 = [] from rfl] at hx
    cases hx
  | succ m ih =>
    intro x hx
    cases m with
    | zero =>
      rw [show lineState 1 = [] from rfl] at hx
      cases hx
    | succ t =>
      rw [lineState_succ t] at hx
      rcases mem_link_true.mp hx with h | h | h
      · obtain ⟨h1, h2⟩ := ih x h
        exact ⟨by omega, by omega⟩
      · subst h
        exact ⟨by dsimp only; omega, by dsimp only; omega⟩
      · subst h
        exact ⟨by dsimp only; omega, by dsimp only; omega⟩

theorem allLinks_append (s1 s2 : LinkState) (a : Pos) :
    allLinks (s1 ++ s2) a = allLinks s1 a ++ allLinks s2 a := by
  unfold allLinks
  rw [List.filterMap_append]

theorem allLinks_two (a b c : Pos) :
    allLinks [(a, b), (b, a)] c =
      (if a = c then [b] else []) ++ (if b = c then [a] else []) := by
  unfold allLinks
  by_cases hac : a = c <;> by_cases hbc : b = c <;>
    simp [List.filterMap_cons, hac, hbc]

theorem allLinks_line_out (N j : Nat) (hj : N ≤ j) :
    allLinks (lineState N) ((0 : Nat), j) = [] := by
  unfold allLinks
  rw [List.filterMap_eq_nil]
  intro e he
  rw [if_neg]
  intro hc
  have := (line_mem_lt N e he).1
  rw [hc] at this
  dsimp only at this
  omega

theorem allLinks_line : ∀ (N j : Nat), j < N →
    allLinks (lineState N) ((0 : Nat), j) =
      (if 0 < j then [(((0 : Nat), j - 1) : Pos)] else []) ++
      (if j + 1 < N then [(((0 : Nat), j + 1) : Pos)] else []) := by
  intro N
  induction N with
  | zero =>
    intro j hj
    omega
  | succ m ih =>
    intro j hj
    cases m with
    | zero =>
      have hj0 : j = 0 := by omega
      subst hj0
      rw [if_neg (by omega), if_neg (by omega)]
      rfl
    | succ t =>
      have hf1 : ((((0 : Nat), t) : Pos), (((0 : Nat), t + 1) : Pos)) ∉
          lineState (t + 1) := by
        intro hc
        have := (line_mem_lt (t + 1) _ hc).2
        dsimp only at this
        omega
      have hf2 : ((((0 : Nat), t + 1) : Pos), (((0 : Nat), t) : Pos)) ∉
          lineState (t + 1) := by
        intro hc
        have := (line_mem_lt (t + 1) _ hc).1
        dsimp only at this
        omega
      have hab : ((((0 : Nat), t) : Pos)) ≠ (((0 : Nat), t + 1) : Pos) := by
        intro hc
        have := (Prod.mk.injEq .. ▸ hc).2
        omega
      rw [lineState_succ t, link_fresh_eq hf1 hf2 hab, allLinks_append,
        allLinks_two]
      by_cases hjt : j < t + 1
      · rw [ih j hjt]
        rw [if_neg (show ¬ ((((0 : Nat), t + 1) : Pos)) = ((0 : Nat), j) by
          intro hc
          have := (Prod.mk.injEq .. ▸ hc).2
          omega)]
        by_cases hjt2 : t = j
        · subst hjt2
          rw [if_pos rfl]
          rw [if_neg (show ¬ (t + 1 < t + 1) from by omega)]
          rw [if_pos (show t + 1 < t + 1 + 1 from by omega)]
          simp
        · rw [if_neg (show ¬ ((((0 : Nat), t) : Pos)) = ((0 : Nat), j) by
            intro hc
            have := (Prod.mk.injEq .. ▸ hc).2
            omega)]
          rw [if_pos (show j + 1 < t + 1 from by omega)]
          rw [if_pos (show j + 1 < t + 1 + 1 from by omega)]
          simp
      · have hjeq : j = t + 1 := by omega
        subst hjeq
        rw [allLinks_line_out (t + 1) (t + 1) (le_refl _)]
        rw [if_neg (show ¬ ((((0 : Nat), t) : Pos)) = ((0 : Nat), t + 1) by
          intro hc
          have := (Prod.mk.injEq .. ▸ hc).2
          omega)]
        rw [if_pos rfl]
        rw [if_pos (show 0 < t + 1 from by omega)]
        rw [if_neg (show ¬ (t + 1 + 1 < t + 1 + 1) from by omega)]
        simp

theorem marksUpTo_succ (t : Nat) :
    marksUpTo (t + 1) = marksUpTo t ++ [((((0 : Nat), t) : Pos), t)] := by
  unfold marksUpTo
  rw [List.range_succ, List.map_append]
  rfl

theorem find_marksUpTo_none (t j : Nat) (hj : t ≤ j) :
    (marksUpTo t).find? (fun e => e.1 == (((0 : Nat), j) : Pos)) = none := by
  rw [List.find?_eq_none]
  intro x hx
  unfold marksUpTo at hx
  obtain ⟨i, hi, hxi⟩ := List.mem_map.mp hx
  rw [List.mem_range] at hi
  subst hxi
  simp only [beq_iff_eq]
  show ¬ ((((0 : Nat), i) : Pos)) = ((0 : Nat), j)
  intro hc
  have := (Prod.mk.injEq .. ▸ hc).2
  omega

theorem lookupM_marksUpTo : ∀ (m j : Nat), j < m →
    lookupM (marksUpTo m) (((0 : Nat), j) : Pos) = some j := by
  intro m
  induction m with
  | zero =>
    intro j hj
    omega
  | succ t ih =>
    intro j hj
    unfold lookupM
    rw [marksUpTo_succ, List.find?_append]
    by_cases hjt : j < t
    · have hprev := ih j hjt
      unfold lookupM at hprev
      rcases hfind : (marksUpTo t).find?
          (fun e => e.1 == (((0 : Nat), j) : Pos)) with _ | e
      · rw [hfind] at hprev
        cases hprev
      · rw [hfind] at hprev
        rw [hfind]
        exact hprev
    · have hjeq : j = t := by omega
      subst hjeq
      rw [find_marksUpTo_none j j (le_refl j)]
      rw [List.find?_cons_of_pos _ (by simp)]
      rfl

theorem getItemM_marksUpTo (m j : Nat) (hj : j < m) :
    getItemM (marksUpTo m) (((0 : Nat), j) : Pos) = j := by
  unfold getItemM
  rw [lookupM_marksUpTo m j hj]
  rfl

theorem lookupM_marksUpTo_out (m j : Nat) (hj : m ≤ j) :
    lookupM (marksUpTo m) (((0 : Nat), j) : Pos) = none := by
  unfold lookupM
  rw [find_marksUpTo_none m j hj]
  rfl

theorem popMin_singleton (e : Entry) : popMin [e] = some (e, []) := by
  unfold popMin
  simp [List.erase_cons_head]

theorem dijkstraLoop_empty (s : LinkState) (fuel : Nat) (m : Marks) :
    dijkstraLoop s fuel m [] = some m := by
  cases fuel <;> (unfold dijkstraLoop; rfl)

theorem setM_absent (m : Marks) (p : Pos) (v : Nat)
    (h : m.find? (fun e => e.1 == p) = none) :
    setM m p v = m ++ [(p, v)] := by
  unfold setM
  rw [if_neg]
  rw [List.find?_eq_none] at h
  intro hc
  rw [List.any_eq_true] at hc
  obtain ⟨x, hx, hpx⟩ := hc
  exact h x hx hpx

theorem relax_line_mid (N k : Nat) (hk : k + 1 < N) :
    relaxAll (lineState N) (((0 : Nat), k) : Pos) k (marksUpTo (k + 1)) [] =
      (marksUpTo (k + 2), [(k + 1, (((0 : Nat), k + 1) : Pos))]) := by
  unfold relaxAll
  rw [allLinks_line N k (by omega)]
  rw [if_pos hk]
  by_cases hk0 : 0 < k
  · rw [if_pos hk0, List.singleton_append]
    rw [List.foldl_cons]
    dsimp only
    rw [lookupM_marksUpTo (k + 1) (k - 1) (by omega),
      getItemM_marksUpTo (k + 1) (k - 1) (by omega)]
    rw [if_neg (show ¬ (((some (k - 1)).isNone ||
        decide (k + 1 < k - 1)) = true) by
      simp only [Option.isNone_some, Bool.false_or, decide_eq_true_eq]
      omega)]
    rw [List.foldl_cons]
    dsimp only
    rw [lookupM_marksUpTo_out (k + 1) (k + 1) (le_refl _)]
    rw [if_pos (by simp)]
    rw [List.foldl_nil]
    rw [setM_absent _ _ _ (find_marksUpTo_none (k + 1) (k + 1) (le_refl _))]
    rw [← marksUpTo_succ (k + 1), List.nil_append]
  · rw [if_neg hk0, List.nil_append]
    rw [List.foldl_cons]
    dsimp only
    rw [lookupM_marksUpTo_out (k + 1) (k + 1) (le_refl _)]
    rw [if_pos (by simp)]
    rw [List.foldl_nil]
    rw [setM_absent _ _ _ (find_marksUpTo_none (k + 1) (k + 1) (le_refl _))]
    rw [← marksUpTo_succ (k + 1), List.nil_append]

theorem relax_line_last (N k : Nat) (hkN : k + 1 = N) (hk : k < N) :
    relaxAll (lineState N) (((0 : Nat), k) : Pos) k (marksUpTo (k + 1)) [] =
      (marksUpTo (k + 1), []) := by
  unfold relaxAll
  rw [allLinks_line N k hk]
  rw [if_neg (show ¬ (k + 1 < N) from by omega)]
  by_cases hk0 : 0 < k
  · rw [if_pos hk0, List.append_nil]
    rw [List.foldl_cons]
    dsimp only
    rw [lookupM_marksUpTo (k + 1) (k - 1) (by omega),
      getItemM_marksUpTo (k + 1) (k - 1) (by omega)]
    rw [if_neg (show ¬ (((some (k - 1)).isNone ||
        decide (k + 1 < k - 1)) = true) by
      simp only [Option.isNone_some, Bool.false_or, decide_eq_true_eq]
      omega)]
    rw [List.foldl_nil]
  · rw [if_neg hk0, List.append_nil]
    rfl

theorem dijkstra_line_loop (N : Nat) : ∀ (fuel k : Nat), k < N →
    N - k ≤ fuel →
    dijkstraLoop (lineState N) fuel (marksUpTo (k + 1))
      [(k, (((0 : Nat), k) : Pos))] = some (marksUpTo N) := by
  intro fuel
  induction fuel with
  | zero =>
    intro k hk hfuel
    omega
  | succ fuel ih =>
    intro k hk hfuel
    conv_lhs => unfold dijkstraLoop
    rw [popMin_singleton (k, (((0 : Nat), k) : Pos))]
    show (if getItemM (marksUpTo (k + 1)) (((0 : Nat), k) : Pos) < k then
        dijkstraLoop (lineState N) fuel (marksUpTo (k + 1)) []
      else
        dijkstraLoop (lineState N) fuel
          (relaxAll (lineState N) (((0 : Nat), k) : Pos) k
            (marksUpTo (k + 1)) []).1
          (relaxAll (lineState N) (((0 : Nat), k) : Pos) k
            (marksUpTo (k + 1)) []).2) = some (marksUpTo N)
    rw [getItemM_marksUpTo (k + 1) k (by omega)]
    rw [if_neg (lt_irrefl k)]
    by_cases hlast : k + 1 < N
    · rw [relax_line_mid N k hlast]
      dsimp only
      exact ih (k + 1) (by omega) (by omega)
    · have hke : k + 1 = N := by omega
      rw [relax_line_last N k hke hk]
      dsimp only
      rw [hke]
      exact dijkstraLoop_empty _ fuel _

theorem dijkstra_line (N fuel : Nat) (h1 : 1 ≤ N) (hfuel : N ≤ fuel) :
    dijkstraMarkup (lineState N) ((0 : Nat), 0) fuel = some (marksUpTo N) := by
  unfold dijkstraMarkup
  rw [show setM [] (((0 : Nat), 0) : Pos) 0 = marksUpTo 1 from rfl]
  exact dijkstra_line_loop N fuel 0 (by omega) (by omega)

/-- C3: For every `N ≥ 1` and `k < N`, on the 1×N grid whose cells are
fully linked in an east-west line, `DijkstraMarkup` rooted at
`cell_at(0, 0)` terminates (fuel `N` suffices) and assigns markup value
`k` to `cell_at(0, k)`: the distance table maps the cell `k` steps east of
the root to exactly `k`. -/
theorem dijkstra_line_correct (N k : Nat) (h1 : 1 ≤ N) (hk : k < N) :
    ∃ marks, dijkstraMarkup (lineState N) ((0 : Nat), 0) N = some marks ∧
      ∀ p, (g1N N).cell_at 0 k = some p →
        lookupM marks p = some k ∧ getItemM marks p = k := by
  refine ⟨marksUpTo N, dijkstra_line N N h1 (le_refl N), ?_⟩
  have hcell : (g1N N).cell_at 0 (k : Int) = some (((0 : Nat), k) : Pos) := by
    unfold g1N Grid.cell_at
    dsimp only
    rw [if_pos ⟨by omega, by omega, by omega, by omega⟩]
    simp
  intro p hp
  rw [hcell] at hp
  have hpk : (((0 : Nat), k) : Pos) = p := Option.some.inj hp
  subst hpk
  exact ⟨lookupM_marksUpTo N k hk, getItemM_marksUpTo N k hk⟩

theorem dijkstra_line_correct_witness :
    1 ≤ 3 ∧ 2 < 3 ∧
      (∃ marks, dijkstraMarkup (lineState 3) ((0 : Nat), 0) 3 = some marks ∧
        ∀ p, (g1N 3).cell_at 0 2 = some p →
          lookupM marks p = some 2 ∧ getItemM marks p = 2) :=
  ⟨by decide, by decide, dijkstra_line_correct 3 2 (by decide) (by decide)⟩

/-! ## ShortestPathMarkup on the 1×N line -/

theorem find_map_set {V : Type} (p : Pos) (v : V) :
    ∀ l : List (Pos × V),
      ((l.map fun e => if e.1 == p then (p, v) else e).find?
        fun e => e.1 == p) =
      if l.any (fun e => e.1 == p) then some (p, v) else none := by
  intro l
  induction l with
  | nil => rfl
  | cons a l ih =>
    rw [List.map_cons, List.any_cons]
    by_cases hap : (a.1 == p) = true
    · rw [if_pos hap]
      rw [List.find?_cons_of_pos (p := fun (e : Pos × V) => e.1 == p) _ (by simp)]
      rw [hap, Bool.true_or, if_pos rfl]
    · rw [if_neg hap]
      rw [List.find?_cons_of_neg (p := fun (e : Pos × V) => e.1 == p) _ hap]
      have hf : (a.1 == p) = false := by
        rwa [Bool.not_eq_true] at hap
      rw [hf, Bool.false_or]
      exact ih

theorem find_map_other {V : Type} (p q : Pos) (v : V) (hqp : q ≠ p) :
    ∀ l : List (Pos × V),
      ((l.map fun e => if e.1 == p then (p, v) else e).find?
        fun e => e.1 == q) = l.find? fun e => e.1 == q := by
  intro l
  induction l with
  | nil => rfl
  | cons a l ih =>
    rw [List.map_cons]
    by_cases hap : (a.1 == p) = true
    · rw [if_pos hap]
      rw [List.find?_cons_of_neg (p := fun (e : Pos × V) => e.1 == q) _ (by
        simp only [beq_iff_eq]
        exact fun hc => hqp hc.symm)]
      rw [ih]
      rw [List.find?_cons_of_neg (p := fun (e : Pos × V) => e.1 == q) _ (show
        ¬ ((a.1 == q) = true) by
        simp only [beq_iff_eq] at hap ⊢
        rw [hap]
        exact fun hc => hqp hc.symm)]
    · rw [if_neg hap]
      by_cases haq : (a.1 == q) = true
      · rw [List.find?_cons_of_pos (p := fun (e : Pos × V) => e.1 == q) _ haq,
          List.find?_cons_of_pos (p := fun (e : Pos × V) => e.1 == q) _ haq]
      · rw [List.find?_cons_of_neg (p := fun (e : Pos × V) => e.1 == q) _ haq,
          List.find?_cons_of_neg (p := fun (e : Pos × V) => e.1 == q) _ haq]
        exact ih

theorem getItem_setItem_same {V : Type} (m : Markup V) (p : Pos) (v : V) :
    (m.setItem p v).getItem p = v := by
  unfold Markup.setItem Markup.getItem Markup.lookup
  by_cases hany : (m.marks.any fun e => e.1 == p) = true
  · rw [if_pos hany]
    dsimp only
    rw [find_map_set p v m.marks, if_pos hany]
    rfl
  · rw [if_neg hany]
    dsimp only
    rw [List.find?_append]
    have hnone : (m.marks.find? fun e => e.1 == p) = none := by
      rw [List.find?_eq_none]
      intro x hx hpx
      exact hany (List.any_eq_true.mpr ⟨x, hx, hpx⟩)
    rw [hnone, Option.none_or]
    rw [List.find?_cons_of_pos (p := fun (e : Pos × V) => e.1 == p) _ (by simp)]
    rfl

theorem getItem_setItem_other {V : Type} (m : Markup V) (p q : Pos) (v : V)
    (hqp : q ≠ p) : (m.setItem p v).getItem q = m.getItem q := by
  unfold Markup.setItem Markup.getItem Markup.lookup
  by_cases hany : (m.marks.any fun e => e.1 == p) = true
  · rw [if_pos hany]
    dsimp only
    rw [find_map_other p q v hqp m.marks]
  · rw [if_neg hany]
    dsimp only
    rw [List.find?_append]
    rw [List.find?_cons_of_neg (p := fun (e : Pos × V) => e.1 == q) _ (by
      simp only [beq_iff_eq]
      exact fun hc => hqp hc.symm)]
    rw [show (List.find? (fun e => e.1 == q) ([] : List (Pos × V))) = none
      from rfl]
    rw [Option.or_none]

theorem foldl_setItem_const {V : Type} (non_path : V) :
    ∀ (l : List Pos) (m : Markup V), (∀ c, m.getItem c = non_path) →
      ∀ c, (l.foldl (fun acc c => acc.setItem c non_path) m).getItem c =
        non_path := by
  intro l
  induction l with
  | nil =>
    intro m hm c
    exact hm c
  | cons a l ih =>
    intro m hm c
    rw [List.foldl_cons]
    refine ih (m.setItem a non_path) ?_ c
    intro c2
    by_cases hca : c2 = a
    · subst hca
      exact getItem_setItem_same m c2 non_path
    · rw [getItem_setItem_other m a c2 non_path hca]
      exact hm c2

theorem argminByKey_single (f : Pos → Option Nat) (x : Pos) (vx : Nat)
    (hx : f x = some vx) : argminByKey f [x] = some (x, vx) := by
  unfold argminByKey
  rw [hx]
  rfl

theorem argminByKey_pair (f : Pos → Option Nat) (x y : Pos) (vx vy : Nat)
    (hx : f x = some vx) (hy : f y = some vy) :
    argminByKey f [x, y] =
      some (if vx ≤ vy then (x, vx) else (y, vy)) := by
  unfold argminByKey
  rw [hx, argminByKey_single f y vy hy]
  rfl

theorem argmin_line (N u : Nat) (hu0 : 0 < u) (huN : u < N) :
    argminByKey (lookupM (marksUpTo N)) (allLinks (lineState N) ((0 : Nat), u))
      = some ((((0 : Nat), u - 1) : Pos), u - 1) := by
  rw [allLinks_line N u huN, if_pos hu0]
  by_cases hlast : u + 1 < N
  · rw [if_pos hlast, List.singleton_append]
    rw [argminByKey_pair (lookupM (marksUpTo N)) _ _ (u - 1) (u + 1)
      (lookupM_marksUpTo N (u - 1) (by omega))
      (lookupM_marksUpTo N (u + 1) (by omega))]
    rw [if_pos (by omega)]
  · rw [if_neg hlast, List.append_nil]
    exact argminByKey_single _ _ (u - 1) (lookupM_marksUpTo N (u - 1) (by omega))

theorem spWalk_line {V : Type} (N : Nat) (path_marker : V) :
    ∀ (t fuel : Nat) (pm : Markup V), t < N → t ≤ fuel →
      ∃ pmf, spWalk (lineState N) (marksUpTo N) ((0 : Nat), 0) path_marker
          fuel ((0 : Nat), t) pm = some pmf ∧
        ∀ c : Pos, pmf.getItem c =
          if c.1 = 0 ∧ 1 ≤ c.2 ∧ c.2 ≤ t then path_marker
          else pm.getItem c := by
  intro t
  induction t with
  | zero =>
    intro fuel pm ht hf
    refine ⟨pm, ?_, ?_⟩
    · conv_lhs => unfold spWalk
      rw [if_pos rfl]
    · intro c
      rw [if_neg (by rintro ⟨_, h1, h2⟩; omega)]
  | succ t ih =>
    intro fuel pm ht hf
    cases fuel with
    | zero => omega
    | succ f =>
      obtain ⟨pmf, hwalk, hval⟩ := ih f
        (pm.setItem ((0 : Nat), t + 1) path_marker) (by omega) (by omega)
      refine ⟨pmf, ?_, ?_⟩
      · conv_lhs => unfold spWalk
        rw [if_neg (show ¬ ((((0 : Nat), t + 1) : Pos)) = ((0 : Nat), 0) by
          intro hc
          have := (Prod.mk.injEq .. ▸ hc).2
          omega)]
        show (match argminByKey (lookupM (marksUpTo N))
            (allLinks (lineState N) (((0 : Nat), t + 1) : Pos)) with
          | none => none
          | some (next, _) =>
            spWalk (lineState N) (marksUpTo N) ((0 : Nat), 0) path_marker f
              next (pm.setItem (((0 : Nat), t + 1)) path_marker)) = some pmf
        rw [argmin_line N (t + 1) (by omega) ht]
        exact hwalk
      · intro c
        rw [hval c]
        by_cases hmid : c.1 = 0 ∧ 1 ≤ c.2 ∧ c.2 ≤ t
        · have hmid2 : c.1 = 0 ∧ 1 ≤ c.2 ∧ c.2 ≤ t + 1 := by
            obtain ⟨h1, h2, h3⟩ := hmid
            exact ⟨h1, h2, by omega⟩
          rw [if_pos hmid, if_pos hmid2]
        · rw [if_neg hmid]
          by_cases hc : c = ((0 : Nat), t + 1)
          · subst hc
            rw [getItem_setItem_same]
            rw [if_pos ⟨rfl, by dsimp only; omega, by dsimp only; omega⟩]
          · rw [getItem_setItem_other pm _ c path_marker hc]
            rw [if_neg]
            intro ⟨h1, h2, h3⟩
            have hc2 : c.2 = t + 1 := by
              by_cases hle : c.2 ≤ t
              · exact absurd ⟨h1, h2, hle⟩ hmid
              · omega
            apply hc
            rw [← h1, ← hc2]

theorem cellList_g1N (N : Nat) :
    (g1N N).cellList = (List.range N).map fun c => (((0 : Nat), c) : Pos) := by
  unfold g1N Grid.cellList
  dsimp only
  rw [show List.range 1 = [0] from rfl]
  rw [List.flatMap_cons, List.flatMap_nil, List.append_nil]

theorem countP_range_mid : ∀ N : Nat,
    (List.range N).countP (fun j => decide (1 ≤ j ∧ j + 1 < N)) = N - 2 := by
  intro N
  match N with
  | 0 => rfl
  | 1 => rfl
  | m + 2 =>
    rw [List.range_eq_range', List.range'_succ, List.range'_1_concat]
    simp only [Nat.zero_add]
    rw [List.countP_cons, List.countP_append, List.countP_cons,
      List.countP_nil]
    have h0 : (decide (1 ≤ 0 ∧ 0 + 1 < m + 2)) = false := by
      rw [decide_eq_false_iff_not]
      omega
    have hlast : (decide (1 ≤ 1 + m ∧ 1 + m + 1 < m + 2)) = false := by
      rw [decide_eq_false_iff_not]
      omega
    have hall : ∀ a ∈ List.range' 1 m,
        (fun j => decide (1 ≤ j ∧ j + 1 < m + 2)) a = true := by
      intro a ha
      obtain ⟨ha1, ha2⟩ := List.mem_range'_1.mp ha
      simp only [decide_eq_true_eq]
      omega
    rw [List.countP_eq_length.mpr hall, List.length_range']
    rw [h0, hlast]
    simp

/-- C2: On the 1×N east-west line (its link graph is a spanning tree) with
`start = (0,0)` and `goal = (0, N-1)`: `ShortestPathMarkup` marks both
endpoints `end_marker` — that part of the claim is right — and the
`path_marker`-valued cells are exactly the interior chain
`(0,1) … (0,N-2)`, i.e. `DijkstraMarkup(grid, start)[goal] - 1` cells, not
the claimed `+ 1`: the backward walk marks `goal` and every intermediate
cell with `path_marker`, never marks `start`, and then both endpoints are
overwritten with `end_marker`. -/
theorem shortest_path_line {V : Type} [DecidableEq V] (N : Nat)
    (h1 : 1 ≤ N) (path_marker non_path_marker end_marker : V)
    (hpe : path_marker ≠ end_marker) :
    ∃ (marks : Marks) (pmf : Markup V),
      dijkstraMarkup (lineState N) ((0 : Nat), 0) N = some marks ∧
      shortestPathMarkup (g1N N) (lineState N) ((0 : Nat), 0)
        ((0 : Nat), N - 1) path_marker non_path_marker end_marker N N =
        some pmf ∧
      pmf.getItem ((0 : Nat), 0) = end_marker ∧
      pmf.getItem ((0 : Nat), N - 1) = end_marker ∧
      (∀ j, 1 ≤ j → j + 1 < N → pmf.getItem ((0 : Nat), j) = path_marker) ∧
      ((g1N N).cellList.countP fun c => decide (pmf.getItem c = path_marker))
        = getItemM marks ((0 : Nat), N - 1) - 1 := by
  have hdm := dijkstra_line N N h1 (le_refl N)
  obtain ⟨pmf, hwalk, hval⟩ := spWalk_line (V := V) N path_marker (N - 1) N
    ((g1N N).cellList.foldl (fun acc c => acc.setItem c non_path_marker)
      { grid := g1N N, marks := [], default := non_path_marker })
    (by omega) (by omega)
  set pmfinal := (pmf.setItem ((0 : Nat), 0) end_marker).setItem
    ((0 : Nat), N - 1) end_marker with hpmfinal
  have hspm : shortestPathMarkup (g1N N) (lineState N) ((0 : Nat), 0)
      ((0 : Nat), N - 1) path_marker non_path_marker end_marker N N =
      some pmfinal := by
    unfold shortestPathMarkup
    rw [hdm]
    show (match spWalk (lineState N) (marksUpTo N) ((0 : Nat), 0) path_marker
        N ((0 : Nat), N - 1)
        ((g1N N).cellList.foldl (fun acc c => acc.setItem c non_path_marker)
          { grid := g1N N, marks := [], default := non_path_marker }) with
      | none => none
      | some pmf2 => some ((pmf2.setItem ((0 : Nat), 0) end_marker).setItem
          ((0 : Nat), N - 1) end_marker)) = some pmfinal
    rw [hwalk]
  have hfinal : ∀ c : Pos, pmfinal.getItem c =
      if c = ((0 : Nat), N - 1) then end_marker
      else if c = ((0 : Nat), 0) then end_marker
      else pmf.getItem c := by
    intro c
    rw [hpmfinal]
    by_cases hc1 : c = ((0 : Nat), N - 1)
    · subst hc1
      rw [getItem_setItem_same, if_pos rfl]
    · rw [getItem_setItem_other _ _ _ _ hc1, if_neg hc1]
      by_cases hc0 : c = ((0 : Nat), 0)
      · subst hc0
        rw [getItem_setItem_same, if_pos rfl]
      · rw [getItem_setItem_other _ _ _ _ hc0, if_neg hc0]
  have hmidval : ∀ j, 1 ≤ j → j + 1 < N →
      pmfinal.getItem ((0 : Nat), j) = path_marker := by
    intro j hj1 hj2
    rw [hfinal]
    rw [if_neg (by
      intro hc
      have := (Prod.mk.injEq .. ▸ hc).2
      omega)]
    rw [if_neg (by
      intro hc
      have := (Prod.mk.injEq .. ▸ hc).2
      omega)]
    rw [hval]
    rw [if_pos ⟨rfl, by dsimp only; omega, by dsimp only; omega⟩]
  have hval_end : ∀ a, a < N → ¬ (1 ≤ a ∧ a + 1 < N) →
      pmfinal.getItem ((0 : Nat), a) = end_marker := by
    intro a ha hnot
    rw [hfinal]
    by_cases hgoal : (((0 : Nat), a) : Pos) = ((0 : Nat), N - 1)
    · rw [if_pos hgoal]
    · rw [if_neg hgoal]
      have ha0 : a = 0 := by
        by_cases hcase : a + 1 = N
        · exfalso
          apply hgoal
          rw [show a = N - 1 from by omega]
        · omega
      subst ha0
      rw [if_pos rfl]
  refine ⟨marksUpTo N, pmfinal, hdm, hspm, ?_, ?_, hmidval, ?_⟩
  · exact hval_end 0 (by omega) (by omega)
  · rw [hfinal, if_pos rfl]
  · rw [cellList_g1N, List.countP_map]
    have hcong : ∀ a ∈ List.range N,
        ((fun c => decide (pmfinal.getItem c = path_marker)) ∘
          fun c => (((0 : Nat), c) : Pos)) a = true ↔
        (fun j => decide (1 ≤ j ∧ j + 1 < N)) a = true := by
      intro a ha
      rw [List.mem_range] at ha
      simp only [Function.comp_apply, decide_eq_true_eq]
      by_cases hmid : 1 ≤ a ∧ a + 1 < N
      · exact iff_of_true (hmidval a hmid.1 hmid.2) hmid
      · refine iff_of_false ?_ hmid
        rw [hval_end a ha hmid]
        exact fun hc => hpe hc.symm
    rw [List.countP_congr hcong, countP_range_mid N,
      getItemM_marksUpTo N (N - 1) (by omega)]
    omega

theorem shortest_path_line_witness :
    1 ≤ 4 ∧ (1 : Nat) ≠ 2 ∧
      (∃ (marks : Marks) (pmf : Markup Nat),
        dijkstraMarkup (lineState 4) ((0 : Nat), 0) 4 = some marks ∧
        shortestPathMarkup (g1N 4) (lineState 4) ((0 : Nat), 0)
          ((0 : Nat), 4 - 1) (1 : Nat) 0 2 4 4 = some pmf ∧
        pmf.getItem ((0 : Nat), 0) = 2 ∧
        pmf.getItem ((0 : Nat), 4 - 1) = 2 ∧
        (∀ j, 1 ≤ j → j + 1 < 4 → pmf.getItem ((0 : Nat), j) = 1) ∧
        ((g1N 4).cellList.countP fun c => decide (pmf.getItem c = 1)) =
          getItemM marks ((0 : Nat), 4 - 1) - 1) :=
  ⟨by decide, by decide,
    shortest_path_line 4 (by decide) 1 0 2 (by decide)⟩

theorem shortest_path_chain_counterexample :
    ∃ (marks : Marks) (pmf : Markup Nat),
      dijkstraMarkup (lineState 2) ((0 : Nat), 0) 2 = some marks ∧
      shortestPathMarkup (g1N 2) (lineState 2) ((0 : Nat), 0) ((0 : Nat), 1)
        (1 : Nat) 0 2 2 2 = some pmf ∧
      getItemM marks ((0 : Nat), 1) + 1 = 2 ∧
      ((g1N 2).cellList.countP fun c => decide (pmf.getItem c = 1)) = 0 :=
  ⟨_, _, rfl, rfl, rfl, rfl⟩

theorem generation_algorithms_spanning_witness :
    0 < g22.num_rows ∧ 0 < g22.num_columns ∧
      IsSpanning g22 (binary_tree g22 (fun _ => 0) []) :=
  ⟨by decide, by decide,
    (generation_algorithms_spanning (g := g22) (by decide) (by decide)).1
      (fun _ => 0)⟩

end Mazes

